import Mathlib

/-!
# Verification of the Goban board engine (`Goban.py`)

Shallow embedding of the `Board` class of `Goban.py`: coordinate codec,
Zobrist position hashing, the union-find string registry, stone placement
with capture resolution, suicide and super-ko checks, the push/pop history
trail, and the main `play_move` driver.

Modelling conventions:
* machine `int64` Zobrist values are nonnegative, and the only operation on
  them is bitwise XOR, so hashes are modelled as `Nat` with `Nat.xor`;
* Python sets (`_empties`, `_seenHashes`) are modelled as duplicate-free
  `List Nat` values with membership-checked insertion (`setAdd`) and
  element removal (`List.erase`); only membership and extensional content
  of these sets is ever observed by the engine;
* Python exceptions (the `assert` in `push` and in `play_move`, the
  `KeyError` raised by `self._empties.remove` on an occupied cell, the
  `IndexError` raised by numpy for an index outside `[-81, 81)`) are
  modelled with `Except GoErr`; `play_move`'s bare `return` on a finished
  game is modelled as the result `none`;
* the unbounded `while` loops of `_getStringOfStone` (union-find chain
  chasing) and `_breadthSearchString` are modelled with fuel that is a
  strict over-approximation of the longest possible terminating run
  (chains visit distinct cells, so length < 81; the flood fill pushes each
  cell at most four times).  On states where the Python loop terminates the
  fuelled version computes the same answer.
-/

set_option maxRecDepth 4000

namespace Goban

/-- Zobrist table of one `Board` instance: one 64-bit constant per
(cell, color) pair (`_positionHashes[f][c-1]`, accessed here as
`posHash f c` with `c ∈ {1, 2}`), plus the two pass constants. -/
structure Zob where
  posHash : Nat → Nat → Nat
  passHashB : Nat
  passHashW : Nat

/-- `Board.flip`: the other player (`_BLACK = 1`, `_WHITE = 2`). -/
def flip (player : Nat) : Nat := if player = 1 then 2 else 1

/-- The four candidate neighbors `(x+1,y), (x-1,y), (x,y+1), (x,y-1)` of a
flat coordinate, filtered by `_isOnBoard` and flattened, in the order
produced by `Board._get_neighbors` (board size 9). -/
def neighborsOf (f : Nat) : List Nat :=
  let x := f % 9
  let y := f / 9
  (if x + 1 < 9 then [f + 1] else []) ++
  (if 0 < x then [f - 1] else []) ++
  (if y + 1 < 9 then [f + 9] else []) ++
  (if 0 < y then [f - 9] else [])

/-- The successive ancestors visited by the `while` loop of
`Board._getStringOfStone` (the `successives` list): follow union-find
links until an entry of `-1`.  Fuel bounds the loop (82 suffices for every
terminating run on an 81-cell board). -/
def chaseChain : Nat → List Int → Nat → List Nat
  | 0, _, _ => []
  | fuel + 1, uf, f =>
    let v := uf.getD f (-1)
    if 0 ≤ v then v.toNat :: chaseChain fuel uf v.toNat else []

/-- `Board._getStringOfStone`: returns the root of the cell's string and
performs partial path compression, re-pointing every visited ancestor but
the last (`successives[:-1]`) at the root.  The queried cell itself is not
re-pointed. -/
def getStringOfStone (uf : List Int) (f : Nat) : Nat × List Int :=
  let chain := chaseChain 82 uf f
  match chain with
  | [] => (f, uf)
  | c :: cs =>
    let root := (c :: cs).getLastD f
    if (c :: cs).length > 1 then
      (root, ((c :: cs).dropLast).foldl (fun u x => u.set x (Int.ofNat root)) uf)
    else (root, uf)

/-- One history-trail frame: the full snapshot taken by `Board._pushBoard`
(the Zobrist table is immutable and not part of the frame; `_seenHashes`
and `_historyMoveNames` are likewise not snapshotted). -/
structure BFrame where
  nbWHITE : Int
  nbBLACK : Int
  capturedWHITE : Int
  capturedBLACK : Int
  nextPlayer : Nat
  board : List Nat
  gameOver : Bool
  lastPlayerHasPassed : Bool
  stringUnionFind : List Int
  stringLiberties : List Int
  stringSizes : List Int
  empties : List Nat
  currentHash : Nat
deriving DecidableEq

/-- The mutable state of one `Board` instance. -/
structure GoState where
  nbWHITE : Int
  nbBLACK : Int
  capturedWHITE : Int
  capturedBLACK : Int
  nextPlayer : Nat
  board : List Nat
  lastPlayerHasPassed : Bool
  gameOver : Bool
  stringUnionFind : List Int
  stringLiberties : List Int
  stringSizes : List Int
  empties : List Nat
  currentHash : Nat
  seenHashes : List Nat
  historyMoveNames : List String
  trailMoves : List BFrame
deriving DecidableEq

/-- Python `set.add` on the list model of a set. -/
def setAdd (l : List Nat) (x : Nat) : List Nat := if x ∈ l then l else l ++ [x]

/-- Python exceptions surfaced by the engine. -/
inductive GoErr where
  | assertionError : GoErr
  | keyError : GoErr
  | indexError : GoErr
deriving DecidableEq

/-- Worker loop of `Board._breadthSearchString`: `string` is the set of
collected stones (kept as a duplicate-free list), `frontier` the work list.
Each popped cell is added to `string`, and its neighbors of the string's
color that are not yet collected are pushed. -/
def bfsAux (board : List Nat) (color : Nat) : Nat → List Nat → List Nat → List Nat
  | 0, string, _ => string
  | _ + 1, string, [] => string
  | fuel + 1, string, current :: frontier =>
    let string' := if current ∈ string then string else string ++ [current]
    let adds := (neighborsOf current).filter
      (fun fn => decide (board.getD fn 0 = color ∧ fn ∉ string'))
    bfsAux board color fuel string' (adds ++ frontier)

/-- `Board._breadthSearchString`: all stones of the maximal same-colored
connected group containing `fc`, as a duplicate-free list. -/
def breadthSearchString (board : List Nat) (fc : Nat) : List Nat :=
  bfsAux board (board.getD fc 0) 1000 [fc] [fc]

/-- Shared dictionary update of `_is_suicide` / `_is_super_ko`: on the first
encounter of a string root, record its current liberty count minus one; on
a repeat encounter decrement the recorded value (dedup by root, one
decrement per adjacent cell). -/
def bumpLib (libs : List Int) (assoc : List (Nat × Int)) (r : Nat) : List (Nat × Int) :=
  if assoc.any (fun p => p.1 == r) then
    assoc.map (fun p => if p.1 = r then (p.1, p.2 - 1) else p)
  else assoc ++ [(r, libs.getD r (-1) - 1)]

/-- The neighbor survey of `Board._is_suicide`: returns `(none, uf)` when an
empty neighbor caused the early `return False`, else
`(some (libertiesFriends, libertiesOpponents), uf)` with both dictionaries
in insertion order.  Union-find path compression performed by the survey is
threaded through. -/
def suicideScan (board : List Nat) (libs : List Int) (color : Nat) :
    List Nat → List Int → List (Nat × Int) → List (Nat × Int) →
    Option (List (Nat × Int) × List (Nat × Int)) × List Int
  | [], uf, fr, op => (some (fr, op), uf)
  | fn :: rest, uf, fr, op =>
    if board.getD fn 0 = 0 then (none, uf)
    else
      let rp := getStringOfStone uf fn
      if board.getD fn 0 = color then
        suicideScan board libs color rest rp.2 (bumpLib libs fr rp.1) op
      else
        suicideScan board libs color rest rp.2 fr (bumpLib libs op rp.1)

/-- The verdict computed by `_is_suicide` from its survey result (`fo.1` is
`libertiesFriends`, `fo.2` is `libertiesOpponents`): an early empty
neighbor (`none`) is not suicide; a captured enemy string is not suicide;
no friendly dictionary entry, or summed friendly liberties of zero, is
suicide. -/
def suicideVerdict (fo : Option (List (Nat × Int) × List (Nat × Int))) : Bool :=
  match fo with
  | none => false
  | some fo =>
    if fo.2.any (fun p => p.2 == 0) then false
    else if fo.1.isEmpty then true
    else if fo.1.foldl (fun a p => a + p.2) 0 = 0 then true
    else false

/-- `Board._is_suicide` (with the union-find array after its path
compressions).  Legal when some neighbor is empty or some adjacent enemy
string would be captured; suicide when there is no friendly neighbor or the
summed liberties of the connected friendly strings would be zero. -/
def isSuicide (s : GoState) (f : Nat) (color : Nat) : Bool × List Int :=
  let res := suicideScan s.board s.stringLiberties color (neighborsOf f)
      s.stringUnionFind [] []
  (suicideVerdict res.1, res.2)

/-- `Board._is_super_ko`: simulate the hash the board would have after the
move, by XOR-ing in the placed stone and XOR-ing out every stone of every
enemy string whose liberties would drop to zero; report whether that hash
was already seen.  Returns `(alreadySeen, tmpHash, state)` where the state
carries the union-find array after the survey's path compressions. -/
def isSuperKo (z : Zob) (s : GoState) (f : Nat) (color : Nat) : Bool × Nat × GoState :=
  let tmp0 := s.currentHash ^^^ z.posHash f color
  let opp := flip color
  let step := fun (acc : List (Nat × Int) × List Int) (fn : Nat) =>
    if s.board.getD fn 0 = opp then
      (bumpLib s.stringLiberties acc.1 (getStringOfStone acc.2 fn).1,
        (getStringOfStone acc.2 fn).2)
    else acc
  let res := (neighborsOf f).foldl step ([], s.stringUnionFind)
  let tmp := res.1.foldl (fun h p =>
      if p.2 = 0 then
        (breadthSearchString s.board p.1).foldl (fun h2 fn => h2 ^^^ z.posHash fn opp) h
      else h) tmp0
  (decide (tmp ∈ s.seenHashes), tmp, { s with stringUnionFind := res.2 })

/-- Accumulator of the neighbor loop of `Board._put_stone`. -/
structure PSLoop where
  currentString : Nat
  uf : List Int
  libs : List Int
  sizes : List Int
  captured : List Nat
deriving DecidableEq

/-- One iteration of the neighbor loop of `Board._put_stone`: a same-colored
neighbor loses one liberty and is merged (`_merge_strings(stringNumber,
currentString)`) unless already the current string; an enemy neighbor loses
one liberty and is queued for capture when it reaches zero (dedup by
root). -/
def putStoneStep (board : List Nat) (color : Nat) (a : PSLoop) (fn : Nat) : PSLoop :=
  let v := board.getD fn 0
  if v = color then
    let rp := getStringOfStone a.uf fn
    let libs1 := a.libs.set rp.1 (a.libs.getD rp.1 (-1) - 1)
    if a.currentString ≠ rp.1 then
      let libs2 := libs1.set rp.1 (libs1.getD rp.1 (-1) + libs1.getD a.currentString (-1))
      let libs3 := libs2.set a.currentString (-1)
      let sizes2 := a.sizes.set rp.1 (a.sizes.getD rp.1 (-1) + a.sizes.getD a.currentString (-1))
      let sizes3 := sizes2.set a.currentString (-1)
      ⟨rp.1, rp.2.set a.currentString (Int.ofNat rp.1), libs3, sizes3, a.captured⟩
    else ⟨rp.1, rp.2, libs1, a.sizes, a.captured⟩
  else if v ≠ 0 then
    let rp := getStringOfStone a.uf fn
    let libs1 := a.libs.set rp.1 (a.libs.getD rp.1 (-1) - 1)
    if libs1.getD rp.1 (-1) = 0 ∧ rp.1 ∉ a.captured then
      { a with uf := rp.2, libs := libs1, captured := a.captured ++ [rp.1] }
    else { a with uf := rp.2, libs := libs1 }
  else a

/-- `Board._put_stone`: place the stone (grid, hash, empty set), start a
fresh singleton string with its immediate empty neighbors as liberties,
then run the neighbor loop; returns the list of enemy string roots whose
liberties reached zero, together with the updated state.  (The `KeyError`
that Python's `set.remove` would raise on an occupied cell is surfaced by
`play_move`; the `assert` inside `_merge_strings` holds whenever the loop's
current string is a union-find root, as it is on every consistent state.) -/
def putStone (z : Zob) (s : GoState) (f : Nat) (color : Nat) : List Nat × GoState :=
  let board1 := s.board.set f color
  let hash1 := s.currentHash ^^^ z.posHash f color
  let empties1 := s.empties.erase f
  let nbEmpty : Int :=
    Int.ofNat (((neighborsOf f).filter (fun n => board1.getD n 0 == 0)).length)
  let libs1 := s.stringLiberties.set f nbEmpty
  let sizes1 := s.stringSizes.set f 1
  let res := (neighborsOf f).foldl (putStoneStep board1 color)
    ⟨f, s.stringUnionFind, libs1, sizes1, []⟩
  (res.captured,
   { s with
     board := board1, currentHash := hash1, empties := empties1,
     stringUnionFind := res.uf, stringLiberties := res.libs, stringSizes := res.sizes })

/-- Removal of one captured stone inside `Board._capture_string`: update the
capture counters of the mover (`_nextPlayer`), XOR the stone out of the
hash, clear the cell, return it to the empty set, give one liberty back to
the root of every occupied neighbor that is not the freed string's number,
then invalidate the cell's registry entries. -/
def captureOne (z : Zob) (s : GoState) (s0 : Nat) : GoState :=
  let s1 := if s.nextPlayer = 2 then
      { s with capturedBLACK := s.capturedBLACK + 1, nbBLACK := s.nbBLACK - 1 }
    else
      { s with capturedWHITE := s.capturedWHITE + 1, nbWHITE := s.nbWHITE - 1 }
  let h := s1.currentHash ^^^ z.posHash s0 (s1.board.getD s0 0)
  let board' := s1.board.set s0 0
  let empties' := setAdd s1.empties s0
  let step := fun (acc : List Int × List Int) (fn : Nat) =>
    if board'.getD fn 0 ≠ 0 then
      let rp := getStringOfStone acc.1 fn
      if rp.1 ≠ s0 then (rp.2, acc.2.set rp.1 (acc.2.getD rp.1 (-1) + 1))
      else (rp.2, acc.2)
    else acc
  let res := (neighborsOf s0).foldl step (s1.stringUnionFind, s1.stringLiberties)
  { s1 with
    currentHash := h, board := board', empties := empties',
    stringUnionFind := res.1.set s0 (-1),
    stringLiberties := res.2.set s0 (-1),
    stringSizes := s1.stringSizes.set s0 (-1) }

/-- `Board._capture_string`: flood-fill the string of `fc` once, then remove
each of its stones in turn. -/
def captureString (z : Zob) (s : GoState) (fc : Nat) : GoState :=
  (breadthSearchString s.board fc).foldl (captureOne z) s

/-- Letters of the column names (`"ABCDEFGHJ"`, no I). -/
def letters : List Char := ['A', 'B', 'C', 'D', 'E', 'F', 'G', 'H', 'J']

/-- `Board.coord_to_name` for a non-pass coordinate. -/
def coord_to_name (x y : Int) : String :=
  String.mk [letters.getD x.toNat 'Z'] ++ toString (y + 1)

/-- `Board.flat_to_name` (Python's `divmod` floors, hence `emod`/`ediv`). -/
def flat_to_name (m : Int) : String :=
  if m = -1 then String.mk ['P', 'A', 'S', 'S']
  else coord_to_name (m.emod 9) (m.ediv 9)

/-- The snapshot taken by `Board._pushBoard`. -/
def frameOf (s : GoState) : BFrame :=
  ⟨s.nbWHITE, s.nbBLACK, s.capturedWHITE, s.capturedBLACK, s.nextPlayer, s.board,
   s.gameOver, s.lastPlayerHasPassed, s.stringUnionFind, s.stringLiberties,
   s.stringSizes, s.empties, s.currentHash⟩

/-- `Board._pushBoard`: append the full snapshot to the trail. -/
def pushBoard (s : GoState) : GoState :=
  { s with trailMoves := s.trailMoves ++ [frameOf s] }

/-- `Board._popBoard`: restore every snapshotted field from the last trail
frame and drop the last recorded move name (`IndexError` on an empty
trail). -/
def popBoard (s : GoState) : Except GoErr GoState :=
  match s.trailMoves.getLast? with
  | none => .error .indexError
  | some fr => .ok
    {
      nbWHITE := fr.nbWHITE, nbBLACK := fr.nbBLACK,
      capturedWHITE := fr.capturedWHITE, capturedBLACK := fr.capturedBLACK,
      nextPlayer := fr.nextPlayer, board := fr.board,
      lastPlayerHasPassed := fr.lastPlayerHasPassed, gameOver := fr.gameOver,
      stringUnionFind := fr.stringUnionFind, stringLiberties := fr.stringLiberties,
      stringSizes := fr.stringSizes, empties := fr.empties,
      currentHash := fr.currentHash, seenHashes := s.seenHashes,
      historyMoveNames := s.historyMoveNames.dropLast,
      trailMoves := s.trailMoves.dropLast }

/-- `Board.pop`: restore the last snapshot, then remove the hash the board
had before the restore (`hashtopop`) from the seen-hash set when it is
present. -/
def pop (s : GoState) : Except GoErr GoState :=
  match popBoard s with
  | .error e => .error e
  | .ok s1 =>
    if s.currentHash ∈ s1.seenHashes then
      .ok { s1 with seenHashes := s1.seenHashes.erase s.currentHash }
    else .ok s1

/-- `Board.play_move`.  A finished game gives the bare-`return` result
`none`.  A non-pass move is first checked for super-ko (returning
`some false` with only the history-name append and the survey's path
compression as side effects); then the stone is placed and the queued
strings captured; the Python `assert tmpHash == self._currentHash` and the
`KeyError`/`IndexError` of invalid cells surface as `Except` errors.
`self._empties.remove(fcoord)` receives the raw move, so a negative
in-range index (which numpy wraps for every array access) always raises
`KeyError`: the commit requires `0 ≤ m` besides membership of the wrapped
cell in the empty set.  A
pass flips `_lastPlayerHasPassed` into `_gameOver` on the second
consecutive pass and XORs the passing color's pass constant. -/
def play_move (z : Zob) (s : GoState) (m : Int) : Except GoErr (Option Bool × GoState) :=
  if s.gameOver then .ok (none, s)
  else if m ≠ -1 then
    if m < -81 ∨ 81 ≤ m then .error .indexError
    else
      let f : Nat := (if m < 0 then m + 81 else m).toNat
      let sk := isSuperKo z s f s.nextPlayer
      if sk.1 then
        .ok (some false,
          { sk.2.2 with
            historyMoveNames := sk.2.2.historyMoveNames ++ [flat_to_name m] })
      else if 0 ≤ m ∧ f ∈ sk.2.2.empties then
        let pc := putStone z sk.2.2 f s.nextPlayer
        let s3 := pc.1.foldl (captureString z) pc.2
        if sk.2.1 = s3.currentHash then
          let s4 := { s3 with lastPlayerHasPassed := false }
          let s5 := if s.nextPlayer = 2 then { s4 with nbWHITE := s4.nbWHITE + 1 }
                    else { s4 with nbBLACK := s4.nbBLACK + 1 }
          .ok (some true,
            { s5 with
              seenHashes := setAdd s5.seenHashes s5.currentHash,
              historyMoveNames := s5.historyMoveNames ++ [flat_to_name m],
              nextPlayer := flip s.nextPlayer })
        else .error .assertionError
      else .error .keyError
  else
    let s1 := if s.lastPlayerHasPassed then { s with gameOver := true }
              else { s with lastPlayerHasPassed := true }
    let s2 := { s1 with currentHash :=
      s1.currentHash ^^^ (if s.nextPlayer = 1 then z.passHashB else z.passHashW) }
    .ok (some true,
      { s2 with
        seenHashes := setAdd s2.seenHashes s2.currentHash,
        historyMoveNames := s2.historyMoveNames ++ [flat_to_name m],
        nextPlayer := flip s.nextPlayer })

/-- `Board.push`: `assert not self._gameOver`, snapshot, then play. -/
def push (z : Zob) (s : GoState) (m : Int) : Except GoErr (Option Bool × GoState) :=
  if s.gameOver then .error .assertionError
  else play_move z (pushBoard s) m

/-- `Board.weak_legal_moves`: the empty cells that are not suicide, plus
pass. -/
def weak_legal_moves (s : GoState) : List Int :=
  (s.empties.filter (fun m => !(isSuicide s m s.nextPlayer).1)).map Int.ofNat ++ [-1]

/-- `Board.legal_moves`: the empty cells that are neither suicide nor
super-ko, plus pass. -/
def legal_moves (z : Zob) (s : GoState) : List Int :=
  (s.empties.filter
    (fun m => !(isSuicide s m s.nextPlayer).1 && !(isSuperKo z s m s.nextPlayer).1)).map
      Int.ofNat ++ [-1]

/-- The freshly constructed board of `Board.__init__` with initial hash
`h0` (the Zobrist table is the separate `Zob` parameter). -/
def initState (h0 : Nat) : GoState :=
  { nbWHITE := 0, nbBLACK := 0, capturedWHITE := 0, capturedBLACK := 0,
    nextPlayer := 1, board := List.replicate 81 0,
    lastPlayerHasPassed := false, gameOver := false,
    stringUnionFind := List.replicate 81 (-1),
    stringLiberties := List.replicate 81 (-1),
    stringSizes := List.replicate 81 (-1),
    empties := List.range 81,
    currentHash := h0, seenHashes := [], historyMoveNames := [], trailMoves := [] }

/-- A concrete Zobrist assignment made of distinct powers of two, playing
the role of one draw of `getProperRandom` (any `Zob` works in the general
theorems; this one is used for concrete runs). -/
def zT : Zob := ⟨fun f c => 2 ^ (2 * f + c), 2 ^ 170, 2 ^ 171⟩

/-! ## Concrete game runs (used by witnesses and counterexamples) -/

/-- Play one move with `zT`, keeping the state on any error (errors do not
occur on the concrete runs below). -/
def stepRun (s : GoState) (m : Int) : GoState :=
  match play_move zT s m with
  | .ok (_, s') => s'
  | .error _ => s

/-- Run a move list from the fresh board with `zT`. -/
def runMoves (g : List Int) : GoState := g.foldl stepRun (initState 0)

/-- A real ko: B A1, W B1, B B2, W C2, B F6, W D1, then B C1 captures the
white stone at B1.  White retaking at B1 would recreate the position after
W D1. -/
def gameKo : List Int := [0, 1, 10, 11, 50, 3, 2]

/-- Build-up for a committed suicide: after B G7, W B1, B C7, W A2, the
black move A1 is a suicide (both its neighbors are white and neither white
string is captured). -/
def gameSuicide : List Int := [60, 1, 62, 9, 0]

/-- Build-up for a double liberty restoration: B A1, W B1, B A2, W C3,
B B2 (joining A1 and A2 into one L-shaped string), W D3, then B C1
captures W B1; the freed cell B1 touches the L-shaped string twice. -/
def gameLshape : List Int := [0, 1, 9, 20, 10, 21, 2]

/-- The state obtained by a super-ko-rejected push on the ko position. -/
def rejectedKoState : GoState :=
  match push zT (runMoves gameKo) 1 with
  | .ok (_, s) => s
  | .error _ => initState 0

/-! ## Shape lemmas for the driver functions -/

theorem isSuperKo_state_eq (z : Zob) (s : GoState) (f c : Nat) :
    (isSuperKo z s f c).2.2 =
      { s with stringUnionFind := (isSuperKo z s f c).2.2.stringUnionFind } := rfl

theorem isSuperKo_seen_decide (z : Zob) (s : GoState) (f c : Nat) :
    (isSuperKo z s f c).1 = decide ((isSuperKo z s f c).2.1 ∈ s.seenHashes) := rfl

theorem isSuperKo_trail_congr (z : Zob) (s : GoState) (t : List BFrame) (f c : Nat) :
    (isSuperKo z { s with trailMoves := t } f c).1 = (isSuperKo z s f c).1 ∧
    (isSuperKo z { s with trailMoves := t } f c).2.1 = (isSuperKo z s f c).2.1 := by
  constructor <;> rfl

/-- `play_move` with the game over: the Python `return` with no value and no
side effect. -/
theorem play_move_gameOver (z : Zob) (s : GoState) (m : Int)
    (h : s.gameOver = true) : play_move z s m = .ok (none, s) := by
  simp [play_move, h]

theorem push_gameOver (z : Zob) (s : GoState) (m : Int)
    (h : s.gameOver = true) : push z s m = .error .assertionError := by
  simp [push, h]

theorem play_move_indexError (z : Zob) (s : GoState) (m : Int)
    (h : s.gameOver = false) (hm : m < -81 ∨ 81 ≤ m) :
    play_move z s m = .error .indexError := by
  have hne : m ≠ -1 := by omega
  simp [play_move, h, hne, hm]

/-- Evaluation of the move preprocessing of `play_move` (`numpy` index
normalization) on an in-range natural move. -/
theorem coerced_move_toNat (f : Nat) :
    (if ((f : Int)) < 0 then (f : Int) + 81 else (f : Int)).toNat = f := by
  rw [if_neg (by omega)]
  omega

/-- A non-pass move rejected by the super-ko check: returns `False`, appends
only the move name to the history, and leaves everything except the
union-find array (path compression) untouched. -/
theorem play_move_rejected (z : Zob) (s : GoState) (f : Nat)
    (h : s.gameOver = false) (hf : f < 81)
    (hsk : (isSuperKo z s f s.nextPlayer).1 = true) :
    play_move z s (f : Int) = .ok (some false,
      { (isSuperKo z s f s.nextPlayer).2.2 with
        historyMoveNames := s.historyMoveNames ++ [flat_to_name (f : Int)] }) := by
  have hne : ((f : Int)) ≠ -1 := by omega
  have hr : ¬(((f : Int)) < -81 ∨ 81 ≤ ((f : Int))) := by omega
  simp only [play_move, h, hne, hr, if_false, ite_false, Bool.false_eq_true,
    coerced_move_toNat, hsk, if_true, ite_true]
  rfl

/-- `play_move` on an occupied (non-empty-set) in-range cell that passes the
super-ko check: the `KeyError` of `self._empties.remove`. -/
theorem play_move_keyError (z : Zob) (s : GoState) (f : Nat)
    (h : s.gameOver = false) (hf : f < 81)
    (hsk : (isSuperKo z s f s.nextPlayer).1 = false) (hocc : f ∉ s.empties) :
    play_move z s (f : Int) = .error .keyError := by
  have hne : ((f : Int)) ≠ -1 := by omega
  have hr : ¬(((f : Int)) < -81 ∨ 81 ≤ ((f : Int))) := by omega
  have hemp : (isSuperKo z s f s.nextPlayer).2.2.empties = s.empties := rfl
  simp only [play_move, h, hne, hr, if_false, ite_false, Bool.false_eq_true,
    coerced_move_toNat, hsk, hemp, if_true, ite_true]
  simp [hocc]

instance {ε α : Type} [DecidableEq ε] [DecidableEq α] : DecidableEq (Except ε α) :=
  fun a b =>
  match a, b with
  | .ok x, .ok y =>
    if h : x = y then isTrue (by rw [h]) else isFalse (fun he => h (Except.ok.inj he))
  | .error x, .error y =>
    if h : x = y then isTrue (by rw [h]) else isFalse (fun he => h (Except.error.inj he))
  | .ok _, .error _ => isFalse (fun he => Except.noConfusion he)
  | .error _, .ok _ => isFalse (fun he => Except.noConfusion he)

/-! ## C9: invalid uses of the move interface -/

/-- Counterexample to C9: after two passes the game is over, yet
`play_move` of a further stone raises no error and returns no boolean — it
silently takes Python's bare `return` (`None`), leaving the state
untouched, instead of failing loudly. -/
theorem game_over_silent_return_cex :
    (runMoves [-1, -1]).gameOver = true ∧
    play_move zT (runMoves [-1, -1]) 5 = .ok (none, runMoves [-1, -1]) := by
  exact ⟨by decide, by decide⟩

/-- C9 (amended): `push` after game over fails its assertion loudly, but
`play_move` after game over silently returns `None` with no state change;
an in-range non-pass move onto a cell absent from the empty set (an
occupied cell) raises `KeyError` from `self._empties.remove` when it is
not first rejected as super-ko; a non-pass index outside numpy's accepted
range raises `IndexError`. -/
theorem invalid_use_behavior (z : Zob) :
    (∀ s : GoState, ∀ m : Int, s.gameOver = true →
      play_move z s m = .ok (none, s) ∧ push z s m = .error .assertionError) ∧
    (∀ s : GoState, ∀ m : Int, s.gameOver = false → (m < -81 ∨ 81 ≤ m) →
      play_move z s m = .error .indexError) ∧
    (∀ s : GoState, ∀ f : Nat, s.gameOver = false → f < 81 →
      (isSuperKo z s f s.nextPlayer).1 = false → f ∉ s.empties →
      play_move z s (f : Int) = .error .keyError) := by
  refine ⟨fun s m h => ⟨play_move_gameOver z s m h, push_gameOver z s m h⟩,
    fun s m h hm => play_move_indexError z s m h hm,
    fun s f h hf hsk hocc => play_move_keyError z s f h hf hsk hocc⟩

theorem invalid_use_behavior_witness :
    (play_move zT (runMoves [-1, -1]) 3 = .ok (none, runMoves [-1, -1]) ∧
      push zT (runMoves [-1, -1]) 3 = .error .assertionError) ∧
    play_move zT (initState 0) 100 = .error .indexError ∧
    play_move zT (runMoves [0]) ((0 : Nat) : Int) = .error .keyError :=
  ⟨(invalid_use_behavior zT).1 (runMoves [-1, -1]) 3 (by decide),
   (invalid_use_behavior zT).2.1 (initState 0) 100 (by decide) (by omega),
   (invalid_use_behavior zT).2.2 (runMoves [0]) 0 (by decide) (by omega)
     (by decide) (by decide)⟩

/-! ## C5: what a super-ko-rejected push does and does not change -/

/-- Counterexample to C5: a super-ko-rejected `push` returns `False` but
does not leave every observable piece of state unchanged — the move name
has been appended to the history and the snapshot taken by `push` remains
on the trail. -/
theorem rejected_push_leaves_traces_cex :
    push zT (runMoves gameKo) 1 = .ok (some false, rejectedKoState) ∧
    rejectedKoState.historyMoveNames ≠ (runMoves gameKo).historyMoveNames ∧
    rejectedKoState.trailMoves ≠ (runMoves gameKo).trailMoves := by
  exact ⟨by decide, by decide, by decide⟩

/-- Shared shape of a super-ko-rejected `push`. -/
theorem push_rejected_shape (z : Zob) (s : GoState) (f : Nat)
    (h : s.gameOver = false) (hf : f < 81)
    (hsk : (isSuperKo z s f s.nextPlayer).1 = true) :
    ∃ s1, push z s (f : Int) = .ok (some false, s1) ∧
      s1.board = s.board ∧ s1.currentHash = s.currentHash ∧
      s1.empties = s.empties ∧ s1.stringLiberties = s.stringLiberties ∧
      s1.stringSizes = s.stringSizes ∧
      s1.nbWHITE = s.nbWHITE ∧ s1.nbBLACK = s.nbBLACK ∧
      s1.capturedWHITE = s.capturedWHITE ∧ s1.capturedBLACK = s.capturedBLACK ∧
      s1.nextPlayer = s.nextPlayer ∧
      s1.lastPlayerHasPassed = s.lastPlayerHasPassed ∧ s1.gameOver = s.gameOver ∧
      s1.seenHashes = s.seenHashes ∧
      s1.trailMoves = s.trailMoves ++ [frameOf s] ∧
      s1.historyMoveNames = s.historyMoveNames ++ [flat_to_name (f : Int)] := by
  have hp : push z s (f : Int) = play_move z (pushBoard s) (f : Int) := by
    simp [push, h]
  have hsk' : (isSuperKo z (pushBoard s) f (pushBoard s).nextPlayer).1 = true := by
    have hcon := (isSuperKo_trail_congr z s (s.trailMoves ++ [frameOf s]) f s.nextPlayer).1
    exact hcon.trans hsk
  have hr := play_move_rejected z (pushBoard s) f (by exact h) hf hsk'
  refine ⟨_, hp.trans hr, rfl, rfl, rfl, rfl, rfl, rfl, rfl, rfl, rfl, rfl, rfl, rfl,
    rfl, rfl, rfl⟩

/-- C5 (amended): a push rejected for super-ko returns `False` and leaves
the position itself unchanged — grid, hash, empty set, liberty and size
arrays, stone and capture counts, player to move, pass and game-over
flags, and seen-hash set are exactly as before the call; the union-find
array can change only by path compression inside the super-ko survey, and
the snapshot taken by `push` stays on the trail with the move name
appended to the history until the mandated `pop` removes them. -/
theorem rejected_push_no_board_mutation (z : Zob) (s : GoState) (f : Nat)
    (h : s.gameOver = false) (hf : f < 81)
    (hsk : (isSuperKo z s f s.nextPlayer).1 = true) :
    ∃ s1, push z s (f : Int) = .ok (some false, s1) ∧
      s1.board = s.board ∧ s1.currentHash = s.currentHash ∧
      s1.empties = s.empties ∧ s1.stringLiberties = s.stringLiberties ∧
      s1.stringSizes = s.stringSizes ∧
      s1.nbWHITE = s.nbWHITE ∧ s1.nbBLACK = s.nbBLACK ∧
      s1.capturedWHITE = s.capturedWHITE ∧ s1.capturedBLACK = s.capturedBLACK ∧
      s1.nextPlayer = s.nextPlayer ∧
      s1.lastPlayerHasPassed = s.lastPlayerHasPassed ∧ s1.gameOver = s.gameOver ∧
      s1.seenHashes = s.seenHashes ∧
      s1.trailMoves = s.trailMoves ++ [frameOf s] ∧
      s1.historyMoveNames = s.historyMoveNames ++ [flat_to_name (f : Int)] :=
  push_rejected_shape z s f h hf hsk

/-! ## Field-preservation lemmas for capture folds -/

theorem captureOne_hist (z : Zob) (s : GoState) (x : Nat) :
    (captureOne z s x).historyMoveNames = s.historyMoveNames := by
  by_cases h : s.nextPlayer = 2 <;> simp [captureOne, h]

theorem captureOne_trail (z : Zob) (s : GoState) (x : Nat) :
    (captureOne z s x).trailMoves = s.trailMoves := by
  by_cases h : s.nextPlayer = 2 <;> simp [captureOne, h]

theorem foldl_captureOne_hist (z : Zob) (l : List Nat) (s : GoState) :
    (l.foldl (captureOne z) s).historyMoveNames = s.historyMoveNames := by
  induction l generalizing s with
  | nil => rfl
  | cons x xs ih => rw [List.foldl_cons, ih, captureOne_hist]

theorem foldl_captureOne_trail (z : Zob) (l : List Nat) (s : GoState) :
    (l.foldl (captureOne z) s).trailMoves = s.trailMoves := by
  induction l generalizing s with
  | nil => rfl
  | cons x xs ih => rw [List.foldl_cons, ih, captureOne_trail]

theorem foldl_captureString_hist (z : Zob) (l : List Nat) (s : GoState) :
    (l.foldl (captureString z) s).historyMoveNames = s.historyMoveNames := by
  induction l generalizing s with
  | nil => rfl
  | cons x xs ih => rw [List.foldl_cons, ih, captureString, foldl_captureOne_hist]

theorem foldl_captureString_trail (z : Zob) (l : List Nat) (s : GoState) :
    (l.foldl (captureString z) s).trailMoves = s.trailMoves := by
  induction l generalizing s with
  | nil => rfl
  | cons x xs ih => rw [List.foldl_cons, ih, captureString, foldl_captureOne_trail]

/-- Any successful `play_move` leaves the trail untouched and appends
exactly the played move's name to the history. -/
theorem play_move_ok_shape (z : Zob) (s : GoState) (m : Int) (b : Option Bool)
    (s' : GoState) (h : s.gameOver = false)
    (hok : play_move z s m = .ok (b, s')) :
    s'.trailMoves = s.trailMoves ∧
    s'.historyMoveNames = s.historyMoveNames ++ [flat_to_name m] := by
  unfold play_move at hok
  rw [h] at hok
  simp only [Bool.false_eq_true, if_false, ite_false] at hok
  by_cases hm : m = -1
  · subst hm
    simp only [ne_eq, not_true_eq_false, if_false, ite_false] at hok
    injection hok with hok
    injection hok with _ hok
    subst hok
    cases hpass : s.lastPlayerHasPassed <;> simp [hpass] <;> rfl
  · simp only [ne_eq, hm, not_false_eq_true, if_true, ite_true] at hok
    by_cases hr : m < -81 ∨ 81 ≤ m
    · rw [if_pos hr] at hok
      exact Except.noConfusion hok
    · rw [if_neg hr] at hok
      set f : Nat := (if m < 0 then m + 81 else m).toNat with hfdef
      by_cases hsk : (isSuperKo z s f s.nextPlayer).1
      · rw [if_pos hsk] at hok
        injection hok with hok
        injection hok with _ hok
        subst hok
        exact ⟨rfl, rfl⟩
      · rw [if_neg hsk] at hok
        by_cases hemp : 0 ≤ m ∧ f ∈ (isSuperKo z s f s.nextPlayer).2.2.empties
        · rw [if_pos hemp] at hok
          by_cases ha : (isSuperKo z s f s.nextPlayer).2.1 =
              ((putStone z (isSuperKo z s f s.nextPlayer).2.2 f s.nextPlayer).1.foldl
                (captureString z)
                (putStone z (isSuperKo z s f s.nextPlayer).2.2 f s.nextPlayer).2).currentHash
          · rw [if_pos ha] at hok
            injection hok with hok
            injection hok with _ hok
            subst hok
            constructor
            · by_cases hnp : s.nextPlayer = 2 <;>
                simp only [hnp, eq_self_iff_true, if_true, if_false, ite_true, ite_false] <;>
                exact foldl_captureString_trail z _ _
            · by_cases hnp : s.nextPlayer = 2 <;>
                simp only [hnp, eq_self_iff_true, if_true, if_false, ite_true, ite_false] <;>
                exact congrArg (fun l => l ++ [flat_to_name m]) (foldl_captureString_hist z _ _)
          · rw [if_neg ha] at hok
            exact Except.noConfusion hok
        · rw [if_neg hemp] at hok
          exact Except.noConfusion hok

/-! ## Push/pop sequencing -/

/-- A sequence of pushes, stopping at the first raised error (the caller
protocol of a game-tree search). -/
def pushSeq (z : Zob) : GoState → List Int → Except GoErr GoState
  | s, [] => .ok s
  | s, m :: ms =>
    match push z s m with
    | .ok p => pushSeq z p.2 ms
    | .error e => .error e

/-- `n` consecutive pops. -/
def popSeq : Nat → GoState → Except GoErr GoState
  | 0, s => .ok s
  | n + 1, s =>
    match popSeq n s with
    | .ok t => pop t
    | .error e => .error e

/-- The state rebuilt by `_popBoard` from frame `fr`, with remaining trail
`T` (before `pop`'s seen-hash removal). -/
def restoredState (s : GoState) (fr : BFrame) (T : List BFrame) : GoState :=
  { nbWHITE := fr.nbWHITE, nbBLACK := fr.nbBLACK,
    capturedWHITE := fr.capturedWHITE, capturedBLACK := fr.capturedBLACK,
    nextPlayer := fr.nextPlayer, board := fr.board,
    lastPlayerHasPassed := fr.lastPlayerHasPassed, gameOver := fr.gameOver,
    stringUnionFind := fr.stringUnionFind, stringLiberties := fr.stringLiberties,
    stringSizes := fr.stringSizes, empties := fr.empties,
    currentHash := fr.currentHash, seenHashes := s.seenHashes,
    historyMoveNames := s.historyMoveNames.dropLast, trailMoves := T }

theorem popBoard_concat (s : GoState) (T : List BFrame) (fr : BFrame)
    (ht : s.trailMoves = T ++ [fr]) :
    popBoard s = .ok (restoredState s fr T) := by
  have hlast : s.trailMoves.getLast? = some fr := by
    rw [ht]; exact List.getLast?_concat T
  have hdrop : s.trailMoves.dropLast = T := by
    rw [ht]; exact List.dropLast_concat
  unfold popBoard
  rw [hlast, hdrop]
  rfl

theorem pop_of_trail (s : GoState) (T : List BFrame) (fr : BFrame)
    (ht : s.trailMoves = T ++ [fr]) :
    ∃ t, pop s = .ok t ∧ frameOf t = fr ∧ t.trailMoves = T ∧
      t.historyMoveNames = s.historyMoveNames.dropLast ∧
      t.seenHashes = s.seenHashes.erase s.currentHash := by
  have hpb := popBoard_concat s T fr ht
  by_cases hmem : s.currentHash ∈ s.seenHashes
  · refine ⟨{ restoredState s fr T with
        seenHashes := s.seenHashes.erase s.currentHash }, ?_, rfl, rfl, rfl, rfl⟩
    simp only [pop, hpb, restoredState, hmem, if_true, ite_true]
  · refine ⟨restoredState s fr T, ?_, rfl, rfl, rfl,
      (List.erase_of_not_mem hmem).symm⟩
    simp only [pop, hpb, restoredState, hmem, if_false, ite_false]

/-! ## C3: N pushes followed by N pops restore the frame state exactly -/

/-- C3: for any board and any sequence of pushes that all complete,
popping the same number of times restores every snapshotted field — grid,
hash, stone and capture counts, union-find, liberty and size arrays, empty
set, side to move, pass and game-over flags (all bundled in `frameOf`) —
together with the history and the trail, exactly to their pre-sequence
values; each `pop` restores a whole frame, never a partial one (the
seen-hash set is the one piece of state `pop` deliberately edits
instead of restoring). -/
theorem push_pop_roundtrip (z : Zob) (s : GoState) (ms : List Int) (s' : GoState)
    (hp : pushSeq z s ms = .ok s') :
    ∃ t, popSeq ms.length s' = .ok t ∧ frameOf t = frameOf s ∧
      t.historyMoveNames = s.historyMoveNames ∧ t.trailMoves = s.trailMoves := by
  induction ms generalizing s with
  | nil =>
    rw [pushSeq] at hp
    injection hp with h
    subst h
    exact ⟨s, rfl, rfl, rfl, rfl⟩
  | cons m rest ih =>
    rw [pushSeq] at hp
    cases hpush : push z s m with
    | error e =>
      rw [hpush] at hp
      exact Except.noConfusion hp
    | ok p =>
      rw [hpush] at hp
      obtain ⟨t1, hpop1, hfr1, hh1, ht1⟩ := ih p.2 hp
      have hng : s.gameOver = false := by
        cases hgo : s.gameOver
        · rfl
        · rw [push_gameOver z s m hgo] at hpush
          exact Except.noConfusion hpush
      have hpm : play_move z (pushBoard s) m = .ok (p.1, p.2) := by
        rw [push] at hpush
        simp only [hng, Bool.false_eq_true, if_false, ite_false] at hpush
        exact hpush
      have hsh := play_move_ok_shape z (pushBoard s) m p.1 p.2 hng hpm
      have htT : t1.trailMoves = s.trailMoves ++ [frameOf s] := by
        rw [ht1, hsh.1]
        rfl
      obtain ⟨t, hpt, hfrt, htt, hht, _⟩ :=
        pop_of_trail t1 s.trailMoves (frameOf s) htT
      refine ⟨t, ?_, hfrt, ?_, htt⟩
      · show popSeq (rest.length + 1) s' = .ok t
        rw [popSeq, hpop1]
        exact hpt
      · rw [hht, hh1, hsh.2]
        show (s.historyMoveNames ++ [flat_to_name m]).dropLast = s.historyMoveNames
        exact List.dropLast_concat

/-! ## C10: pop removes the restored position's own hash after a rejected
push -/

/-- C10: `pop` always removes the pre-pop current hash from the seen-hash
set when it is present (and the seen-hash set is carried over, never
restored from the snapshot); consequently after a push rejected for
super-ko — which leaves the current hash unchanged — the mandated `pop`
restores the position exactly but strips that position's own hash from the
seen-hash set, so a later move whose simulated hash recreates this exact
position is no longer rejected by the super-ko check. -/
theorem pop_seen_hash_removal (z : Zob) :
    (∀ s : GoState, ∀ T fr, s.trailMoves = T ++ [fr] →
      ∃ t, pop s = .ok t ∧ t.seenHashes = s.seenHashes.erase s.currentHash ∧
        frameOf t = fr ∧ t.trailMoves = T) ∧
    (∀ s : GoState, ∀ f : Nat, s.gameOver = false → f < 81 →
      (isSuperKo z s f s.nextPlayer).1 = true → s.seenHashes.Nodup →
      ∃ s1 t, push z s (f : Int) = .ok (some false, s1) ∧ pop s1 = .ok t ∧
        frameOf t = frameOf s ∧ t.historyMoveNames = s.historyMoveNames ∧
        t.trailMoves = s.trailMoves ∧
        t.seenHashes = s.seenHashes.erase s.currentHash ∧
        s.currentHash ∉ t.seenHashes ∧
        ∀ g c, (isSuperKo z t g c).2.1 = s.currentHash →
          (isSuperKo z t g c).1 = false) := by
  constructor
  · intro s T fr ht
    obtain ⟨t, h1, h2, h3, _, h5⟩ := pop_of_trail s T fr ht
    exact ⟨t, h1, h5, h2, h3⟩
  · intro s f hover hf hsk hnd
    obtain ⟨s1, hpush, _, hhash, _, _, _, _, _, _, _, _, _, _, hseen, htrail, hhist⟩ :=
      push_rejected_shape z s f hover hf hsk
    obtain ⟨t, hpop, hfr, htt, hth, hts⟩ :=
      pop_of_trail s1 s.trailMoves (frameOf s) htrail
    have hseent : t.seenHashes = s.seenHashes.erase s.currentHash := by
      rw [hts, hseen, hhash]
    have hnotmem : s.currentHash ∉ t.seenHashes := by
      rw [hseent]
      exact hnd.not_mem_erase
    refine ⟨s1, t, hpush, hpop, hfr, ?_, htt, hseent, hnotmem, ?_⟩
    · rw [hth, hhist]
      exact List.dropLast_concat
    · intro g c htmp
      rw [isSuperKo_seen_decide]
      rw [htmp]
      exact decide_eq_false hnotmem

theorem pop_seen_hash_removal_witness :
    (∃ t, pop rejectedKoState = .ok t ∧
      t.seenHashes = rejectedKoState.seenHashes.erase rejectedKoState.currentHash ∧
      frameOf t = frameOf (runMoves gameKo) ∧ t.trailMoves = []) ∧
    (∃ s1 t, push zT (runMoves gameKo) ((1 : Nat) : Int) = .ok (some false, s1) ∧
      pop s1 = .ok t ∧
      frameOf t = frameOf (runMoves gameKo) ∧
      t.historyMoveNames = (runMoves gameKo).historyMoveNames ∧
      t.trailMoves = (runMoves gameKo).trailMoves ∧
      t.seenHashes = (runMoves gameKo).seenHashes.erase (runMoves gameKo).currentHash ∧
      (runMoves gameKo).currentHash ∉ t.seenHashes ∧
      ∀ g c, (isSuperKo zT t g c).2.1 = (runMoves gameKo).currentHash →
        (isSuperKo zT t g c).1 = false) :=
  ⟨(pop_seen_hash_removal zT).1 rejectedKoState [] (frameOf (runMoves gameKo))
      (by decide),
   (pop_seen_hash_removal zT).2 (runMoves gameKo) 1 (by decide) (by omega)
      (by decide) (by decide)⟩

/-! ## C4: pass constants persist in the hash until the same color passes
again -/

/-- Counterexample to C4: two game paths reaching identical stone
placement, identical pass flag and identical side to move, where one path
contains two interleaved passes (one black, one white) that are never
cancelled by the resumption of play: the hashes differ, by exactly the XOR
of the two pass constants. -/
theorem pass_hash_persists_cex :
    (runMoves [0, 10, 9]).board = (runMoves [-1, 10, 0, -1, 9]).board ∧
    (runMoves [0, 10, 9]).lastPlayerHasPassed =
      (runMoves [-1, 10, 0, -1, 9]).lastPlayerHasPassed ∧
    (runMoves [0, 10, 9]).nextPlayer = (runMoves [-1, 10, 0, -1, 9]).nextPlayer ∧
    (runMoves [0, 10, 9]).gameOver = (runMoves [-1, 10, 0, -1, 9]).gameOver ∧
    (runMoves [0, 10, 9]).currentHash ≠ (runMoves [-1, 10, 0, -1, 9]).currentHash ∧
    (runMoves [0, 10, 9]).currentHash ^^^ (runMoves [-1, 10, 0, -1, 9]).currentHash =
      zT.passHashB ^^^ zT.passHashW := by
  exact ⟨by decide, by decide, by decide, by decide, by decide, by decide⟩

/-- Explicit result of playing a pass on an unfinished game. -/
theorem play_move_pass (z : Zob) (s : GoState) (h : s.gameOver = false) :
    play_move z s (-1) = .ok (some true,
      { s with
        gameOver := s.lastPlayerHasPassed,
        lastPlayerHasPassed := true,
        currentHash := s.currentHash ^^^
          (if s.nextPlayer = 1 then z.passHashB else z.passHashW),
        seenHashes := setAdd s.seenHashes (s.currentHash ^^^
          (if s.nextPlayer = 1 then z.passHashB else z.passHashW)),
        historyMoveNames := s.historyMoveNames ++ [flat_to_name (-1)],
        nextPlayer := flip s.nextPlayer }) := by
  by_cases hlp : s.lastPlayerHasPassed <;>
    simp [play_move, h, hlp]

/-- C4 (amended): a pass XORs the passing color's pass constant into the
hash (and leaves the grid alone); a committed stone move leaves the hash
equal to the value predicted by the super-ko simulation, and that
simulation is entirely independent of the two pass constants, so a pass
constant XORed into the hash persists through all later stone moves and is
cancelled only when the same color passes again.  (Hence hash equality
reflects stone placement together with each color's pass parity, not just
the last-pass flavor — see the counterexample.) -/
theorem pass_hash_step (z : Zob) :
    (∀ s : GoState, s.gameOver = false →
      ∃ s', play_move z s (-1) = .ok (some true, s') ∧
        s'.board = s.board ∧
        s'.currentHash = s.currentHash ^^^
          (if s.nextPlayer = 1 then z.passHashB else z.passHashW)) ∧
    (∀ s : GoState, ∀ m : Int, ∀ s' : GoState, s.gameOver = false → m ≠ -1 →
      play_move z s m = .ok (some true, s') →
      s'.currentHash =
        (isSuperKo z s ((if m < 0 then m + 81 else m).toNat) s.nextPlayer).2.1) ∧
    (∀ pB pW : Nat, ∀ s : GoState, ∀ f c : Nat,
      isSuperKo { posHash := z.posHash, passHashB := pB, passHashW := pW } s f c =
        isSuperKo z s f c) := by
  refine ⟨?_, ?_, ?_⟩
  · intro s h
    exact ⟨_, play_move_pass z s h, rfl, rfl⟩
  · intro s m s' h hm hok
    unfold play_move at hok
    rw [h] at hok
    simp only [Bool.false_eq_true, if_false, ite_false, ne_eq, hm,
      not_false_eq_true, if_true, ite_true] at hok
    by_cases hr : m < -81 ∨ 81 ≤ m
    · rw [if_pos hr] at hok
      exact Except.noConfusion hok
    · rw [if_neg hr] at hok
      set f : Nat := (if m < 0 then m + 81 else m).toNat with hfdef
      by_cases hsk : (isSuperKo z s f s.nextPlayer).1
      · rw [if_pos hsk] at hok
        injection hok with hok
        injection hok with hb _
        exact Option.noConfusion hb (fun hb => Bool.noConfusion hb)
      · rw [if_neg hsk] at hok
        by_cases hemp : 0 ≤ m ∧ f ∈ (isSuperKo z s f s.nextPlayer).2.2.empties
        · rw [if_pos hemp] at hok
          by_cases ha : (isSuperKo z s f s.nextPlayer).2.1 =
              ((putStone z (isSuperKo z s f s.nextPlayer).2.2 f s.nextPlayer).1.foldl
                (captureString z)
                (putStone z (isSuperKo z s f s.nextPlayer).2.2 f s.nextPlayer).2).currentHash
          · rw [if_pos ha] at hok
            injection hok with hok
            injection hok with _ hok
            subst hok
            rw [ha]
            by_cases hnp : s.nextPlayer = 2 <;>
              simp only [hnp, eq_self_iff_true, if_true, if_false, ite_true, ite_false]
          · rw [if_neg ha] at hok
            exact Except.noConfusion hok
        · rw [if_neg hemp] at hok
          exact Except.noConfusion hok
  · intro pB pW s f c
    rfl

theorem pass_hash_step_witness :
    (∃ s', play_move zT (initState 7) (-1) = .ok (some true, s') ∧
      s'.board = (initState 7).board ∧
      s'.currentHash = (initState 7).currentHash ^^^
        (if (initState 7).nextPlayer = 1 then zT.passHashB else zT.passHashW)) ∧
    (runMoves [0, 10]).currentHash =
      (isSuperKo zT (runMoves [0])
        ((if (10 : Int) < 0 then (10 : Int) + 81 else (10 : Int)).toNat)
        (runMoves [0]).nextPlayer).2.1 :=
  ⟨(pass_hash_step zT).1 (initState 7) (by decide),
   (pass_hash_step zT).2.1 (runMoves [0]) 10 (runMoves [0, 10]) (by decide)
     (by omega) (by decide)⟩

/-! ## Union-find roots, and association-list characterizations -/

/-- The root of `c` when its union-find chain has length at most one: the
direct parent when there is one, else `c` itself.  (Agrees with `ufRoot`
on cells whose chain is that short; kept for concrete statements about
single-stone strings.) -/
def flatRoot (uf : List Int) (c : Nat) : Nat :=
  let v := uf.getD c (-1)
  if 0 ≤ v then v.toNat else c

/-- The root of `c`'s union-find chain: the last ancestor visited by
`Board._getStringOfStone`'s `while` loop, or `c` itself when `c` has no
parent.  `_getStringOfStone` re-points only the intermediate ancestors
(`successives[:-1]`), never the queried cell, so chains of length two or
more persist on ordinary positions (any placement merging two existing
strings leaves one) and the root is in general at the end of a chain, not
one hop away. -/
def ufRoot (uf : List Int) (c : Nat) : Nat :=
  (chaseChain 82 uf c).getLastD c

/-- First-occurrence deduplication (the key order of a Python dict built by
repeated insertion). -/
def dedupFirst : List Nat → List Nat
  | [] => []
  | x :: xs => x :: (dedupFirst xs).filter (fun y => y ≠ x)

theorem mem_dedupFirst (x : Nat) : ∀ l : List Nat, x ∈ dedupFirst l ↔ x ∈ l := by
  intro l
  induction l with
  | nil => simp [dedupFirst]
  | cons a as ih =>
    by_cases hx : x = a
    · subst hx
      simp [dedupFirst]
    · simp [dedupFirst, hx, ih]

theorem dedupFirst_nodup : ∀ l : List Nat, (dedupFirst l).Nodup := by
  intro l
  induction l with
  | nil => simp [dedupFirst]
  | cons a as ih =>
    refine List.Nodup.cons ?_ (ih.filter _)
    intro hmem
    have hp := (List.mem_filter.1 hmem).2
    simp at hp

theorem dedupFirst_append_singleton (r : Nat) : ∀ l : List Nat,
    dedupFirst (l ++ [r]) =
      if r ∈ l then dedupFirst l else dedupFirst l ++ [r] := by
  intro l
  induction l with
  | nil => simp [dedupFirst]
  | cons a as ih =>
    have hstep : dedupFirst ((a :: as) ++ [r]) =
        a :: (dedupFirst (as ++ [r])).filter (fun y => y ≠ a) := rfl
    rw [hstep, ih]
    by_cases hmem : r ∈ as
    · rw [if_pos hmem, if_pos (List.mem_cons_of_mem a hmem)]
      rfl
    · rw [if_neg hmem]
      by_cases hra : r = a
      · subst hra
        rw [if_pos (List.mem_cons_self r as), List.filter_append]
        have hf : ([r].filter (fun y => y ≠ r)) = [] := by simp
        rw [hf, List.append_nil]
        rfl
      · rw [if_neg (by simp [hra, hmem]), List.filter_append]
        have hf : ([r].filter (fun y => y ≠ a)) = [r] := by simp [hra]
        rw [hf]
        rfl

/-- The association list built by repeated `bumpLib` calls over the root
sequence `done`, starting empty: one entry per distinct root in
first-encounter order, holding the root's initial liberty count minus its
number of occurrences. -/
theorem bumpLib_fold_spec (libs : List Int) : ∀ (rs done : List Nat),
    rs.foldl (bumpLib libs)
      ((dedupFirst done).map
        (fun r => (r, libs.getD r (-1) - (done.count r : Int)))) =
      (dedupFirst (done ++ rs)).map
        (fun r => (r, libs.getD r (-1) - ((done ++ rs).count r : Int))) := by
  intro rs
  induction rs with
  | nil => simp
  | cons r rest ih =>
    intro done
    rw [List.foldl_cons]
    have hcount_ne : ∀ q : Nat, q ≠ r → (done ++ [r]).count q = done.count q := by
      intro q hqr
      rw [List.count_append]
      simp [List.count_cons, hqr]
    have hcount_r : (done ++ [r]).count r = done.count r + 1 := by
      rw [List.count_append]
      simp
    have hstep : bumpLib libs
        ((dedupFirst done).map
          (fun q => (q, libs.getD q (-1) - (done.count q : Int)))) r =
        (dedupFirst (done ++ [r])).map
          (fun q => (q, libs.getD q (-1) - ((done ++ [r]).count q : Int))) := by
      unfold bumpLib
      by_cases hmem : r ∈ done
      · have hany : ((dedupFirst done).map
            (fun q => (q, libs.getD q (-1) - (done.count q : Int)))).any
              (fun p => p.1 == r) = true := by
          rw [List.any_eq_true]
          exact ⟨(r, libs.getD r (-1) - (done.count r : Int)),
            List.mem_map_of_mem _ ((mem_dedupFirst r done).2 hmem), by simp⟩
        rw [if_pos hany, dedupFirst_append_singleton, if_pos hmem, List.map_map]
        apply List.map_congr_left
        intro q hq
        by_cases hqr : q = r
        · subst hqr
          simp only [Function.comp_apply, eq_self_iff_true, ite_true, hcount_r,
            Nat.cast_add, Nat.cast_one]
          refine congrArg _ ?_
          ring
        · simp only [Function.comp_apply, if_neg hqr, hcount_ne q hqr]
      · have hany : ((dedupFirst done).map
            (fun q => (q, libs.getD q (-1) - (done.count q : Int)))).any
              (fun p => p.1 == r) = false := by
          rw [List.any_eq_false]
          intro p hp
          obtain ⟨q, hq, hpq⟩ := List.mem_map.1 hp
          have hqr : q ≠ r := fun hc => hmem (hc ▸ (mem_dedupFirst q done).1 hq)
          rw [← hpq]
          simp [hqr]
        rw [if_neg (by rw [hany]; exact fun hc => Bool.noConfusion hc),
          dedupFirst_append_singleton, if_neg hmem, List.map_append]
        have h0 : done.count r = 0 := List.count_eq_zero.2 hmem
        refine congrArg₂ _ ?_ ?_
        · apply List.map_congr_left
          intro q hq
          have hqr : q ≠ r := fun hc => hmem (hc ▸ (mem_dedupFirst q done).1 hq)
          rw [hcount_ne q hqr]
        · rw [List.map_cons, List.map_nil, hcount_r, h0]
          simp
    rw [hstep, ih (done ++ [r]), List.append_assoc]
    rfl

/-- Roots (via `ufRoot`, the full chain chase) of the neighbors selected by
`p`, in survey order. -/
def rootSeqOf (board : List Nat) (uf : List Int) (p : Nat → Bool) (ns : List Nat) :
    List Nat :=
  (ns.filter p).map (ufRoot uf)

/-- Root sequence of the same-colored neighbors of `f`, in survey order. -/
def friendRootSeq (s : GoState) (f color : Nat) : List Nat :=
  rootSeqOf s.board s.stringUnionFind
    (fun n => s.board.getD n 0 == color) (neighborsOf f)

/-- Root sequence of the occupied other-colored neighbors of `f` (the cells
the suicide survey books as opponents), in survey order. -/
def oppRootSeq (s : GoState) (f color : Nat) : List Nat :=
  rootSeqOf s.board s.stringUnionFind
    (fun n => decide (s.board.getD n 0 ≠ 0 ∧ s.board.getD n 0 ≠ color)) (neighborsOf f)


theorem foldl_add_snd (l : List (Nat × Int)) : ∀ a : Int,
    l.foldl (fun a p => a + p.2) a = a + (l.map Prod.snd).sum := by
  induction l with
  | nil => intro a; simp
  | cons p rest ih =>
    intro a
    rw [List.foldl_cons, ih, List.map_cons, List.sum_cons]
    ring

theorem dedupFirst_eq_nil : ∀ l : List Nat, dedupFirst l = [] ↔ l = [] := by
  intro l
  cases l with
  | nil => simp [dedupFirst]
  | cons x xs => simp [dedupFirst]

theorem bumpLib_fold_nil (libs : List Int) (rs : List Nat) :
    rs.foldl (bumpLib libs) [] =
      (dedupFirst rs).map (fun r => (r, libs.getD r (-1) - (rs.count r : Int))) := by
  have h := bumpLib_fold_spec libs rs []
  simpa [dedupFirst] using h



/-- Membership in `weak_legal_moves`: exactly the empty non-suicide cells
(plus pass). -/
theorem mem_weak_legal_moves (s : GoState) (f : Nat) :
    ((f : Int) ∈ weak_legal_moves s) ↔
      (f ∈ s.empties ∧ (isSuicide s f s.nextPlayer).1 = false) := by
  unfold weak_legal_moves
  rw [List.mem_append]
  constructor
  · rintro (hm | hm)
    · obtain ⟨n, hn, hcast⟩ := List.mem_map.1 hm
      have hcast2 : (n : Int) = (f : Int) := hcast
      have hnf : n = f := by omega
      subst hnf
      have hfil := List.mem_filter.1 hn
      refine ⟨hfil.1, ?_⟩
      have hb := hfil.2
      rwa [Bool.not_eq_true'] at hb
    · exfalso
      have : (f : Int) = -1 := List.mem_singleton.1 hm
      omega
  · rintro ⟨hemp, hsui⟩
    left
    refine List.mem_map.2 ⟨f, List.mem_filter.2 ⟨hemp, ?_⟩, rfl⟩
    rw [Bool.not_eq_true', hsui]

/-- Membership in `legal_moves`: exactly the empty cells that are neither
suicide nor super-ko (plus pass). -/
theorem mem_legal_moves (z : Zob) (s : GoState) (f : Nat) :
    ((f : Int) ∈ legal_moves z s) ↔
      (f ∈ s.empties ∧ (isSuicide s f s.nextPlayer).1 = false ∧
        (isSuperKo z s f s.nextPlayer).1 = false) := by
  unfold legal_moves
  rw [List.mem_append]
  constructor
  · rintro (hm | hm)
    · obtain ⟨n, hn, hcast⟩ := List.mem_map.1 hm
      have hcast2 : (n : Int) = (f : Int) := hcast
      have hnf : n = f := by omega
      subst hnf
      have hfil := List.mem_filter.1 hn
      have hb := hfil.2
      rw [Bool.and_eq_true] at hb
      obtain ⟨hb1, hb2⟩ := hb
      rw [Bool.not_eq_true'] at hb1 hb2
      exact ⟨hfil.1, hb1, hb2⟩
    · exfalso
      have : (f : Int) = -1 := List.mem_singleton.1 hm
      omega
  · rintro ⟨hemp, hsui, hsk⟩
    left
    refine List.mem_map.2 ⟨f, List.mem_filter.2 ⟨hemp, ?_⟩, rfl⟩
    rw [Bool.and_eq_true, Bool.not_eq_true', Bool.not_eq_true']
    exact ⟨hsui, hsk⟩


/-! ## The capture set predicted by the super-ko simulation -/

/-- Root sequence of the `opponent`-colored neighbors of `f` (the cells the
super-ko survey books), in survey order. -/
def oppColorRootSeq (s : GoState) (f color : Nat) : List Nat :=
  rootSeqOf s.board s.stringUnionFind
    (fun n => s.board.getD n 0 == flip color) (neighborsOf f)

/-- The enemy string roots the super-ko simulation predicts to be captured
by playing `color` at `f`: the distinct adjacent enemy roots whose
liberty count equals their adjacency count with `f`. -/
def capturedPred (s : GoState) (f color : Nat) : List Nat :=
  (dedupFirst (oppColorRootSeq s f color)).filter
    (fun r => s.stringLiberties.getD r (-1) ==
      ((oppColorRootSeq s f color).count r : Int))

theorem foldl_pair_zero_filter (v : Nat → Int) (G : Nat → Nat → Nat) :
    ∀ (L : List Nat) (t : Nat),
    ((L.map (fun r => (r, v r))).foldl
      (fun h p => if p.2 = 0 then G p.1 h else h) t) =
    (L.filter (fun r => v r == 0)).foldl (fun h r => G r h) t := by
  intro L
  induction L with
  | nil => intro t; rfl
  | cons r rest ih =>
    intro t
    rw [List.map_cons, List.foldl_cons, List.filter_cons]
    by_cases hv : v r = 0
    · rw [if_pos (show ((r, v r).2 = 0) from hv)]
      rw [if_pos (by simp [hv])]
      rw [List.foldl_cons, ih]
    · rw [if_neg (show ¬((r, v r).2 = 0) from hv)]
      rw [if_neg (by simp [hv])]
      exact ih t


/-- End state of the concrete three-push run used to witness C3. -/
def roundtripEnd : GoState :=
  match pushSeq zT (runMoves [0]) [10, -1, 11] with
  | .ok t => t
  | .error _ => initState 0

theorem push_pop_roundtrip_witness :
    ∃ t, popSeq ([(10 : Int), -1, 11]).length roundtripEnd = .ok t ∧
      frameOf t = frameOf (runMoves [0]) ∧
      t.historyMoveNames = (runMoves [0]).historyMoveNames ∧
      t.trailMoves = (runMoves [0]).trailMoves :=
  push_pop_roundtrip zT (runMoves [0]) [10, -1, 11] roundtripEnd (by decide)

theorem rejected_push_no_board_mutation_witness :
    ∃ s1, push zT (runMoves gameKo) ((1 : Nat) : Int) = .ok (some false, s1) ∧
      s1.board = (runMoves gameKo).board ∧
      s1.currentHash = (runMoves gameKo).currentHash ∧
      s1.empties = (runMoves gameKo).empties ∧
      s1.stringLiberties = (runMoves gameKo).stringLiberties ∧
      s1.stringSizes = (runMoves gameKo).stringSizes ∧
      s1.nbWHITE = (runMoves gameKo).nbWHITE ∧
      s1.nbBLACK = (runMoves gameKo).nbBLACK ∧
      s1.capturedWHITE = (runMoves gameKo).capturedWHITE ∧
      s1.capturedBLACK = (runMoves gameKo).capturedBLACK ∧
      s1.nextPlayer = (runMoves gameKo).nextPlayer ∧
      s1.lastPlayerHasPassed = (runMoves gameKo).lastPlayerHasPassed ∧
      s1.gameOver = (runMoves gameKo).gameOver ∧
      s1.seenHashes = (runMoves gameKo).seenHashes ∧
      s1.trailMoves = (runMoves gameKo).trailMoves ++ [frameOf (runMoves gameKo)] ∧
      s1.historyMoveNames =
        (runMoves gameKo).historyMoveNames ++ [flat_to_name ((1 : Nat) : Int)] :=
  rejected_push_no_board_mutation zT (runMoves gameKo) 1 (by decide) (by omega) (by decide)


/-! ## List helpers for the placement walk and the capture loop -/

theorem getD_set_of_ne {α : Type} (d v : α) (l : List α) (i j : Nat) (h : i ≠ j) :
    (l.set i v).getD j d = l.getD j d := by
  simp [List.getD_eq_getElem?_getD, List.getElem?_set_ne h]

theorem getD_set_self {α : Type} (d v : α) (l : List α) (j : Nat) (h : j < l.length) :
    (l.set j v).getD j d = v := by
  simp [List.getD_eq_getElem?_getD, List.getElem?_set_self, h]

theorem getD_set_or {α : Type} (d v : α) (l : List α) (i j : Nat) :
    (l.set i v).getD j d = l.getD j d ∨ (l.set i v).getD j d = v := by
  by_cases hij : i = j
  · subst hij
    by_cases hi : i < l.length
    · exact Or.inr (getD_set_self d v l i hi)
    · rw [List.set_eq_of_length_le (by omega)]
      exact Or.inl rfl
  · exact Or.inl (getD_set_of_ne d v l i j hij)

/-- Every surveyed neighbor of an on-board cell is on board and distinct
from the cell itself. -/
theorem neighborsOf_mem_lt {f n : Nat} (hf : f < 81) (hn : n ∈ neighborsOf f) :
    n < 81 ∧ n ≠ f := by
  unfold neighborsOf at hn
  simp only [List.mem_append] at hn
  have hx : f % 9 < 9 := Nat.mod_lt f (by omega)
  have hy : f / 9 < 9 := Nat.div_lt_of_lt_mul (by omega)
  have hxy : 9 * (f / 9) + f % 9 = f := Nat.div_add_mod f 9 ▸ by omega
  rcases hn with ((h1 | h2) | h3) | h4
  · split at h1
    · simp only [List.mem_singleton] at h1
      omega
    · simp at h1
  · split at h2
    · simp only [List.mem_singleton] at h2
      omega
    · simp at h2
  · split at h3
    · simp only [List.mem_singleton] at h3
      omega
    · simp at h3
  · split at h4
    · simp only [List.mem_singleton] at h4
      omega
    · simp at h4

/-- Clearing a list of cells to `_EMPTY`, in order (the board effect of
`Board._capture_string`). -/
def clearCells (b : List Nat) (cells : List Nat) : List Nat :=
  cells.foldl (fun b2 x => b2.set x 0) b

theorem clearCells_append (b : List Nat) (L1 L2 : List Nat) :
    clearCells b (L1 ++ L2) = clearCells (clearCells b L1) L2 := by
  unfold clearCells
  rw [List.foldl_append]

theorem clearCells_getD_notMem : ∀ (L : List Nat) (b : List Nat) (x : Nat),
    x ∉ L → (clearCells b L).getD x 0 = b.getD x 0 := by
  intro L
  induction L with
  | nil => intro b x _; rfl
  | cons c cs ih =>
    intro b x hx
    have hxc : c ≠ x := fun hc => hx (hc ▸ List.mem_cons_self c cs)
    have hxcs : x ∉ cs := fun hc => hx (List.mem_cons_of_mem c hc)
    show (clearCells (b.set c 0) cs).getD x 0 = b.getD x 0
    rw [ih (b.set c 0) x hxcs, getD_set_of_ne 0 0 b c x hxc]

theorem clearCells_length : ∀ (L : List Nat) (b : List Nat),
    (clearCells b L).length = b.length := by
  intro L
  induction L with
  | nil => intro b; rfl
  | cons c cs ih =>
    intro b
    show (clearCells (b.set c 0) cs).length = b.length
    rw [ih (b.set c 0), List.length_set]

/-- Pulling the seed of a left XOR fold out in front. -/
theorem foldl_xor_shift (g : Nat → Nat) : ∀ (L : List Nat) (h : Nat),
    L.foldl (fun h2 x => h2 ^^^ g x) h =
      h ^^^ L.foldl (fun h2 x => h2 ^^^ g x) 0 := by
  intro L
  induction L with
  | nil => intro h; exact (Nat.xor_zero h).symm
  | cons x xs ih =>
    intro h
    rw [List.foldl_cons, List.foldl_cons, ih (h ^^^ g x), ih (0 ^^^ g x),
      Nat.zero_xor, Nat.xor_assoc]

/-- A left fold by a right-commutative operation is invariant under
permutation of the list. -/
theorem foldl_eq_of_perm (F : Nat → Nat → Nat)
    (hF : ∀ h a b, F (F h a) b = F (F h b) a) :
    ∀ {l1 l2 : List Nat}, l1.Perm l2 → ∀ h, l1.foldl F h = l2.foldl F h := by
  intro l1 l2 p
  induction p with
  | nil => intro h; rfl
  | cons x _ ih =>
    intro h
    rw [List.foldl_cons, List.foldl_cons]
    exact ih _
  | swap x y l =>
    intro h
    rw [List.foldl_cons, List.foldl_cons, List.foldl_cons, List.foldl_cons, hF]
  | trans _ _ ih1 ih2 =>
    intro h
    rw [ih1 h, ih2 h]

/-! ## Multi-`set` folds and the shape of `_getStringOfStone` -/

/-- Generic single-value multi-`set` fold: unchanged off the written
positions. -/
theorem foldl_set_getD_notMem (v : Int) : ∀ (L : List Nat) (u : List Int) (x : Nat),
    x ∉ L → ((L.foldl (fun u2 y => u2.set y v) u).getD x (-1)) = u.getD x (-1) := by
  intro L
  induction L with
  | nil => intro u x _; rfl
  | cons c cs ih =>
    intro u x hx
    have hxc : c ≠ x := fun hc => hx (hc ▸ List.mem_cons_self c cs)
    have hxcs : x ∉ cs := fun hc => hx (List.mem_cons_of_mem c hc)
    rw [List.foldl_cons, ih (u.set c v) x hxcs, getD_set_of_ne (-1) v u c x hxc]

/-- Generic single-value multi-`set` fold: every entry is either the old
entry or the written value. -/
theorem foldl_set_getD_or (v : Int) : ∀ (L : List Nat) (u : List Int) (x : Nat),
    ((L.foldl (fun u2 y => u2.set y v) u).getD x (-1)) = u.getD x (-1) ∨
      ((L.foldl (fun u2 y => u2.set y v) u).getD x (-1)) = v := by
  intro L
  induction L with
  | nil => intro u x; exact Or.inl rfl
  | cons c cs ih =>
    intro u x
    rw [List.foldl_cons]
    rcases ih (u.set c v) x with h | h
    · rw [h]
      exact getD_set_or (-1) v u c x
    · exact Or.inr h

theorem foldl_set_length (v : Int) : ∀ (L : List Nat) (u : List Int),
    (L.foldl (fun u2 y => u2.set y v) u).length = u.length := by
  intro L
  induction L with
  | nil => intro u; rfl
  | cons c cs ih =>
    intro u
    rw [List.foldl_cons, ih (u.set c v), List.length_set]

/-- `getStringOfStone` unfolded on its chase chain. -/
theorem getStringOfStone_eq (uf : List Int) (fn : Nat) :
    getStringOfStone uf fn =
      match chaseChain 82 uf fn with
      | [] => (fn, uf)
      | c :: cs =>
        if (c :: cs).length > 1 then
          ((c :: cs).getLastD fn,
           ((c :: cs).dropLast).foldl
             (fun u x => u.set x (Int.ofNat ((c :: cs).getLastD fn))) uf)
        else ((c :: cs).getLastD fn, uf) := rfl

/-! ## Union-find chain theory -/

theorem foldl_set_getD_mem (v : Int) : ∀ (L : List Nat) (u : List Int) (x : Nat),
    x ∈ L → x < u.length → ((L.foldl (fun u2 y => u2.set y v) u).getD x (-1)) = v := by
  intro L
  induction L with
  | nil => intro u x hx _; exact absurd hx (List.not_mem_nil x)
  | cons c cs ih =>
    intro u x hx hlen
    rw [List.foldl_cons]
    by_cases hmem : x ∈ cs
    · exact ih (u.set c v) x hmem (by rw [List.length_set]; exact hlen)
    · have hxc : x = c := by
        rcases List.mem_cons.1 hx with h | h
        · exact h
        · exact absurd h hmem
      subst hxc
      rw [foldl_set_getD_notMem v cs _ x hmem, getD_set_self (-1) v u x hlen]

/-- One unfolding step of the chain chase. -/
theorem chase_succ (uf : List Int) (fuel c : Nat) :
    chaseChain (fuel + 1) uf c =
      if 0 ≤ uf.getD c (-1)
      then (uf.getD c (-1)).toNat :: chaseChain fuel uf (uf.getD c (-1)).toNat
      else [] := rfl

theorem chase_len_le (uf : List Int) : ∀ (fuel c : Nat),
    (chaseChain fuel uf c).length ≤ fuel := by
  intro fuel
  induction fuel with
  | zero => intro c; exact Nat.le_refl 0
  | succ n ih =>
    intro c
    rw [chase_succ]
    by_cases h : (0 : Int) ≤ uf.getD c (-1)
    · rw [if_pos h, List.length_cons]
      exact Nat.succ_le_succ (ih _)
    · rw [if_neg h]
      exact Nat.zero_le _

theorem chase_len_mono (uf : List Int) : ∀ (f1 c f2 : Nat), f1 ≤ f2 →
    (chaseChain f1 uf c).length ≤ (chaseChain f2 uf c).length := by
  intro f1
  induction f1 with
  | zero => intro c f2 _; exact Nat.zero_le _
  | succ n ih =>
    intro c f2 hle
    obtain ⟨m, rfl⟩ : ∃ m, f2 = m + 1 := ⟨f2 - 1, by omega⟩
    rw [chase_succ, chase_succ]
    by_cases h : (0 : Int) ≤ uf.getD c (-1)
    · rw [if_pos h, if_pos h, List.length_cons, List.length_cons]
      exact Nat.succ_le_succ (ih _ m (by omega))
    · rw [if_neg h, if_neg h]

theorem chase_fuel_eq (uf : List Int) : ∀ (f1 c f2 : Nat),
    (chaseChain f1 uf c).length < f1 → f1 ≤ f2 →
    chaseChain f2 uf c = chaseChain f1 uf c := by
  intro f1
  induction f1 with
  | zero => intro c f2 h _; exact absurd h (Nat.not_lt_zero _)
  | succ n ih =>
    intro c f2 hlt hle
    obtain ⟨m, rfl⟩ : ∃ m, f2 = m + 1 := ⟨f2 - 1, by omega⟩
    rw [chase_succ, chase_succ]
    by_cases h : (0 : Int) ≤ uf.getD c (-1)
    · rw [if_pos h]
      rw [if_pos h]
      refine congrArg _ ?_
      refine ih _ m ?_ (by omega)
      rw [chase_succ, if_pos h, List.length_cons] at hlt
      omega
    · rw [if_neg h, if_neg h]

theorem chase_root_neg (uf : List Int) : ∀ (fuel c : Nat),
    (chaseChain fuel uf c).length < fuel →
    uf.getD ((chaseChain fuel uf c).getLastD c) (-1) < 0 := by
  intro fuel
  induction fuel with
  | zero => intro c h; exact absurd h (Nat.not_lt_zero _)
  | succ n ih =>
    intro c hlt
    rw [chase_succ] at hlt ⊢
    by_cases h : (0 : Int) ≤ uf.getD c (-1)
    · rw [if_pos h] at hlt ⊢
      rw [List.getLastD_cons]
      refine ih _ ?_
      rw [List.length_cons] at hlt
      omega
    · rw [if_neg h] at hlt ⊢
      rw [List.getLastD_nil]
      omega

theorem chase_dropLast_nonneg (uf : List Int) : ∀ (fuel c : Nat),
    ∀ x ∈ (chaseChain fuel uf c).dropLast, (0 : Int) ≤ uf.getD x (-1) := by
  intro fuel
  induction fuel with
  | zero => intro c x hx; exact absurd hx (List.not_mem_nil x)
  | succ n ih =>
    intro c x hx
    rw [chase_succ] at hx
    by_cases h : (0 : Int) ≤ uf.getD c (-1)
    · rw [if_pos h] at hx
      cases hch : chaseChain n uf (uf.getD c (-1)).toNat with
      | nil => rw [hch] at hx; exact absurd hx (List.not_mem_nil x)
      | cons a l =>
        rw [hch, List.dropLast_cons₂, List.mem_cons] at hx
        rcases hx with hx | hx
        · subst hx
          by_contra hcon
          have : chaseChain n uf (uf.getD c (-1)).toNat = [] := by
            obtain ⟨m, rfl⟩ : ∃ m, n = m + 1 := by
              cases n with
              | zero => rw [show chaseChain 0 uf (uf.getD c (-1)).toNat = [] from rfl] at hch; exact absurd hch (by simp)
              | succ m => exact ⟨m, rfl⟩
            rw [chase_succ, if_neg hcon]
          rw [this] at hch
          exact absurd hch (by simp)
        · have := ih (uf.getD c (-1)).toNat x
          rw [hch] at this
          exact this hx
    · rw [if_neg h] at hx
      exact absurd hx (List.not_mem_nil x)

/-- In-range union-find links: from every on-board cell, a nonnegative entry
points at an on-board cell. -/
def UfBounded (uf : List Int) : Prop :=
  ∀ c : Nat, c < 81 → (0 : Int) ≤ uf.getD c (-1) → (uf.getD c (-1)).toNat < 81

/-- Well-linked union-find registry: every link from an on-board cell points
at an on-board cell of the same board value. -/
def LinksOk (board : List Nat) (uf : List Int) : Prop :=
  ∀ c : Nat, c < 81 → (0 : Int) ≤ uf.getD c (-1) →
    (uf.getD c (-1)).toNat < 81 ∧
    board.getD (uf.getD c (-1)).toNat 0 = board.getD c 0

/-- Terminating union-find chain: the fuelled chase from `c` stops by
hitting a parentless cell within 81 steps (as every chase on a cycle-free
81-cell registry does), so fuel 82 computes the true chain. -/
def Term (uf : List Int) (c : Nat) : Prop := (chaseChain 82 uf c).length ≤ 81

instance (uf : List Int) (c : Nat) : Decidable (Term uf c) := by
  unfold Term
  infer_instance

instance (uf : List Int) : Decidable (UfBounded uf) := by
  unfold UfBounded
  infer_instance

instance (board : List Nat) (uf : List Int) : Decidable (LinksOk board uf) := by
  unfold LinksOk
  infer_instance

theorem LinksOk.bounded {board : List Nat} {uf : List Int} (h : LinksOk board uf) :
    UfBounded uf := fun c hc hv => (h c hc hv).1

theorem chase_bounded {uf : List Int} (hB : UfBounded uf) :
    ∀ (fuel c : Nat), c < 81 → ∀ x ∈ chaseChain fuel uf c, x < 81 := by
  intro fuel
  induction fuel with
  | zero => intro c _ x hx; exact absurd hx (List.not_mem_nil x)
  | succ n ih =>
    intro c hc x hx
    rw [chase_succ] at hx
    by_cases h : (0 : Int) ≤ uf.getD c (-1)
    · rw [if_pos h, List.mem_cons] at hx
      rcases hx with hx | hx
      · subst hx
        exact hB c hc h
      · exact ih _ (hB c hc h) x hx
    · rw [if_neg h] at hx
      exact absurd hx (List.not_mem_nil x)

theorem chase_class {board : List Nat} {uf : List Int} (hLk : LinksOk board uf) :
    ∀ (fuel c : Nat), c < 81 → ∀ x ∈ chaseChain fuel uf c,
      x < 81 ∧ board.getD x 0 = board.getD c 0 := by
  intro fuel
  induction fuel with
  | zero => intro c _ x hx; exact absurd hx (List.not_mem_nil x)
  | succ n ih =>
    intro c hc x hx
    rw [chase_succ] at hx
    by_cases h : (0 : Int) ≤ uf.getD c (-1)
    · rw [if_pos h, List.mem_cons] at hx
      obtain ⟨h81, hcl⟩ := hLk c hc h
      rcases hx with hx | hx
      · subst hx
        exact ⟨h81, hcl⟩
      · obtain ⟨hx81, hxcl⟩ := ih _ h81 x hx
        exact ⟨hx81, hxcl.trans hcl⟩
    · rw [if_neg h] at hx
      exact absurd hx (List.not_mem_nil x)

/-- Unfolding one chase step under termination: the chain from `c` is the
parent consed onto the (fuel-stable) chain from the parent. -/
theorem ufRoot_step {uf : List Int} {c : Nat} (h : Term uf c)
    (hv : (0 : Int) ≤ uf.getD c (-1)) :
    chaseChain 82 uf c =
      (uf.getD c (-1)).toNat :: chaseChain 82 uf (uf.getD c (-1)).toNat ∧
    Term uf (uf.getD c (-1)).toNat ∧
    ufRoot uf c = ufRoot uf (uf.getD c (-1)).toNat ∧
    (chaseChain 82 uf (uf.getD c (-1)).toNat).length + 1 =
      (chaseChain 82 uf c).length := by
  have h1 : chaseChain 82 uf c =
      (uf.getD c (-1)).toNat :: chaseChain 81 uf (uf.getD c (-1)).toNat := by
    rw [show (82 : Nat) = 81 + 1 from rfl, chase_succ, if_pos hv]
  have hlen81 : (chaseChain 81 uf (uf.getD c (-1)).toNat).length < 81 := by
    have h2 := h
    unfold Term at h2
    rw [h1, List.length_cons] at h2
    omega
  have hstab : chaseChain 82 uf (uf.getD c (-1)).toNat =
      chaseChain 81 uf (uf.getD c (-1)).toNat :=
    chase_fuel_eq uf 81 _ 82 hlen81 (by omega)
  have hcons : chaseChain 82 uf c =
      (uf.getD c (-1)).toNat :: chaseChain 82 uf (uf.getD c (-1)).toNat := by
    rw [h1, hstab]
  refine ⟨hcons, ?_, ?_, ?_⟩
  · unfold Term
    rw [hstab]
    omega
  · unfold ufRoot
    rw [hcons, List.getLastD_cons]
  · rw [hcons, List.length_cons]

/-- A chain that ends within the fuel ends at a parentless cell. -/
theorem ufRoot_entry_neg {uf : List Int} {c : Nat} (h : Term uf c) :
    uf.getD (ufRoot uf c) (-1) < 0 := by
  unfold ufRoot
  exact chase_root_neg uf 82 c (lt_of_le_of_lt h (by omega))

/-- Every cell on a terminating chain has a terminating chain of its own,
the same root, and a strictly shorter chain. -/
theorem chain_elem_lt {uf : List Int} : ∀ (n c : Nat),
    (chaseChain 82 uf c).length ≤ n → Term uf c →
    ∀ x ∈ chaseChain 82 uf c,
      Term uf x ∧ ufRoot uf x = ufRoot uf c ∧
      (chaseChain 82 uf x).length < (chaseChain 82 uf c).length := by
  intro n
  induction n with
  | zero =>
    intro c hn _ x hx
    rw [List.length_eq_zero.1 (Nat.le_zero.1 hn)] at hx
    exact absurd hx (List.not_mem_nil x)
  | succ n ih =>
    intro c hn hterm x hx
    by_cases hv : (0 : Int) ≤ uf.getD c (-1)
    · obtain ⟨hcons, htv, hroot, hlen⟩ := ufRoot_step hterm hv
      rw [hcons, List.mem_cons] at hx
      rcases hx with hx | hx
      · subst hx
        exact ⟨htv, hroot.symm, by omega⟩
      · obtain ⟨ht, hr, hl⟩ := ih _ (by omega) htv x hx
        exact ⟨ht, hr.trans hroot.symm, by omega⟩
    · have hnil : chaseChain 82 uf c = [] := by
        rw [show (82 : Nat) = 81 + 1 from rfl, chase_succ, if_neg hv]
      rw [hnil] at hx
      exact absurd hx (List.not_mem_nil x)

/-- A terminating chain visits no cell twice. -/
theorem chain_nodup {uf : List Int} : ∀ (n c : Nat),
    (chaseChain 82 uf c).length ≤ n → Term uf c →
    (chaseChain 82 uf c).Nodup := by
  intro n
  induction n with
  | zero =>
    intro c hn _
    rw [List.length_eq_zero.1 (Nat.le_zero.1 hn)]
    exact List.nodup_nil
  | succ n ih =>
    intro c hn hterm
    by_cases hv : (0 : Int) ≤ uf.getD c (-1)
    · obtain ⟨hcons, htv, _, hlen⟩ := ufRoot_step hterm hv
      rw [hcons]
      refine List.Nodup.cons ?_ (ih _ (by omega) htv)
      intro hmem
      obtain ⟨_, _, hl⟩ := chain_elem_lt n _ (by omega) htv _ hmem
      exact absurd hl (lt_irrefl _)
    · rw [show (82 : Nat) = 81 + 1 from rfl, chase_succ, if_neg hv]
      exact List.nodup_nil

theorem mem_of_nodup_bounded {l : List Nat} (hnd : l.Nodup)
    (hb : ∀ x ∈ l, x < 81) (hlen : l.length = 81) :
    ∀ y, y < 81 → y ∈ l := by
  have hsub : l.toFinset ⊆ Finset.range 81 := by
    intro x hx
    rw [List.mem_toFinset] at hx
    exact Finset.mem_range.2 (hb x hx)
  have hcard : (Finset.range 81).card ≤ l.toFinset.card := by
    rw [Finset.card_range, List.toFinset_card_of_nodup hnd, hlen]
  have heq := Finset.eq_of_subset_of_card_le hsub hcard
  intro y hy
  have hmem : y ∈ l.toFinset := by
    rw [heq]
    exact Finset.mem_range.2 hy
  exact List.mem_toFinset.1 hmem

/-- The nonempty terminating chain ends at its root. -/
theorem ufRoot_mem (uf : List Int) (c : Nat) (hne : chaseChain 82 uf c ≠ []) :
    ufRoot uf c ∈ chaseChain 82 uf c := by
  unfold ufRoot
  rw [List.getLastD_eq_getLast?, List.getLast?_eq_getLast _ hne]
  exact List.getLast_mem hne

/-- A terminating chain from an on-board cell that misses some parentless
on-board cell other than its root has length at most 80. -/
theorem chain_missing {uf : List Int} (hB : UfBounded uf) {c r : Nat}
    (hc : c < 81) (hterm : Term uf c) (hr : uf.getD r (-1) < 0) (hr81 : r < 81)
    (hne : ufRoot uf c ≠ r) : (chaseChain 82 uf c).length ≤ 80 := by
  by_contra hcon
  have hlen : (chaseChain 82 uf c).length = 81 := by
    have h2 := hterm
    unfold Term at h2
    omega
  have hnd := chain_nodup 81 c (le_of_eq hlen) hterm
  have hbd := chase_bounded hB 82 c hc
  have hrmem : r ∈ chaseChain 82 uf c := mem_of_nodup_bounded hnd hbd hlen r hr81
  have hchne : chaseChain 82 uf c ≠ [] := by
    intro hnil
    rw [hnil] at hlen
    exact absurd hlen (by simp)
  rcases (List.dropLast_append_getLast hchne).symm ▸ hrmem with hmem2
  rw [List.mem_append] at hmem2
  rcases hmem2 with hmem2 | hmem2
  · exact absurd (chase_dropLast_nonneg uf 82 c r hmem2) (by omega)
  · have hrlast : r = (chaseChain 82 uf c).getLast hchne :=
      List.mem_singleton.1 hmem2
    refine hne ?_
    unfold ufRoot
    rw [List.getLastD_eq_getLast?, List.getLast?_eq_getLast _ hchne]
    exact hrlast.symm

/-- Re-pointing a set of cells that already have root `r` directly at `r`
preserves every terminating chain's root and never lengthens a chain beyond
a single hop. -/
theorem set_many_root_preserves (uf : List Int) (r : Nat) (S : List Nat)
    (hur : uf.getD r (-1) < 0) (hrS : r ∉ S)
    (hS : ∀ x ∈ S, ufRoot uf x = r ∧ x < uf.length) :
    ∀ (n c : Nat), (chaseChain 82 uf c).length ≤ n → Term uf c →
      (chaseChain 82 (S.foldl (fun u x => u.set x (Int.ofNat r)) uf) c).length ≤
        max 1 (chaseChain 82 uf c).length ∧
      ufRoot (S.foldl (fun u x => u.set x (Int.ofNat r)) uf) c = ufRoot uf c := by
  have hr' : (S.foldl (fun u x => u.set x (Int.ofNat r)) uf).getD r (-1) =
      uf.getD r (-1) := foldl_set_getD_notMem _ S uf r hrS
  have hmain : ∀ (c : Nat), uf.getD c (-1) < 0 → c ∉ S →
      chaseChain 82 (S.foldl (fun u x => u.set x (Int.ofNat r)) uf) c = [] := by
    intro c hc hcS
    have hc' : (S.foldl (fun u x => u.set x (Int.ofNat r)) uf).getD c (-1) =
        uf.getD c (-1) := foldl_set_getD_notMem _ S uf c hcS
    rw [show (82 : Nat) = 81 + 1 from rfl, chase_succ, hc', if_neg (by omega)]
  have hnegcase : ∀ (c : Nat), uf.getD c (-1) < 0 →
      (chaseChain 82 (S.foldl (fun u x => u.set x (Int.ofNat r)) uf) c).length ≤
        max 1 (chaseChain 82 uf c).length ∧
      ufRoot (S.foldl (fun u x => u.set x (Int.ofNat r)) uf) c = ufRoot uf c := by
    intro c hc
    have hnil : chaseChain 82 uf c = [] := by
      rw [show (82 : Nat) = 81 + 1 from rfl, chase_succ, if_neg (by omega)]
    have hrootc : ufRoot uf c = c := by
      unfold ufRoot
      rw [hnil, List.getLastD_nil]
    have hcS : c ∉ S := by
      intro hmem
      have := (hS c hmem).1
      rw [hrootc] at this
      exact hrS (this ▸ hmem)
    have hnil' := hmain c hc hcS
    constructor
    · rw [hnil']
      simp
    · unfold ufRoot
      rw [hnil, hnil']
  intro n
  induction n with
  | zero =>
    intro c hn hterm
    have hnil : chaseChain 82 uf c = [] := List.length_eq_zero.1 (Nat.le_zero.1 hn)
    have hc : uf.getD c (-1) < 0 := by
      by_contra hcon
      rw [show (82 : Nat) = 81 + 1 from rfl, chase_succ, if_pos (by omega)] at hnil
      exact absurd hnil (by simp)
    exact hnegcase c hc
  | succ n ih =>
    intro c hn hterm
    by_cases hv : (0 : Int) ≤ uf.getD c (-1)
    · by_cases hcS : c ∈ S
      · have hcl := (hS c hcS).2
        have hc' : (S.foldl (fun u x => u.set x (Int.ofNat r)) uf).getD c (-1) =
            Int.ofNat r := foldl_set_getD_mem _ S uf c hcS hcl
        have hch' : chaseChain 82 (S.foldl (fun u x => u.set x (Int.ofNat r)) uf) c =
            [r] := by
          rw [show (82 : Nat) = 81 + 1 from rfl, chase_succ, hc',
            if_pos (by exact Int.ofNat_nonneg r)]
          rw [show (Int.ofNat r).toNat = r from Int.toNat_ofNat r]
          rw [show (81 : Nat) = 80 + 1 from rfl, chase_succ, hr', if_neg (by omega)]
        have hchne : chaseChain 82 uf c ≠ [] := by
          intro hnil
          rw [show (82 : Nat) = 81 + 1 from rfl, chase_succ, if_pos hv] at hnil
          exact absurd hnil (by simp)
        constructor
        · rw [hch']
          exact Nat.le_max_left 1 _
        · rw [ufRoot, hch']
          rw [show List.getLastD [r] c = r from rfl]
          exact ((hS c hcS).1).symm
      · obtain ⟨hcons, htv, hrv, hlenv⟩ := ufRoot_step hterm hv
        have hc' : (S.foldl (fun u x => u.set x (Int.ofNat r)) uf).getD c (-1) =
            uf.getD c (-1) := foldl_set_getD_notMem _ S uf c hcS
        obtain ⟨ihlen, ihroot⟩ := ih (uf.getD c (-1)).toNat (by omega) htv
        have hlv80 : (chaseChain 82 uf (uf.getD c (-1)).toNat).length ≤ 80 := by
          have h2 := hterm
          unfold Term at h2
          omega
        have hzlem : (chaseChain 82 uf (uf.getD c (-1)).toNat).length = 0 →
            chaseChain 82 (S.foldl (fun u x => u.set x (Int.ofNat r)) uf)
              (uf.getD c (-1)).toNat = [] := by
          intro hz
          have hvneg : uf.getD (uf.getD c (-1)).toNat (-1) < 0 := by
            by_contra hcon
            have hne2 : chaseChain 82 uf (uf.getD c (-1)).toNat ≠ [] := by
              rw [show (82 : Nat) = 81 + 1 from rfl, chase_succ, if_pos (by omega)]
              simp
            rw [List.length_eq_zero.1 hz] at hne2
            exact hne2 rfl
          have hvS : (uf.getD c (-1)).toNat ∉ S := by
            intro hmem
            have hroot := (hS _ hmem).1
            have hself : ufRoot uf (uf.getD c (-1)).toNat = (uf.getD c (-1)).toNat := by
              unfold ufRoot
              rw [List.length_eq_zero.1 hz, List.getLastD_nil]
            rw [hself] at hroot
            exact hrS (hroot ▸ hmem)
          exact hmain _ hvneg hvS
        have hlen'v : (chaseChain 82 (S.foldl (fun u x => u.set x (Int.ofNat r)) uf)
            (uf.getD c (-1)).toNat).length ≤ 80 :=
          le_trans ihlen (max_le (by omega) hlv80)
        have hstab : chaseChain 81 (S.foldl (fun u x => u.set x (Int.ofNat r)) uf)
            (uf.getD c (-1)).toNat =
            chaseChain 82 (S.foldl (fun u x => u.set x (Int.ofNat r)) uf)
              (uf.getD c (-1)).toNat := by
          refine (chase_fuel_eq _ 81 _ 82 ?_ (by omega)).symm
          have := chase_len_mono (S.foldl (fun u x => u.set x (Int.ofNat r)) uf)
            81 (uf.getD c (-1)).toNat 82 (by omega)
          omega
        have hcons' : chaseChain 82 (S.foldl (fun u x => u.set x (Int.ofNat r)) uf) c =
            (uf.getD c (-1)).toNat ::
              chaseChain 82 (S.foldl (fun u x => u.set x (Int.ofNat r)) uf)
                (uf.getD c (-1)).toNat := by
          rw [show (82 : Nat) = 81 + 1 from rfl, chase_succ, hc', if_pos hv, hstab]
        constructor
        · rw [hcons', List.length_cons, ← hlenv]
          rcases Nat.eq_zero_or_pos
              (chaseChain 82 uf (uf.getD c (-1)).toNat).length with hz | hp
          · rw [hzlem hz, hz]
            simp
          · rw [Nat.max_eq_right
              (show 1 ≤ (chaseChain 82 uf (uf.getD c (-1)).toNat).length + 1 by omega)]
            have hle2 : (chaseChain 82 (S.foldl (fun u x => u.set x (Int.ofNat r)) uf)
                (uf.getD c (-1)).toNat).length ≤
                (chaseChain 82 uf (uf.getD c (-1)).toNat).length := by
              rw [Nat.max_eq_right hp] at ihlen
              exact ihlen
            omega
        · have hroot' : ufRoot (S.foldl (fun u x => u.set x (Int.ofNat r)) uf) c =
              ufRoot (S.foldl (fun u x => u.set x (Int.ofNat r)) uf)
                (uf.getD c (-1)).toNat := by
            unfold ufRoot
            rw [hcons', List.getLastD_cons]
          rw [hroot', ihroot, ← hrv]
    · exact hnegcase c (by omega)

/-- `_getStringOfStone` in closed form: it returns the chain's root and
re-points every chain cell but the last at that root. -/
theorem getStringOfStone_eq2 (uf : List Int) (fn : Nat) :
    getStringOfStone uf fn =
      (ufRoot uf fn,
       ((chaseChain 82 uf fn).dropLast).foldl
         (fun u x => u.set x (Int.ofNat (ufRoot uf fn))) uf) := by
  rw [getStringOfStone_eq]
  cases hch : chaseChain 82 uf fn with
  | nil =>
    show (fn, uf) =
      (ufRoot uf fn, ([] : List Nat).foldl
        (fun u x => u.set x (Int.ofNat (ufRoot uf fn))) uf)
    unfold ufRoot
    rw [hch, List.getLastD_nil]
    rfl
  | cons c cs =>
    have hroot : ufRoot uf fn = (c :: cs).getLastD fn := by
      unfold ufRoot
      rw [hch]
    show (if (c :: cs).length > 1 then
        ((c :: cs).getLastD fn,
         ((c :: cs).dropLast).foldl
           (fun u x => u.set x (Int.ofNat ((c :: cs).getLastD fn))) uf)
      else ((c :: cs).getLastD fn, uf)) =
      (ufRoot uf fn,
       ((c :: cs).dropLast).foldl (fun u x => u.set x (Int.ofNat (ufRoot uf fn))) uf)
    rw [hroot]
    by_cases hlen : (c :: cs).length > 1
    · rw [if_pos hlen]
    · have hcs : cs = [] := by
        rw [List.length_cons] at hlen
        have hl0 : cs.length = 0 := by omega
        exact List.length_eq_zero.1 hl0
      subst hcs
      rw [if_neg hlen]
      rfl

/-- The root of an on-board cell is on board. -/
theorem ufRoot_lt {uf : List Int} (hB : UfBounded uf) {c : Nat} (hc : c < 81) :
    ufRoot uf c < 81 := by
  cases hch : chaseChain 82 uf c with
  | nil =>
    unfold ufRoot
    rw [hch, List.getLastD_nil]
    exact hc
  | cons a l =>
    have hmem := ufRoot_mem uf c (by rw [hch]; simp)
    exact chase_bounded hB 82 c hc _ hmem

/-- The root of an on-board cell keeps the cell's board value. -/
theorem ufRoot_class {board : List Nat} {uf : List Int} (hLk : LinksOk board uf)
    {c : Nat} (hc : c < 81) :
    ufRoot uf c < 81 ∧ board.getD (ufRoot uf c) 0 = board.getD c 0 := by
  cases hch : chaseChain 82 uf c with
  | nil =>
    unfold ufRoot
    rw [hch, List.getLastD_nil]
    exact ⟨hc, rfl⟩
  | cons a l =>
    have hmem := ufRoot_mem uf c (by rw [hch]; simp)
    exact chase_class hLk 82 c hc _ hmem

/-- Full characterization of one `_getStringOfStone` call on a terminating
registry: it returns the chain root, writes only to chain cells (shrinking
their chains), keeps every entry in range, and preserves every terminating
chain's root and termination. -/
theorem getStringOfStone_ok {uf : List Int} (hlen : uf.length = 81)
    (hB : UfBounded uf) {fn : Nat} (hfn : fn < 81) (hterm : Term uf fn) :
    (getStringOfStone uf fn).1 = ufRoot uf fn ∧
    (getStringOfStone uf fn).2.length = 81 ∧
    (∀ y : Nat, y ∉ (chaseChain 82 uf fn).dropLast →
      (getStringOfStone uf fn).2.getD y (-1) = uf.getD y (-1)) ∧
    UfBounded (getStringOfStone uf fn).2 ∧
    (∀ c : Nat, Term uf c →
      Term (getStringOfStone uf fn).2 c ∧
      ufRoot (getStringOfStone uf fn).2 c = ufRoot uf c) ∧
    ufRoot uf fn < 81 ∧
    (getStringOfStone uf fn).2.getD (ufRoot uf fn) (-1) < 0 := by
  have hr81 : ufRoot uf fn < 81 := ufRoot_lt hB hfn
  have hrneg : uf.getD (ufRoot uf fn) (-1) < 0 := ufRoot_entry_neg hterm
  have hrS : ufRoot uf fn ∉ (chaseChain 82 uf fn).dropLast := by
    intro hmem
    exact absurd (chase_dropLast_nonneg uf 82 fn _ hmem) (by omega)
  have hS : ∀ x ∈ (chaseChain 82 uf fn).dropLast,
      ufRoot uf x = ufRoot uf fn ∧ x < uf.length := by
    intro x hx
    have hxch : x ∈ chaseChain 82 uf fn := (List.dropLast_sublist _).mem hx
    obtain ⟨_, hroot, _⟩ := chain_elem_lt 82 fn (chase_len_le uf 82 fn) hterm x hxch
    refine ⟨hroot, ?_⟩
    rw [hlen]
    exact chase_bounded hB 82 fn hfn x hxch
  have hpres := set_many_root_preserves uf (ufRoot uf fn)
    ((chaseChain 82 uf fn).dropLast) hrneg hrS hS
  rw [getStringOfStone_eq2]
  refine ⟨rfl, ?_, ?_, ?_, ?_, hr81, ?_⟩
  · rw [foldl_set_length, hlen]
  · intro y hy
    exact foldl_set_getD_notMem _ _ uf y hy
  · intro c hc hv
    rcases foldl_set_getD_or (Int.ofNat (ufRoot uf fn))
        ((chaseChain 82 uf fn).dropLast) uf c with heq | heq
    · rw [heq] at hv ⊢
      exact hB c hc hv
    · rw [heq]
      rw [show (Int.ofNat (ufRoot uf fn)).toNat = ufRoot uf fn from
        Int.toNat_ofNat _]
      exact hr81
  · intro c hc
    obtain ⟨hl, hr⟩ := hpres (chaseChain 82 uf c).length c (le_refl _) hc
    exact ⟨le_trans hl (max_le (by omega) hc), hr⟩
  · rw [foldl_set_getD_notMem _ _ uf _ hrS]
    exact hrneg

/-- On a well-linked registry, `_getStringOfStone` writes only cells of the
queried cell's board value, returns a root of that value, and keeps the
registry well linked. -/
theorem getStringOfStone_class {board : List Nat} {uf : List Int}
    (hlen : uf.length = 81) (hLk : LinksOk board uf)
    {fn : Nat} (hfn : fn < 81) (hterm : Term uf fn) :
    (∀ y : Nat, board.getD y 0 ≠ board.getD fn 0 →
      (getStringOfStone uf fn).2.getD y (-1) = uf.getD y (-1)) ∧
    board.getD (ufRoot uf fn) 0 = board.getD fn 0 ∧
    LinksOk board (getStringOfStone uf fn).2 := by
  obtain ⟨-, -, hoff, -, -, hr81, -⟩ :=
    getStringOfStone_ok hlen hLk.bounded hfn hterm
  have hclassmem : ∀ y ∈ (chaseChain 82 uf fn).dropLast,
      board.getD y 0 = board.getD fn 0 := fun y hy =>
    (chase_class hLk 82 fn hfn y ((List.dropLast_sublist _).mem hy)).2
  refine ⟨?_, (ufRoot_class hLk hfn).2, ?_⟩
  · intro y hy
    exact hoff y (fun hmem => hy (hclassmem y hmem))
  · intro c hc hv
    by_cases hmem : c ∈ (chaseChain 82 uf fn).dropLast
    · have hc' : (getStringOfStone uf fn).2.getD c (-1) =
          Int.ofNat (ufRoot uf fn) := by
        rw [getStringOfStone_eq2]
        refine foldl_set_getD_mem _ _ uf c hmem ?_
        rw [hlen]
        exact chase_bounded hLk.bounded 82 fn hfn c
          ((List.dropLast_sublist _).mem hmem)
      rw [hc', show (Int.ofNat (ufRoot uf fn)).toNat = ufRoot uf fn from rfl]
      refine ⟨hr81, ?_⟩
      rw [(ufRoot_class hLk hfn).2, hclassmem c hmem]
    · have hc' := hoff c hmem
      rw [hc'] at hv ⊢
      exact hLk c hc hv

theorem chase82_succ (uf : List Int) (c : Nat) :
    chaseChain 82 uf c =
      if 0 ≤ uf.getD c (-1)
      then (uf.getD c (-1)).toNat :: chaseChain 81 uf (uf.getD c (-1)).toNat
      else [] := rfl

theorem chase81_succ (uf : List Int) (c : Nat) :
    chaseChain 81 uf c =
      if 0 ≤ uf.getD c (-1)
      then (uf.getD c (-1)).toNat :: chaseChain 80 uf (uf.getD c (-1)).toNat
      else [] := rfl

/-- Writing a fresh link from one parentless cell to another (the
`_merge_strings` attachment) appends exactly one hop to the chains that
ended at the re-pointed cell and leaves every other chain unchanged. -/
theorem set_link_chains {uf : List Int} (hlen : uf.length = 81) (hB : UfBounded uf)
    {cs r : Nat} (hcs : uf.getD cs (-1) < 0) (hr : uf.getD r (-1) < 0)
    (hne : cs ≠ r) (hcs81 : cs < 81) (hr81 : r < 81) :
    ∀ (n c : Nat), c < 81 → (chaseChain 82 uf c).length ≤ n → Term uf c →
      chaseChain 82 (uf.set cs (Int.ofNat r)) c =
        chaseChain 82 uf c ++ (if ufRoot uf c = cs then [r] else []) := by
  have hcs' : (uf.set cs (Int.ofNat r)).getD cs (-1) = Int.ofNat r :=
    getD_set_self (-1) _ uf cs (by rw [hlen]; exact hcs81)
  have hr' : (uf.set cs (Int.ofNat r)).getD r (-1) = uf.getD r (-1) :=
    getD_set_of_ne (-1) _ uf cs r hne
  have hnegcase : ∀ c : Nat, uf.getD c (-1) < 0 →
      chaseChain 82 (uf.set cs (Int.ofNat r)) c =
        chaseChain 82 uf c ++ (if ufRoot uf c = cs then [r] else []) := by
    intro c hc
    have hnil : chaseChain 82 uf c = [] := by
      rw [chase82_succ, if_neg (by omega)]
    have hrootc : ufRoot uf c = c := by
      unfold ufRoot
      rw [hnil, List.getLastD_nil]
    by_cases hccs : c = cs
    · subst hccs
      rw [hnil, hrootc, if_pos rfl]
      rw [chase82_succ, hcs', if_pos (by exact Int.ofNat_nonneg r),
        show (Int.ofNat r).toNat = r from rfl]
      rw [chase81_succ, hr', if_neg (by omega)]
      rfl
    · rw [hnil, hrootc, if_neg hccs]
      have hc' : (uf.set cs (Int.ofNat r)).getD c (-1) = uf.getD c (-1) :=
        getD_set_of_ne (-1) _ uf cs c (Ne.symm hccs)
      rw [chase82_succ, hc', if_neg (by omega)]
      rfl
  intro n
  induction n with
  | zero =>
    intro c _ hn _
    have hnil : chaseChain 82 uf c = [] := List.length_eq_zero.1 (Nat.le_zero.1 hn)
    have hcneg : uf.getD c (-1) < 0 := by
      by_contra hcon
      rw [chase82_succ, if_pos (by omega)] at hnil
      exact absurd hnil (by simp)
    exact hnegcase c hcneg
  | succ n ih =>
    intro c hc hn hterm
    by_cases hv : (0 : Int) ≤ uf.getD c (-1)
    · have hccs : c ≠ cs := by
        intro h
        rw [h] at hv
        omega
      obtain ⟨hcons, htv, hrv, hlenv⟩ := ufRoot_step hterm hv
      have hv81 : (uf.getD c (-1)).toNat < 81 := hB c hc hv
      have hc' : (uf.set cs (Int.ofNat r)).getD c (-1) = uf.getD c (-1) :=
        getD_set_of_ne (-1) _ uf cs c (fun h => hccs h.symm)
      have hihv := ih (uf.getD c (-1)).toNat hv81 (by omega) htv
      have hlv80' : (chaseChain 82 (uf.set cs (Int.ofNat r))
          (uf.getD c (-1)).toNat).length ≤ 80 := by
        rw [hihv]
        by_cases hroot : ufRoot uf (uf.getD c (-1)).toNat = cs
        · rw [if_pos hroot, List.length_append, List.length_singleton]
          have h80 := chain_missing hB hc hterm hr hr81
            (by rw [hrv, hroot]; exact hne)
          omega
        · rw [if_neg hroot, List.append_nil]
          have h2 := hterm
          unfold Term at h2
          omega
      have hstab : chaseChain 81 (uf.set cs (Int.ofNat r))
          (uf.getD c (-1)).toNat =
          chaseChain 82 (uf.set cs (Int.ofNat r)) (uf.getD c (-1)).toNat := by
        refine (chase_fuel_eq _ 81 _ 82 ?_ (by omega)).symm
        have := chase_len_mono (uf.set cs (Int.ofNat r)) 81
          (uf.getD c (-1)).toNat 82 (by omega)
        omega
      rw [hcons, chase82_succ (uf.set cs (Int.ofNat r)) c, hc', if_pos hv, hstab,
        hihv, hrv, List.cons_append]
    · exact hnegcase c (by omega)

/-- Root and termination transport across one `_merge_strings` link write:
chains ending at the re-pointed cell now end at its new parent; all others
keep their roots. -/
theorem set_link_props {uf : List Int} (hlen : uf.length = 81) (hB : UfBounded uf)
    {cs r : Nat} (hcs : uf.getD cs (-1) < 0) (hr : uf.getD r (-1) < 0)
    (hne : cs ≠ r) (hcs81 : cs < 81) (hr81 : r < 81) (c : Nat) (hc : c < 81)
    (hterm : Term uf c) :
    Term (uf.set cs (Int.ofNat r)) c ∧
    ufRoot (uf.set cs (Int.ofNat r)) c =
      (if ufRoot uf c = cs then r else ufRoot uf c) := by
  have hch := set_link_chains hlen hB hcs hr hne hcs81 hr81
    (chaseChain 82 uf c).length c hc (le_refl _) hterm
  by_cases hroot : ufRoot uf c = cs
  · rw [if_pos hroot] at hch ⊢
    constructor
    · unfold Term
      rw [hch, List.length_append, List.length_singleton]
      have h80 := chain_missing hB hc hterm hr hr81 (by rw [hroot]; exact hne)
      omega
    · unfold ufRoot
      rw [hch, List.getLastD_concat]
  · rw [if_neg hroot] at hch ⊢
    rw [List.append_nil] at hch
    constructor
    · unfold Term
      rw [hch]
      exact hterm
    · unfold ufRoot
      rw [hch]

theorem set_bounded {uf : List Int} (hB : UfBounded uf) {cs r : Nat}
    (hr81 : r < 81) : UfBounded (uf.set cs (Int.ofNat r)) := by
  intro c hc hv
  rcases getD_set_or (-1) (Int.ofNat r) uf cs c with h | h
  · rw [h] at hv ⊢
    exact hB c hc hv
  · rw [h, show (Int.ofNat r).toNat = r from rfl]
    exact hr81


/-- The enemy-root sequence of an arbitrary surveyed neighbor list. -/
def oppPreOf (s : GoState) (f color : Nat) (pre : List Nat) : List Nat :=
  rootSeqOf s.board s.stringUnionFind
    (fun n => s.board.getD n 0 == flip color) pre

theorem oppColorRootSeq_eq_oppPreOf (s : GoState) (f color : Nat) :
    oppColorRootSeq s f color = oppPreOf s f color (neighborsOf f) := rfl

theorem oppPreOf_append (s : GoState) (f color : Nat) (pre : List Nat) (fn : Nat) :
    oppPreOf s f color (pre ++ [fn]) =
      oppPreOf s f color pre ++
        (if s.board.getD fn 0 = flip color
          then [ufRoot s.stringUnionFind fn] else []) := by
  unfold oppPreOf rootSeqOf
  rw [List.filter_append, List.map_append]
  refine congrArg _ ?_
  by_cases h : s.board.getD fn 0 = flip color
  · rw [if_pos h]
    have hb : (s.board.getD fn 0 == flip color) = true := by
      simp only [beq_iff_eq]
      exact h
    rw [List.filter_singleton, hb]
    rfl
  · rw [if_neg h]
    have hb : (s.board.getD fn 0 == flip color) = false := by
      simp only [beq_eq_false_iff_ne, ne_eq]
      exact h
    rw [List.filter_singleton, hb]
    rfl

theorem oppPreOf_sublist (s : GoState) (f color : Nat) {l1 l2 : List Nat}
    (h : l1.Sublist l2) :
    (oppPreOf s f color l1).Sublist (oppPreOf s f color l2) :=
  (h.filter _).map _


/-- Hash, board and mover effect of removing one captured stone. -/
theorem captureOne_facts (z : Zob) (st : GoState) (x : Nat) :
    (captureOne z st x).currentHash =
      st.currentHash ^^^ z.posHash x (st.board.getD x 0) ∧
    (captureOne z st x).board = st.board.set x 0 ∧
    (captureOne z st x).nextPlayer = st.nextPlayer := by
  by_cases h : st.nextPlayer = 2 <;> simp [captureOne, h]

/-- Removing a duplicate-free list of same-colored stones folds their
constants out of the hash and clears exactly those cells. -/
theorem captureOne_fold (z : Zob) (opp : Nat) :
    ∀ (B : List Nat) (st : GoState),
    B.Nodup →
    (∀ x ∈ B, x < 81 ∧ st.board.getD x 0 = opp) →
    st.board.length = 81 →
    (B.foldl (captureOne z) st).currentHash =
      B.foldl (fun h2 x => h2 ^^^ z.posHash x opp) st.currentHash ∧
    (B.foldl (captureOne z) st).board = clearCells st.board B ∧
    (B.foldl (captureOne z) st).board.length = 81 ∧
    (B.foldl (captureOne z) st).nextPlayer = st.nextPlayer := by
  intro B
  induction B with
  | nil =>
    intro st _ _ hlen
    exact ⟨rfl, rfl, hlen, rfl⟩
  | cons x xs ih =>
    intro st hnd hall hlen
    obtain ⟨hx81, hxval⟩ := hall x (List.mem_cons_self x xs)
    obtain ⟨hch, hcb, hcn⟩ := captureOne_facts z st x
    rw [List.foldl_cons, List.foldl_cons]
    have hall2 : ∀ y ∈ xs, y < 81 ∧ (captureOne z st x).board.getD y 0 = opp := by
      intro y hy
      have hxy : x ≠ y := by
        intro h
        exact (List.nodup_cons.1 hnd).1 (h ▸ hy)
      refine ⟨(hall y (List.mem_cons_of_mem x hy)).1, ?_⟩
      rw [hcb, getD_set_of_ne 0 0 st.board x y hxy]
      exact (hall y (List.mem_cons_of_mem x hy)).2
    have hlen2 : (captureOne z st x).board.length = 81 := by
      rw [hcb, List.length_set]
      exact hlen
    obtain ⟨ih1, ih2, ih3, ih4⟩ :=
      ih (captureOne z st x) (List.nodup_cons.1 hnd).2 hall2 hlen2
    refine ⟨?_, ?_, ih3, ?_⟩
    · rw [ih1, hch, hxval]
    · rw [ih2, hcb]
      rfl
    · rw [ih4, hcn]

/-- Capturing a duplicate-free list of strings whose flood fills are stable
under the earlier removals folds all their stones' constants out of the
hash. -/
theorem capture_loop (z : Zob) (opp : Nat) (Bf : Nat → List Nat) :
    ∀ (rs : List Nat) (st : GoState),
    st.board.length = 81 →
    rs.Nodup →
    (∀ r ∈ rs, (Bf r).Nodup ∧ ∀ x ∈ Bf r, x < 81 ∧ st.board.getD x 0 = opp) →
    (∀ r ∈ rs, ∀ r2 ∈ rs, r ≠ r2 → ∀ x ∈ Bf r, x ∉ Bf r2) →
    (∀ i : Nat, i < rs.length →
      breadthSearchString (clearCells st.board ((rs.take i).flatMap Bf))
        (rs.getD i 0) = Bf (rs.getD i 0)) →
    (rs.foldl (captureString z) st).currentHash =
      rs.foldl (fun h r => (Bf r).foldl (fun h2 x => h2 ^^^ z.posHash x opp) h)
        st.currentHash := by
  intro rs
  induction rs with
  | nil =>
    intro st _ _ _ _ _
    rfl
  | cons r rest ih =>
    intro st hlen hnd hall hdisj hstab
    have hbfs : breadthSearchString st.board r = Bf r := hstab 0 (by simp)
    have hBr := hall r (List.mem_cons_self r rest)
    rw [List.foldl_cons, List.foldl_cons]
    have hcsr : captureString z st r = (Bf r).foldl (captureOne z) st := by
      unfold captureString
      rw [hbfs]
    obtain ⟨h1, h2, h3, _⟩ := captureOne_fold z opp (Bf r) st hBr.1 hBr.2 hlen
    rw [hcsr]
    have hih := ih ((Bf r).foldl (captureOne z) st) h3 (List.nodup_cons.1 hnd).2
      ?_ ?_ ?_
    · rw [hih, h1]
    · intro r2 hr2
      have hmem2 := List.mem_cons_of_mem r hr2
      refine ⟨(hall r2 hmem2).1, ?_⟩
      intro x hx
      refine ⟨((hall r2 hmem2).2 x hx).1, ?_⟩
      have hne : r2 ≠ r := by
        intro h
        exact (List.nodup_cons.1 hnd).1 (h ▸ hr2)
      have hnotin : x ∉ Bf r := hdisj r2 hmem2 r (List.mem_cons_self r rest) hne x hx
      rw [h2, clearCells_getD_notMem (Bf r) st.board x hnotin]
      exact ((hall r2 hmem2).2 x hx).2
    · intro r2 hr2 r3 hr3 hne x hx
      exact hdisj r2 (List.mem_cons_of_mem r hr2) r3 (List.mem_cons_of_mem r hr3)
        hne x hx
    · intro i hi
      have hs := hstab (i + 1) (by simpa using Nat.succ_lt_succ hi)
      rw [List.take_succ_cons, List.flatMap_cons, clearCells_append, ← h2,
        List.getD_cons_succ] at hs
      exact hs

/-- A left XOR fold commutes with XOR-ing a constant into the seed. -/
theorem foldl_xor_seed (g : Nat → Nat) (L : List Nat) (h c : Nat) :
    L.foldl (fun h2 x => h2 ^^^ g x) (h ^^^ c) =
      (L.foldl (fun h2 x => h2 ^^^ g x) h) ^^^ c := by
  rw [foldl_xor_shift g L (h ^^^ c), foldl_xor_shift g L h, Nat.xor_assoc,
    Nat.xor_assoc, Nat.xor_comm c]

/-- Two successive XOR folds over different lists commute. -/
theorem xor_fold_rightComm (g : Nat → Nat) :
    ∀ (L1 : List Nat) (L2 : List Nat) (h : Nat),
    L2.foldl (fun h2 x => h2 ^^^ g x) (L1.foldl (fun h2 x => h2 ^^^ g x) h) =
      L1.foldl (fun h2 x => h2 ^^^ g x) (L2.foldl (fun h2 x => h2 ^^^ g x) h) := by
  intro L1
  induction L1 with
  | nil => intro L2 h; rfl
  | cons x xs ih =>
    intro L2 h
    rw [List.foldl_cons, List.foldl_cons, ih L2 (h ^^^ g x), foldl_xor_seed]



/-- The ko build-up position: B A1, W B1, B B2, W C2, B F6, W D1; black to
play C1, which captures the white stone at B1. -/
def koPrefix : GoState := runMoves [0, 1, 10, 11, 50, 3]


/-- `play_move` on a non-pass in-range move that passes the super-ko check,
lands on an empty-set cell, and satisfies the commit assert: returns
`True`. -/
theorem play_move_commits (z : Zob) (s : GoState) (f : Nat)
    (hgo : s.gameOver = false) (hf : f < 81)
    (hsk : (isSuperKo z s f s.nextPlayer).1 = false)
    (hemp : f ∈ (isSuperKo z s f s.nextPlayer).2.2.empties)
    (hassert : (isSuperKo z s f s.nextPlayer).2.1 =
      ((putStone z (isSuperKo z s f s.nextPlayer).2.2 f s.nextPlayer).1.foldl
        (captureString z)
        (putStone z (isSuperKo z s f s.nextPlayer).2.2 f s.nextPlayer).2).currentHash) :
    ∃ t : GoState, play_move z s (f : Int) = .ok (some true, t) := by
  have hne : ((f : Int)) ≠ -1 := by omega
  have hr : ¬(((f : Int)) < -81 ∨ 81 ≤ ((f : Int))) := by omega
  simp only [play_move, hgo, hne, hr, if_false, ite_false, Bool.false_eq_true,
    coerced_move_toNat, hsk, hemp, if_true, ite_true]
  rw [if_pos hassert]
  exact ⟨_, rfl⟩


/-- C1 counterexample to the unconditional acceptance half: after B A1, the
non-pass move A1 again has a simulated post-capture hash that is not in
the seen-hash set, the game is not over, yet `play_move`/`push` raise
`KeyError` (from `_empties.remove` on the occupied cell) instead of
returning `True`. -/
theorem superko_unseen_not_true_cex :
    (runMoves [0]).gameOver = false ∧
    (isSuperKo zT (runMoves [0]) 0 (runMoves [0]).nextPlayer).2.1 ∉
      (runMoves [0]).seenHashes ∧
    play_move zT (runMoves [0]) 0 = .error .keyError ∧
    push zT (runMoves [0]) 0 = .error .keyError := by
  decide


/-! ## C7: capture effects on the registry -/

/-- The liberty-restoration step of `_capture_string`'s per-stone removal
(named form of the inline walk of `captureOne`). -/
def capStep (board2 : List Nat) (s0 : Nat) (acc : List Int × List Int)
    (fn : Nat) : List Int × List Int :=
  if board2.getD fn 0 ≠ 0 then
    if (getStringOfStone acc.1 fn).1 ≠ s0 then
      ((getStringOfStone acc.1 fn).2,
       acc.2.set (getStringOfStone acc.1 fn).1
         (acc.2.getD (getStringOfStone acc.1 fn).1 (-1) + 1))
    else ((getStringOfStone acc.1 fn).2, acc.2)
  else acc



/-- The position of the L-shaped counterexample just after black places the
capturing stone C1: the white stone B1 (cell 1) is queued for capture, and
the black string {A1, A2, B2} touches the freed cell both from A1 and from
B2. -/
def lshapePre : GoState := (putStone zT (runMoves [0, 1, 9, 20, 10, 21]) 2 1).2

/-- C7 counterexample: capturing the single white stone at B1 frees a cell
that the remaining black string {A1, A2, B2} (root 0) touches twice, so
that string's liberty count increases by exactly two, not one. -/
theorem capture_double_liberty_cex :
    (putStone zT (runMoves [0, 1, 9, 20, 10, 21]) 2 1).1 = [1] ∧
    breadthSearchString lshapePre.board 1 = [1] ∧
    lshapePre.board.getD 1 0 = 2 ∧
    (0 ∈ neighborsOf 1 ∧ 10 ∈ neighborsOf 1) ∧
    flatRoot lshapePre.stringUnionFind 0 = 0 ∧
    flatRoot lshapePre.stringUnionFind 10 = 0 ∧
    lshapePre.board.getD 0 0 = 1 ∧ lshapePre.board.getD 10 0 = 1 ∧
    (captureString zT lshapePre 1).stringLiberties.getD 0 (-1) =
      lshapePre.stringLiberties.getD 0 (-1) + 2 := by
  decide


/-- The position just after black places the ko-capturing stone C1 on the
ko build-up: the white stone B1 is queued for capture. -/
def koCapture : GoState := (putStone zT koPrefix 2 1).2


/-! ## C8: the maintained liberty counts -/

/-- The pseudo-liberty count of a stone list: one per (stone, adjacent
empty cell) pair.  This is the quantity the registry's `liberties` entries
maintain. -/
def pairLibs (board : List Nat) (S : List Nat) : Nat :=
  (S.map (fun x => ((neighborsOf x).filter
    (fun n => board.getD n 0 == 0)).length)).sum

/-- The number of distinct empty cells adjacent to a stone list (the true
liberty count of a string). -/
def distinctLibs (board : List Nat) (S : List Nat) : Nat :=
  (dedupFirst (S.flatMap (fun x => (neighborsOf x).filter
    (fun n => board.getD n 0 == 0)))).length

theorem length_flatMap_eq_sum : ∀ (l : List Nat) (g : Nat → List Nat),
    (l.flatMap g).length = (l.map (fun x => (g x).length)).sum := by
  intro l g
  induction l with
  | nil => rfl
  | cons x xs ih => simp [List.flatMap_cons, ih]

theorem dedupFirst_length_le : ∀ l : List Nat,
    (dedupFirst l).length ≤ l.length := by
  intro l
  induction l with
  | nil => exact Nat.le_refl 0
  | cons x xs ih =>
    show ((dedupFirst xs).filter (fun y => y ≠ x)).length + 1 ≤ xs.length + 1
    exact Nat.add_le_add_right
      (Nat.le_trans (List.length_filter_le _ _) ih) 1

/-- C8 counterexample: the suicidal black move A1 after B G7, W B1, B C7,
W A2 is committed by `play_move` (returning `True`), and leaves the black
stone at A1 on the board as a string whose maintained liberty count is
zero — a zero-liberty string is not always captured within the placing
operation. -/
theorem zero_liberty_string_persists_cex :
    play_move zT (runMoves [60, 1, 62, 9]) 0 =
      .ok (some true, runMoves gameSuicide) ∧
    (runMoves gameSuicide).board.getD 0 0 = 1 ∧
    flatRoot (runMoves gameSuicide).stringUnionFind 0 = 0 ∧
    (runMoves gameSuicide).stringLiberties.getD 0 (-1) = 0 := by
  decide

/-- C8 (amended): on a string whose maintained liberty entry equals its
pseudo-liberty count (one per stone/empty-neighbor pair, the quantity the
engine's bookkeeping maintains), the maintained value is nonnegative, an
upper bound on the string's number of distinct empty neighboring cells,
and zero exactly when the true distinct liberty count is zero — so
zero-comparison for capture and suicide triggering is sound; however a
committed suicide can leave a friendly string with liberty count zero on
the board, so the no-zero-liberty-string clause holds only for enemy
strings resolved during placement. -/
theorem pseudo_liberty_bound (s : GoState) (r : Nat)
    (hexact : s.stringLiberties.getD r (-1) =
      (pairLibs s.board (breadthSearchString s.board r) : Int)) :
    0 ≤ s.stringLiberties.getD r (-1) ∧
    (distinctLibs s.board (breadthSearchString s.board r) : Int) ≤
      s.stringLiberties.getD r (-1) ∧
    (s.stringLiberties.getD r (-1) = 0 ↔
      distinctLibs s.board (breadthSearchString s.board r) = 0) := by
  have hflat : pairLibs s.board (breadthSearchString s.board r) =
      ((breadthSearchString s.board r).flatMap (fun x => (neighborsOf x).filter
        (fun n => s.board.getD n 0 == 0))).length :=
    (length_flatMap_eq_sum _ _).symm
  have hle : distinctLibs s.board (breadthSearchString s.board r) ≤
      pairLibs s.board (breadthSearchString s.board r) := by
    rw [hflat]
    exact dedupFirst_length_le _
  have hiff : pairLibs s.board (breadthSearchString s.board r) = 0 ↔
      distinctLibs s.board (breadthSearchString s.board r) = 0 := by
    rw [hflat]
    unfold distinctLibs
    rw [List.length_eq_zero, List.length_eq_zero, dedupFirst_eq_nil]
  refine ⟨?_, ?_, ?_⟩
  · rw [hexact]
    omega
  · rw [hexact]
    exact_mod_cast hle
  · rw [hexact]
    constructor
    · intro h0
      exact hiff.1 (by exact_mod_cast h0)
    · intro h0
      exact_mod_cast congrArg (Nat.cast : Nat → Int) (hiff.2 h0)

theorem pseudo_liberty_bound_witness :
    0 ≤ (runMoves [0, 1]).stringLiberties.getD 0 (-1) ∧
    (distinctLibs (runMoves [0, 1]).board
        (breadthSearchString (runMoves [0, 1]).board 0) : Int) ≤
      (runMoves [0, 1]).stringLiberties.getD 0 (-1) ∧
    ((runMoves [0, 1]).stringLiberties.getD 0 (-1) = 0 ↔
      distinctLibs (runMoves [0, 1]).board
        (breadthSearchString (runMoves [0, 1]).board 0) = 0) :=
  pseudo_liberty_bound (runMoves [0, 1]) 0 (by decide)

/-! ## The super-ko survey on a well-linked terminating registry -/

/-- The per-neighbor step of the `_is_super_ko` survey. -/
def skStep (s : GoState) (color : Nat) (acc : List (Nat × Int) × List Int)
    (fn : Nat) : List (Nat × Int) × List Int :=
  if s.board.getD fn 0 = flip color then
    (bumpLib s.stringLiberties acc.1 (getStringOfStone acc.2 fn).1,
      (getStringOfStone acc.2 fn).2)
  else acc

theorem rootSeqOf_cons_pos (board : List Nat) (uf : List Int) (p : Nat → Bool)
    (n : Nat) (rest : List Nat) (h : p n = true) :
    rootSeqOf board uf p (n :: rest) =
      ufRoot uf n :: rootSeqOf board uf p rest := by
  unfold rootSeqOf
  simp only [List.filter_cons, h, if_true, ite_true, List.map_cons]

theorem rootSeqOf_cons_neg (board : List Nat) (uf : List Int) (p : Nat → Bool)
    (n : Nat) (rest : List Nat) (h : p n = false) :
    rootSeqOf board uf p (n :: rest) = rootSeqOf board uf p rest := by
  unfold rootSeqOf
  simp only [List.filter_cons, h, Bool.false_eq_true, if_false, ite_false]

/-- The survey fold of `_is_super_ko`: it books one `bumpLib` per
enemy-colored neighbor, keyed by that neighbor's chain root in the original
registry, and mutates the registry only by path compression of enemy-cell
chains — preserving length, links, termination and every root. -/
theorem superko_walk (s : GoState) (color : Nat) :
    ∀ (ns : List Nat), (∀ n ∈ ns, n < 81) →
    ∀ (a : List (Nat × Int)) (u : List Int),
    u.length = 81 → LinksOk s.board u →
    (∀ c : Nat, c < 81 → Term u c) →
    (∀ c : Nat, c < 81 → ufRoot u c = ufRoot s.stringUnionFind c) →
    (∀ c : Nat, s.board.getD c 0 ≠ flip color →
      u.getD c (-1) = s.stringUnionFind.getD c (-1)) →
    (ns.foldl (skStep s color) (a, u)).1 =
      (rootSeqOf s.board s.stringUnionFind
        (fun n => s.board.getD n 0 == flip color) ns).foldl
        (bumpLib s.stringLiberties) a ∧
    (ns.foldl (skStep s color) (a, u)).2.length = 81 ∧
    LinksOk s.board (ns.foldl (skStep s color) (a, u)).2 ∧
    (∀ c : Nat, c < 81 → Term (ns.foldl (skStep s color) (a, u)).2 c) ∧
    (∀ c : Nat, c < 81 →
      ufRoot (ns.foldl (skStep s color) (a, u)).2 c =
        ufRoot s.stringUnionFind c) ∧
    (∀ c : Nat, s.board.getD c 0 ≠ flip color →
      (ns.foldl (skStep s color) (a, u)).2.getD c (-1) =
        s.stringUnionFind.getD c (-1)) := by
  intro ns
  induction ns with
  | nil =>
    intro _ a u hulen huLk huT huR huO
    exact ⟨rfl, hulen, huLk, huT, huR, huO⟩
  | cons n rest ih =>
    intro hns a u hulen huLk huT huR huO
    have hn81 : n < 81 := hns n (List.mem_cons_self n rest)
    have hrest : ∀ m ∈ rest, m < 81 := fun m hm => hns m (List.mem_cons_of_mem n hm)
    rw [List.foldl_cons]
    by_cases hb : s.board.getD n 0 = flip color
    · have hstep : skStep s color (a, u) n =
          (bumpLib s.stringLiberties a (getStringOfStone u n).1,
            (getStringOfStone u n).2) := by
        unfold skStep
        rw [if_pos hb]
      obtain ⟨hfst, hlen2, -, -, hpres2, -, -⟩ :=
        getStringOfStone_ok hulen huLk.bounded hn81 (huT n hn81)
      obtain ⟨hoffc, -, hLk2⟩ :=
        getStringOfStone_class hulen huLk hn81 (huT n hn81)
      have hroot : (getStringOfStone u n).1 = ufRoot s.stringUnionFind n := by
        rw [hfst]
        exact huR n hn81
      have hpbn : (s.board.getD n 0 == flip color) = true := by
        simp only [beq_iff_eq]
        exact hb
      rw [hstep, hroot, rootSeqOf_cons_pos s.board s.stringUnionFind
        (fun m => s.board.getD m 0 == flip color) n rest hpbn, List.foldl_cons]
      exact ih hrest (bumpLib s.stringLiberties a (ufRoot s.stringUnionFind n))
        (getStringOfStone u n).2 hlen2 hLk2
        (fun c hc => (hpres2 c (huT c hc)).1)
        (fun c hc => ((hpres2 c (huT c hc)).2).trans (huR c hc))
        (fun c hc => (hoffc c (by rw [hb]; exact hc)).trans (huO c hc))
    · have hstep : skStep s color (a, u) n = (a, u) := by
        unfold skStep
        rw [if_neg hb]
      have hpbn : (s.board.getD n 0 == flip color) = false := by
        simp only [beq_eq_false_iff_ne, ne_eq]
        exact hb
      rw [hstep, rootSeqOf_cons_neg s.board s.stringUnionFind
        (fun m => s.board.getD m 0 == flip color) n rest hpbn]
      exact ih hrest a u hulen huLk huT huR huO

/-- Characterization of `_is_super_ko` on a well-linked terminating
registry: the reported hash XORs the placed stone's constant and the
constants of every stone of every predicted-captured enemy string into the
current hash; the survey's only mutation is path compression of enemy-cell
union-find chains, which preserves length, links, termination and every
root, and touches no entry outside the enemy color. -/
theorem isSuperKo_ok (z : Zob) (s : GoState) (f color : Nat)
    (hlen81 : s.stringUnionFind.length = 81)
    (hLk : LinksOk s.board s.stringUnionFind)
    (hterm : ∀ c : Nat, c < 81 → Term s.stringUnionFind c)
    (hf : f < 81) :
    (isSuperKo z s f color).2.1 =
      (capturedPred s f color).foldl
        (fun h r => (breadthSearchString s.board r).foldl
          (fun h2 x => h2 ^^^ z.posHash x (flip color)) h)
        (s.currentHash ^^^ z.posHash f color) ∧
    (isSuperKo z s f color).2.2.stringUnionFind.length = 81 ∧
    LinksOk s.board (isSuperKo z s f color).2.2.stringUnionFind ∧
    (∀ c : Nat, c < 81 → Term (isSuperKo z s f color).2.2.stringUnionFind c) ∧
    (∀ c : Nat, c < 81 →
      ufRoot (isSuperKo z s f color).2.2.stringUnionFind c =
        ufRoot s.stringUnionFind c) ∧
    (∀ c : Nat, s.board.getD c 0 ≠ flip color →
      (isSuperKo z s f color).2.2.stringUnionFind.getD c (-1) =
        s.stringUnionFind.getD c (-1)) := by
  have hns : ∀ n ∈ neighborsOf f, n < 81 := fun n hn => (neighborsOf_mem_lt hf hn).1
  obtain ⟨h1, h2, h3, h4, h5, h6⟩ := superko_walk s color (neighborsOf f) hns
    [] s.stringUnionFind hlen81 hLk hterm (fun c _ => rfl) (fun c _ => rfl)
  have hproj1 : (isSuperKo z s f color).2.1 =
      ((neighborsOf f).foldl (skStep s color) ([], s.stringUnionFind)).1.foldl
        (fun h p => if p.2 = 0 then
            (breadthSearchString s.board p.1).foldl
              (fun h2 fn => h2 ^^^ z.posHash fn (flip color)) h
          else h) (s.currentHash ^^^ z.posHash f color) := rfl
  have hproj2 : (isSuperKo z s f color).2.2.stringUnionFind =
      ((neighborsOf f).foldl (skStep s color) ([], s.stringUnionFind)).2 := rfl
  have hseq : rootSeqOf s.board s.stringUnionFind
      (fun n => s.board.getD n 0 == flip color) (neighborsOf f) =
      oppColorRootSeq s f color := rfl
  have hfold1 : ((neighborsOf f).foldl (skStep s color) ([], s.stringUnionFind)).1 =
      (dedupFirst (oppColorRootSeq s f color)).map
        (fun r => (r, s.stringLiberties.getD r (-1) -
          ((oppColorRootSeq s f color).count r : Int))) := by
    rw [h1, hseq]
    exact bumpLib_fold_nil s.stringLiberties (oppColorRootSeq s f color)
  refine ⟨?_, ?_, ?_, ?_, ?_, ?_⟩
  · rw [hproj1, hfold1]
    have hzero := foldl_pair_zero_filter
      (fun r => s.stringLiberties.getD r (-1) -
        ((oppColorRootSeq s f color).count r : Int))
      (fun r h => (breadthSearchString s.board r).foldl
        (fun h2 x => h2 ^^^ z.posHash x (flip color)) h)
      (dedupFirst (oppColorRootSeq s f color))
      (s.currentHash ^^^ z.posHash f color)
    have hfiltereq : (dedupFirst (oppColorRootSeq s f color)).filter
        (fun r => (s.stringLiberties.getD r (-1) -
          ((oppColorRootSeq s f color).count r : Int)) == 0) =
        capturedPred s f color := by
      unfold capturedPred
      refine List.filter_congr ?_
      intro r hr
      rw [Bool.eq_iff_iff]
      simp only [beq_iff_eq, sub_eq_zero]
    rw [hzero, hfiltereq]
  · rw [hproj2]
    exact h2
  · rw [hproj2]
    exact h3
  · rw [hproj2]
    exact h4
  · rw [hproj2]
    exact h5
  · rw [hproj2]
    exact h6

/-! ## The suicide survey on a well-linked terminating registry -/

/-- The survey of `_is_suicide`: on a well-linked terminating registry it
returns `none` exactly when some surveyed neighbor is empty, and otherwise
books one `bumpLib` per occupied neighbor into the friend or opponent
dictionary, keyed by the neighbor's chain root in the original registry
(the survey's own path compressions never change a root). -/
theorem suicideScan_spec (s : GoState) (color : Nat) :
    ∀ (ns : List Nat), (∀ n ∈ ns, n < 81) →
    ∀ (fr op : List (Nat × Int)) (u : List Int),
    u.length = 81 → LinksOk s.board u →
    (∀ c : Nat, c < 81 → Term u c) →
    (∀ c : Nat, c < 81 → ufRoot u c = ufRoot s.stringUnionFind c) →
    (suicideScan s.board s.stringLiberties color ns u fr op).1 =
      (if ∀ n ∈ ns, s.board.getD n 0 ≠ 0 then
        some ((rootSeqOf s.board s.stringUnionFind
                (fun n => s.board.getD n 0 == color) ns).foldl
                  (bumpLib s.stringLiberties) fr,
              (rootSeqOf s.board s.stringUnionFind
                (fun n => decide (s.board.getD n 0 ≠ 0 ∧ s.board.getD n 0 ≠ color))
                ns).foldl (bumpLib s.stringLiberties) op)
      else none) := by
  intro ns
  induction ns with
  | nil =>
    intro _ fr op u _ _ _ _
    simp [suicideScan, rootSeqOf]
  | cons n rest ih =>
    intro hns fr op u hulen huLk huT huR
    have hn81 : n < 81 := hns n (List.mem_cons_self n rest)
    have hrest : ∀ m ∈ rest, m < 81 := fun m hm => hns m (List.mem_cons_of_mem n hm)
    by_cases hb : s.board.getD n 0 = 0
    · rw [suicideScan, if_pos hb]
      rw [if_neg (by push_neg; exact ⟨n, List.mem_cons_self n rest, hb⟩)]
    · obtain ⟨hfst, hlen2, -, -, hpres2, -, -⟩ :=
        getStringOfStone_ok hulen huLk.bounded hn81 (huT n hn81)
      obtain ⟨-, -, hLk2⟩ := getStringOfStone_class hulen huLk hn81 (huT n hn81)
      have hroot : (getStringOfStone u n).1 = ufRoot s.stringUnionFind n := by
        rw [hfst]
        exact huR n hn81
      have hT2 : ∀ c : Nat, c < 81 → Term (getStringOfStone u n).2 c :=
        fun c hc => (hpres2 c (huT c hc)).1
      have hR2 : ∀ c : Nat, c < 81 →
          ufRoot (getStringOfStone u n).2 c = ufRoot s.stringUnionFind c :=
        fun c hc => ((hpres2 c (huT c hc)).2).trans (huR c hc)
      have hcond : (∀ m ∈ n :: rest, s.board.getD m 0 ≠ 0) ↔
          (∀ m ∈ rest, s.board.getD m 0 ≠ 0) := by
        constructor
        · intro hall m hm
          exact hall m (List.mem_cons_of_mem n hm)
        · intro hall m hm
          rcases List.mem_cons.1 hm with h1 | h2
          · rw [h1]
            exact hb
          · exact hall m h2
      by_cases hc2 : s.board.getD n 0 = color
      · rw [suicideScan, if_neg hb, if_pos hc2]
        rw [ih hrest (bumpLib s.stringLiberties fr (getStringOfStone u n).1) op
          (getStringOfStone u n).2 hlen2 hLk2 hT2 hR2]
        have hp1 : (s.board.getD n 0 == color) = true := by
          simp only [beq_iff_eq]
          exact hc2
        have hp2 : (decide (s.board.getD n 0 ≠ 0 ∧ s.board.getD n 0 ≠ color)) =
            false := by
          simp only [decide_eq_false_iff_not]
          exact fun hcc => hcc.2 hc2
        rw [rootSeqOf_cons_pos s.board s.stringUnionFind
            (fun m => s.board.getD m 0 == color) n rest hp1,
          rootSeqOf_cons_neg s.board s.stringUnionFind
            (fun m => decide (s.board.getD m 0 ≠ 0 ∧ s.board.getD m 0 ≠ color))
            n rest hp2,
          List.foldl_cons, hroot]
        by_cases hrest0 : ∀ m ∈ rest, s.board.getD m 0 ≠ 0
        · rw [if_pos hrest0, if_pos (hcond.2 hrest0)]
        · rw [if_neg hrest0, if_neg (fun hcc => hrest0 (hcond.1 hcc))]
      · rw [suicideScan, if_neg hb, if_neg hc2]
        rw [ih hrest fr (bumpLib s.stringLiberties op (getStringOfStone u n).1)
          (getStringOfStone u n).2 hlen2 hLk2 hT2 hR2]
        have hp1 : (s.board.getD n 0 == color) = false := by
          simp only [beq_eq_false_iff_ne, ne_eq]
          exact hc2
        have hp2 : (decide (s.board.getD n 0 ≠ 0 ∧ s.board.getD n 0 ≠ color)) =
            true := by
          simp only [decide_eq_true_eq]
          exact ⟨hb, hc2⟩
        rw [rootSeqOf_cons_neg s.board s.stringUnionFind
            (fun m => s.board.getD m 0 == color) n rest hp1,
          rootSeqOf_cons_pos s.board s.stringUnionFind
            (fun m => decide (s.board.getD m 0 ≠ 0 ∧ s.board.getD m 0 ≠ color))
            n rest hp2,
          List.foldl_cons, hroot]
        by_cases hrest0 : ∀ m ∈ rest, s.board.getD m 0 ≠ 0
        · rw [if_pos hrest0, if_pos (hcond.2 hrest0)]
        · rw [if_neg hrest0, if_neg (fun hcc => hrest0 (hcond.1 hcc))]

/-- The two per-root dictionaries built by the suicide survey over the
neighbors of `f`. -/
theorem suicideScan_neighbors (s : GoState) (f color : Nat)
    (hf : f < 81)
    (hlen81 : s.stringUnionFind.length = 81)
    (hLk : LinksOk s.board s.stringUnionFind)
    (hterm : ∀ c : Nat, c < 81 → Term s.stringUnionFind c) :
    (suicideScan s.board s.stringLiberties color (neighborsOf f)
        s.stringUnionFind [] []).1 =
      (if ∀ n ∈ neighborsOf f, s.board.getD n 0 ≠ 0 then
          some ((dedupFirst (friendRootSeq s f color)).map
                  (fun r => (r, s.stringLiberties.getD r (-1) -
                    ((friendRootSeq s f color).count r : Int))),
                (dedupFirst (oppRootSeq s f color)).map
                  (fun r => (r, s.stringLiberties.getD r (-1) -
                    ((oppRootSeq s f color).count r : Int))))
        else none) := by
  rw [suicideScan_spec s color (neighborsOf f)
      (fun n hn => (neighborsOf_mem_lt hf hn).1) [] [] s.stringUnionFind
      hlen81 hLk hterm (fun c _ => rfl),
    bumpLib_fold_nil, bumpLib_fold_nil]
  rfl

/-- Characterization of `_is_suicide` on a well-linked terminating
registry: suicide exactly when no surveyed neighbor is empty, no adjacent
enemy string is reduced to zero liberties (liberties counted once per
distinct chain root, minus one per adjacent cell), and either there is no
friendly neighbor or the summed per-root friendly liberties after
connection are zero. -/
theorem isSuicide_char (s : GoState) (f color : Nat)
    (hf : f < 81)
    (hlen81 : s.stringUnionFind.length = 81)
    (hLk : LinksOk s.board s.stringUnionFind)
    (hterm : ∀ c : Nat, c < 81 → Term s.stringUnionFind c) :
    (isSuicide s f color).1 = true ↔
      ((∀ n ∈ neighborsOf f, s.board.getD n 0 ≠ 0) ∧
       (∀ r ∈ oppRootSeq s f color,
          s.stringLiberties.getD r (-1) ≠ ((oppRootSeq s f color).count r : Int)) ∧
       (friendRootSeq s f color = [] ∨
        ((dedupFirst (friendRootSeq s f color)).map
          (fun r => s.stringLiberties.getD r (-1) -
            ((friendRootSeq s f color).count r : Int))).sum = 0)) := by
  show suicideVerdict (suicideScan s.board s.stringLiberties color (neighborsOf f)
      s.stringUnionFind [] []).1 = true ↔ _
  rw [suicideScan_neighbors s f color hf hlen81 hLk hterm]
  set fs := friendRootSeq s f color with hfs
  set os := oppRootSeq s f color with hos
  by_cases hall : ∀ n ∈ neighborsOf f, s.board.getD n 0 ≠ 0
  · rw [if_pos hall]
    simp only [suicideVerdict]
    set O := (dedupFirst os).map
      (fun r => (r, s.stringLiberties.getD r (-1) - (os.count r : Int))) with hOdef
    set F := (dedupFirst fs).map
      (fun r => (r, s.stringLiberties.getD r (-1) - (fs.count r : Int))) with hFdef
    have hO : (O.any (fun p => p.2 == 0)) = true ↔
        ¬(∀ r ∈ os, s.stringLiberties.getD r (-1) ≠ (os.count r : Int)) := by
      rw [hOdef, List.any_eq_true]
      constructor
      · rintro ⟨p, hp, hz⟩
        obtain ⟨r, hr, hrp⟩ := List.mem_map.1 hp
        rw [← hrp] at hz
        rw [beq_iff_eq] at hz
        have hz2 : s.stringLiberties.getD r (-1) - (os.count r : Int) = 0 := hz
        push_neg
        exact ⟨r, (mem_dedupFirst r os).1 hr, by linarith⟩
      · intro hne
        push_neg at hne
        obtain ⟨r, hr, he⟩ := hne
        refine ⟨(r, s.stringLiberties.getD r (-1) - (os.count r : Int)),
          List.mem_map_of_mem _ ((mem_dedupFirst r os).2 hr), ?_⟩
        rw [beq_iff_eq]
        show s.stringLiberties.getD r (-1) - (os.count r : Int) = 0
        linarith
    have hFe : F.isEmpty = true ↔ fs = [] := by
      rw [hFdef, List.isEmpty_iff, List.map_eq_nil, dedupFirst_eq_nil]
    have hsum : F.foldl (fun a p => a + p.2) 0 =
        ((dedupFirst fs).map
          (fun r => s.stringLiberties.getD r (-1) - (fs.count r : Int))).sum := by
      rw [hFdef, foldl_add_snd, List.map_map]
      rw [zero_add]
      refine congrArg _ ?_
      exact List.map_congr_left (fun r hr => rfl)
    by_cases hz : (O.any (fun p => p.2 == 0)) = true
    · rw [if_pos hz]
      simp only [Bool.false_eq_true, false_iff]
      intro hcon
      exact (hO.1 hz) hcon.2.1
    · rw [if_neg hz]
      have hnoz : ∀ r ∈ os, s.stringLiberties.getD r (-1) ≠ (os.count r : Int) := by
        by_contra hcon
        exact hz (hO.2 hcon)
      by_cases hemp : F.isEmpty = true
      · rw [if_pos hemp]
        simp only [true_iff]
        exact ⟨hall, hnoz, Or.inl (hFe.1 hemp)⟩
      · rw [if_neg hemp]
        have hnemp : fs ≠ [] := fun hc => hemp (hFe.2 hc)
        by_cases hs0 : F.foldl (fun a p => a + p.2) 0 = 0
        · rw [if_pos hs0]
          simp only [true_iff]
          refine ⟨hall, hnoz, Or.inr ?_⟩
          rw [← hsum]
          exact hs0
        · rw [if_neg hs0]
          simp only [Bool.false_eq_true, false_iff]
          rintro ⟨-, -, hdisj⟩
          rcases hdisj with hc | hc
          · exact hnemp hc
          · exact hs0 (by rw [hsum]; exact hc)
  · rw [if_neg hall]
    simp only [suicideVerdict, Bool.false_eq_true, false_iff]
    exact fun hcon => hall hcon.1

/-! ## C6: the suicide rule -/

/-- C6: on an on-board cell of a position whose string registry is well
linked and terminating (as every position reachable by play is), the
suicide check is exactly characterized: it returns not-suicide as soon as
some neighbor is empty or some adjacent enemy string (liberties accounted
once per distinct chain root, one decrement per adjacent cell) would reach
zero liberties, and classifies as suicide precisely the remaining cases
with no friendly neighbor or zero summed per-root friendly liberties.  In
particular a lone stone whose neighbors are all enemy stones, none of whose
strings would be captured, is a suicide, and every suicide is excluded from
both `weak_legal_moves` and `legal_moves`. -/
theorem suicide_classification (z : Zob) (s : GoState) (f : Nat) (color : Nat)
    (hf : f < 81)
    (hlen81 : s.stringUnionFind.length = 81)
    (hLk : LinksOk s.board s.stringUnionFind)
    (hterm : ∀ c : Nat, c < 81 → Term s.stringUnionFind c) :
    ((isSuicide s f color).1 = true ↔
      ((∀ n ∈ neighborsOf f, s.board.getD n 0 ≠ 0) ∧
       (∀ r ∈ oppRootSeq s f color,
          s.stringLiberties.getD r (-1) ≠ ((oppRootSeq s f color).count r : Int)) ∧
       (friendRootSeq s f color = [] ∨
        ((dedupFirst (friendRootSeq s f color)).map
          (fun r => s.stringLiberties.getD r (-1) -
            ((friendRootSeq s f color).count r : Int))).sum = 0))) ∧
    ((∀ n ∈ neighborsOf f, s.board.getD n 0 ≠ 0 ∧ s.board.getD n 0 ≠ color) →
      (∀ r ∈ oppRootSeq s f color,
        s.stringLiberties.getD r (-1) ≠ ((oppRootSeq s f color).count r : Int)) →
      (isSuicide s f color).1 = true) ∧
    ((isSuicide s f s.nextPlayer).1 = true →
      ((f : Int) ∉ weak_legal_moves s ∧ (f : Int) ∉ legal_moves z s)) := by
  refine ⟨isSuicide_char s f color hf hlen81 hLk hterm, ?_, ?_⟩
  · intro h1 h2
    rw [isSuicide_char s f color hf hlen81 hLk hterm]
    refine ⟨fun n hn => (h1 n hn).1, h2, Or.inl ?_⟩
    unfold friendRootSeq rootSeqOf
    rw [List.map_eq_nil, List.filter_eq_nil]
    intro n hn
    simp only [beq_iff_eq]
    exact (h1 n hn).2
  · intro hsui
    constructor
    · intro hmem
      have h := (mem_weak_legal_moves s f).1 hmem
      rw [hsui] at h
      exact Bool.noConfusion h.2
    · intro hmem
      have h := (mem_legal_moves z s f).1 hmem
      rw [hsui] at h
      exact Bool.noConfusion h.2.1

theorem suicide_classification_witness :
    ((isSuicide (runMoves [60, 1, 62, 9]) 0 1).1 = true ↔
      ((∀ n ∈ neighborsOf 0, (runMoves [60, 1, 62, 9]).board.getD n 0 ≠ 0) ∧
       (∀ r ∈ oppRootSeq (runMoves [60, 1, 62, 9]) 0 1,
          (runMoves [60, 1, 62, 9]).stringLiberties.getD r (-1) ≠
            ((oppRootSeq (runMoves [60, 1, 62, 9]) 0 1).count r : Int)) ∧
       (friendRootSeq (runMoves [60, 1, 62, 9]) 0 1 = [] ∨
        ((dedupFirst (friendRootSeq (runMoves [60, 1, 62, 9]) 0 1)).map
          (fun r => (runMoves [60, 1, 62, 9]).stringLiberties.getD r (-1) -
            ((friendRootSeq (runMoves [60, 1, 62, 9]) 0 1).count r : Int))).sum = 0))) ∧
    ((∀ n ∈ neighborsOf 0, (runMoves [60, 1, 62, 9]).board.getD n 0 ≠ 0 ∧
        (runMoves [60, 1, 62, 9]).board.getD n 0 ≠ 1) →
      (∀ r ∈ oppRootSeq (runMoves [60, 1, 62, 9]) 0 1,
        (runMoves [60, 1, 62, 9]).stringLiberties.getD r (-1) ≠
          ((oppRootSeq (runMoves [60, 1, 62, 9]) 0 1).count r : Int)) →
      (isSuicide (runMoves [60, 1, 62, 9]) 0 1).1 = true) ∧
    ((isSuicide (runMoves [60, 1, 62, 9]) 0
        (runMoves [60, 1, 62, 9]).nextPlayer).1 = true →
      (((0 : Nat) : Int) ∉ weak_legal_moves (runMoves [60, 1, 62, 9]) ∧
       ((0 : Nat) : Int) ∉ legal_moves zT (runMoves [60, 1, 62, 9]))) :=
  suicide_classification zT (runMoves [60, 1, 62, 9]) 0 1 (by omega) (by decide)
    (by decide) (by decide)

/-! ## The placement walk of `_put_stone` -/

/-- Invariant of the neighbor loop of `_put_stone` after processing the
prefix `pre` of the neighbor survey: the working registry stays well linked
on the board-with-stone and terminating, enemy roots agree with the
original registry's roots, the current string is the placed cell or a
friendly cell and is a root, enemy roots carry their initial liberties
minus their adjacency count so far, and the capture queue holds exactly the
distinct enemy roots whose liberties ran out. -/
structure WalkInv (s : GoState) (f color : Nat) (pre : List Nat) (a : PSLoop) :
    Prop where
  ufLen : a.uf.length = 81
  libsLen : a.libs.length = 81
  ufLk : LinksOk (s.board.set f color) a.uf
  ufTerm : ∀ c : Nat, c < 81 → Term a.uf c
  ufOppRoot : ∀ c : Nat, c < 81 → s.board.getD c 0 = flip color →
    ufRoot a.uf c = ufRoot s.stringUnionFind c
  cur : a.currentString = f ∨
    (a.currentString < 81 ∧ s.board.getD a.currentString 0 = color)
  curRoot : a.uf.getD a.currentString (-1) < 0
  libsOpp : ∀ r : Nat, s.board.getD r 0 = flip color →
    a.libs.getD r (-1) =
      s.stringLiberties.getD r (-1) - ((oppPreOf s f color pre).count r : Int)
  capNodup : a.captured.Nodup
  capMem : ∀ r : Nat, r ∈ a.captured ↔
    r ∈ oppPreOf s f color pre ∧
      ((oppPreOf s f color pre).count r : Int) = s.stringLiberties.getD r (-1)

/-- One step of the `_put_stone` neighbor loop preserves the walk
invariant. -/
theorem walk_step (s : GoState) (f color fn : Nat) (pre : List Nat) (a : PSLoop)
    (hcol : color = 1 ∨ color = 2)
    (hblen : s.board.length = 81)
    (hvals : ∀ c : Nat, c < 81 → s.board.getD c 0 ≤ 2)
    (hf : f < 81) (hf0 : s.board.getD f 0 = 0)
    (hLks : LinksOk s.board s.stringUnionFind)
    (hlib : ∀ r ∈ oppColorRootSeq s f color,
      ((oppColorRootSeq s f color).count r : Int) ≤ s.stringLiberties.getD r (-1))
    (hsub : (pre ++ [fn]).Sublist (neighborsOf f))
    (inv : WalkInv s f color pre a) :
    WalkInv s f color (pre ++ [fn])
      (putStoneStep (s.board.set f color) color a fn) := by
  have hfn_mem : fn ∈ neighborsOf f := hsub.subset (by simp)
  obtain ⟨hfn81, hfnne⟩ := neighborsOf_mem_lt hf hfn_mem
  have hbfn : (s.board.set f color).getD fn 0 = s.board.getD fn 0 :=
    getD_set_of_ne 0 color s.board f fn (fun h => hfnne h.symm)
  have hb1f : (s.board.set f color).getD f 0 = color :=
    getD_set_self 0 color s.board f (by rw [hblen]; exact hf)
  have hflipne : flip color ≠ color := by
    rcases hcol with h | h <;> subst h <;> decide
  have hflip0 : flip color ≠ 0 := by
    rcases hcol with h | h <;> subst h <;> decide
  have hcol0 : color ≠ 0 := by
    rcases hcol with h | h <;> subst h <;> decide
  have hcs81 : a.currentString < 81 := by
    rcases inv.cur with hcur | hcur
    · rw [hcur]
      exact hf
    · exact hcur.1
  have hb1cs : (s.board.set f color).getD a.currentString 0 = color := by
    rcases inv.cur with hcur | hcur
    · rw [hcur]
      exact hb1f
    · have hne : f ≠ a.currentString := by
        intro h
        rw [← h, hf0] at hcur
        exact hcol0 hcur.2.symm
      rw [getD_set_of_ne 0 color s.board f a.currentString hne]
      exact hcur.2
  have hopp_b1 : ∀ r : Nat, s.board.getD r 0 = flip color →
      (s.board.set f color).getD r 0 = flip color := by
    intro r hr
    have hne : f ≠ r := by
      intro h
      rw [← h, hf0] at hr
      exact hflip0 hr.symm
    rw [getD_set_of_ne 0 color s.board f r hne]
    exact hr
  have hcs_notopp : ∀ r : Nat, s.board.getD r 0 = flip color →
      r ≠ a.currentString := by
    intro r hr hre
    have h2 := hopp_b1 r hr
    rw [hre, hb1cs] at h2
    exact hflipne h2.symm
  obtain ⟨hfst, hlen2, hoff2, -, hpres2, hr81', hrneg2⟩ :=
    getStringOfStone_ok inv.ufLen inv.ufLk.bounded hfn81 (inv.ufTerm fn hfn81)
  obtain ⟨hoffc, hrcl, hLk2⟩ :=
    getStringOfStone_class inv.ufLen inv.ufLk hfn81 (inv.ufTerm fn hfn81)
  have hR81 : (getStringOfStone a.uf fn).1 < 81 := by
    rw [hfst]
    exact hr81'
  have hRneg : (getStringOfStone a.uf fn).2.getD
      ((getStringOfStone a.uf fn).1) (-1) < 0 := by
    rw [hfst]
    exact hrneg2
  have hcsU2 : (getStringOfStone a.uf fn).2.getD a.currentString (-1) =
      a.uf.getD a.currentString (-1) := by
    refine hoff2 a.currentString ?_
    intro hmem
    have h2 := chase_dropLast_nonneg a.uf 82 fn a.currentString hmem
    have h3 := inv.curRoot
    omega
  have hT2 : ∀ c : Nat, c < 81 → Term (getStringOfStone a.uf fn).2 c :=
    fun c hc => (hpres2 c (inv.ufTerm c hc)).1
  have hR2 : ∀ c : Nat, c < 81 →
      ufRoot (getStringOfStone a.uf fn).2 c = ufRoot a.uf c :=
    fun c hc => (hpres2 c (inv.ufTerm c hc)).2
  by_cases hcase : s.board.getD fn 0 = color
  · -- friendly neighbor
    have hb1fn : (s.board.set f color).getD fn 0 = color := by
      rw [hbfn]
      exact hcase
    have hb1R : (s.board.set f color).getD ((getStringOfStone a.uf fn).1) 0 =
        color := by
      rw [hfst, hrcl, hb1fn]
    have hcur' : (getStringOfStone a.uf fn).1 = f ∨
        ((getStringOfStone a.uf fn).1 < 81 ∧
          s.board.getD ((getStringOfStone a.uf fn).1) 0 = color) := by
      by_cases hRf : (getStringOfStone a.uf fn).1 = f
      · exact Or.inl hRf
      · refine Or.inr ⟨hR81, ?_⟩
        rw [← getD_set_of_ne 0 color s.board f ((getStringOfStone a.uf fn).1)
          (fun h => hRf h.symm)]
        exact hb1R
    have hnotop : ¬ s.board.getD fn 0 = flip color := by
      rw [hcase]
      exact fun hc => hflipne hc.symm
    have hop1 : oppPreOf s f color (pre ++ [fn]) = oppPreOf s f color pre := by
      rw [oppPreOf_append, if_neg hnotop, List.append_nil]
    have hopp_ne_R : ∀ r : Nat, s.board.getD r 0 = flip color →
        r ≠ (getStringOfStone a.uf fn).1 := by
      intro r hr hre
      have h2 := hopp_b1 r hr
      rw [hre, hb1R] at h2
      exact hflipne h2.symm
    simp only [putStoneStep, hbfn, hcase, eq_self_iff_true, if_true, ite_true]
    by_cases hmerge : a.currentString ≠ (getStringOfStone a.uf fn).1
    · rw [if_pos hmerge]
      have hcsneg2 : (getStringOfStone a.uf fn).2.getD a.currentString (-1) < 0 := by
        rw [hcsU2]
        exact inv.curRoot
      have hlink := fun (c : Nat) (hc : c < 81)
          (ht : Term (getStringOfStone a.uf fn).2 c) =>
        set_link_props hlen2 hLk2.bounded hcsneg2 hRneg hmerge hcs81 hR81 c hc ht
      refine ⟨?_, ?_, ?_, ?_, ?_, hcur', ?_, ?_, inv.capNodup, ?_⟩
      · show ((getStringOfStone a.uf fn).2.set a.currentString
          (Int.ofNat (getStringOfStone a.uf fn).1)).length = 81
        rw [List.length_set]
        exact hlen2
      · simp only [List.length_set]
        exact inv.libsLen
      · intro c hc hv
        by_cases hccs : c = a.currentString
        · have he : ((getStringOfStone a.uf fn).2.set a.currentString
              (Int.ofNat (getStringOfStone a.uf fn).1)).getD c (-1) =
              Int.ofNat (getStringOfStone a.uf fn).1 := by
            rw [hccs]
            exact getD_set_self (-1) _ _ a.currentString
              (by rw [hlen2]; exact hcs81)
          rw [he]
          rw [show (Int.ofNat (getStringOfStone a.uf fn).1).toNat =
            (getStringOfStone a.uf fn).1 from rfl]
          refine ⟨hR81, ?_⟩
          rw [hb1R, hccs, hb1cs]
        · have he : ((getStringOfStone a.uf fn).2.set a.currentString
              (Int.ofNat (getStringOfStone a.uf fn).1)).getD c (-1) =
              (getStringOfStone a.uf fn).2.getD c (-1) :=
            getD_set_of_ne (-1) _ _ a.currentString c (Ne.symm hccs)
          rw [he] at hv ⊢
          exact hLk2 c hc hv
      · intro c hc
        exact (hlink c hc (hT2 c hc)).1
      · intro c hc hcopp
        have hclr := (ufRoot_class hLk2 hc).2
        have hne2 : ufRoot (getStringOfStone a.uf fn).2 c ≠ a.currentString := by
          intro h
          rw [h, hb1cs, hopp_b1 c hcopp] at hclr
          exact hflipne hclr.symm
        obtain ⟨-, hroot'⟩ := hlink c hc (hT2 c hc)
        rw [hroot', if_neg hne2, hR2 c hc]
        exact inv.ufOppRoot c hc hcopp
      · show ((getStringOfStone a.uf fn).2.set a.currentString
          (Int.ofNat (getStringOfStone a.uf fn).1)).getD
            ((getStringOfStone a.uf fn).1) (-1) < 0
        rw [getD_set_of_ne (-1) _ _ a.currentString ((getStringOfStone a.uf fn).1)
          hmerge]
        exact hRneg
      · intro r hr
        rw [hop1]
        have h1 : a.currentString ≠ r := fun h => hcs_notopp r hr h.symm
        have h2 : (getStringOfStone a.uf fn).1 ≠ r := fun h => hopp_ne_R r hr h.symm
        show ((((a.libs.set (getStringOfStone a.uf fn).1
            (a.libs.getD (getStringOfStone a.uf fn).1 (-1) - 1)).set
              (getStringOfStone a.uf fn).1 _).set a.currentString (-1)).getD r (-1)) = _
        rw [getD_set_of_ne (-1) (-1) _ a.currentString r h1,
          getD_set_of_ne (-1) _ _ (getStringOfStone a.uf fn).1 r h2,
          getD_set_of_ne (-1) _ a.libs (getStringOfStone a.uf fn).1 r h2]
        exact inv.libsOpp r hr
      · intro r
        rw [hop1]
        exact inv.capMem r
    · rw [if_neg hmerge]
      refine ⟨hlen2, ?_, hLk2, hT2, ?_, hcur', hRneg, ?_, inv.capNodup, ?_⟩
      · simp only [List.length_set]
        exact inv.libsLen
      · intro c hc hcopp
        rw [hR2 c hc]
        exact inv.ufOppRoot c hc hcopp
      · intro r hr
        rw [hop1]
        have h2 : (getStringOfStone a.uf fn).1 ≠ r := fun h => hopp_ne_R r hr h.symm
        show (a.libs.set (getStringOfStone a.uf fn).1
          (a.libs.getD (getStringOfStone a.uf fn).1 (-1) - 1)).getD r (-1) = _
        rw [getD_set_of_ne (-1) _ a.libs (getStringOfStone a.uf fn).1 r h2]
        exact inv.libsOpp r hr
      · intro r
        rw [hop1]
        exact inv.capMem r
  · by_cases hcase2 : s.board.getD fn 0 = 0
    · -- empty neighbor: no effect
      have hne1 : ¬ (s.board.set f color).getD fn 0 = color := by
        rw [hbfn, hcase2]
        exact fun h => hcol0 h.symm
      have hne2 : ¬ (s.board.set f color).getD fn 0 ≠ 0 := by
        rw [hbfn]
        exact not_not_intro hcase2
      have hnotop : ¬ s.board.getD fn 0 = flip color := by
        rw [hcase2]
        exact fun hc => hflip0 hc.symm
      have hop1 : oppPreOf s f color (pre ++ [fn]) = oppPreOf s f color pre := by
        rw [oppPreOf_append, if_neg hnotop, List.append_nil]
      simp only [putStoneStep]
      rw [if_neg hne1, if_neg hne2]
      refine ⟨inv.ufLen, inv.libsLen, inv.ufLk, inv.ufTerm, inv.ufOppRoot, inv.cur,
        inv.curRoot, ?_, inv.capNodup, ?_⟩
      · intro r hr
        rw [hop1]
        exact inv.libsOpp r hr
      · intro r
        rw [hop1]
        exact inv.capMem r
    · -- enemy neighbor
      have hopp : s.board.getD fn 0 = flip color := by
        have hle := hvals fn hfn81
        rcases hcol with h | h <;> subst h
        · show s.board.getD fn 0 = 2
          omega
        · show s.board.getD fn 0 = 1
          omega
      have hgs1 : (getStringOfStone a.uf fn).1 = ufRoot s.stringUnionFind fn := by
        rw [hfst]
        exact inv.ufOppRoot fn hfn81 hopp
      obtain ⟨hr81s, hrcls⟩ := ufRoot_class hLks hfn81
      have hropp : s.board.getD (ufRoot s.stringUnionFind fn) 0 = flip color := by
        rw [hrcls, hopp]
      have hne1 : ¬ (s.board.set f color).getD fn 0 = color := by
        rw [hbfn]
        exact hcase
      have hne2 : (s.board.set f color).getD fn 0 ≠ 0 := by
        rw [hbfn, hopp]
        exact hflip0
      have hop2 : oppPreOf s f color (pre ++ [fn]) =
          oppPreOf s f color pre ++ [ufRoot s.stringUnionFind fn] := by
        rw [oppPreOf_append, if_pos hopp]
      have hrmem : ufRoot s.stringUnionFind fn ∈ oppPreOf s f color (pre ++ [fn]) := by
        rw [hop2]
        simp
      have hcount_r : (oppPreOf s f color (pre ++ [fn])).count
          (ufRoot s.stringUnionFind fn) =
          (oppPreOf s f color pre).count (ufRoot s.stringUnionFind fn) + 1 := by
        rw [hop2, List.count_append]
        simp [List.count_cons]
      have hcount_ne : ∀ q : Nat, q ≠ ufRoot s.stringUnionFind fn →
          (oppPreOf s f color (pre ++ [fn])).count q =
            (oppPreOf s f color pre).count q := by
        intro q hq
        rw [hop2, List.count_append]
        simp [List.count_cons, hq]
      have hmem_ne : ∀ q : Nat, q ≠ ufRoot s.stringUnionFind fn →
          (q ∈ oppPreOf s f color (pre ++ [fn]) ↔ q ∈ oppPreOf s f color pre) := by
        intro q hq
        rw [hop2]
        simp [List.mem_append, hq]
      have hsubopp : (oppPreOf s f color (pre ++ [fn])).Sublist
          (oppColorRootSeq s f color) := by
        rw [oppColorRootSeq_eq_oppPreOf]
        exact oppPreOf_sublist s f color hsub
      have hlibr : (a.libs.set (ufRoot s.stringUnionFind fn)
          (a.libs.getD (ufRoot s.stringUnionFind fn) (-1) - 1)).getD
            (ufRoot s.stringUnionFind fn) (-1) =
          s.stringLiberties.getD (ufRoot s.stringUnionFind fn) (-1) -
            ((oppPreOf s f color pre).count (ufRoot s.stringUnionFind fn) : Int)
            - 1 := by
        rw [getD_set_self (-1) _ a.libs (ufRoot s.stringUnionFind fn)
          (by rw [inv.libsLen]; exact hr81s)]
        rw [inv.libsOpp (ufRoot s.stringUnionFind fn) hropp]
      have hcsneg2 : (getStringOfStone a.uf fn).2.getD a.currentString (-1) < 0 := by
        rw [hcsU2]
        exact inv.curRoot
      have hOppR2 : ∀ c : Nat, c < 81 → s.board.getD c 0 = flip color →
          ufRoot (getStringOfStone a.uf fn).2 c = ufRoot s.stringUnionFind c := by
        intro c hc hcopp
        rw [hR2 c hc]
        exact inv.ufOppRoot c hc hcopp
      simp only [putStoneStep]
      rw [if_neg hne1, if_pos hne2, hgs1]
      by_cases hC : s.stringLiberties.getD (ufRoot s.stringUnionFind fn) (-1) =
          ((oppPreOf s f color pre).count (ufRoot s.stringUnionFind fn) : Int) + 1
      · -- the enemy string runs out of liberties here
        have hnotin : ufRoot s.stringUnionFind fn ∉ a.captured := by
          intro hin
          have hp := (inv.capMem (ufRoot s.stringUnionFind fn)).1 hin
          omega
        rw [if_pos (⟨by rw [hlibr]; omega, hnotin⟩ :
          (a.libs.set (ufRoot s.stringUnionFind fn)
            (a.libs.getD (ufRoot s.stringUnionFind fn) (-1) - 1)).getD
              (ufRoot s.stringUnionFind fn) (-1) = 0 ∧
            ufRoot s.stringUnionFind fn ∉ a.captured)]
        refine ⟨hlen2, ?_, hLk2, hT2, hOppR2, inv.cur, hcsneg2, ?_, ?_, ?_⟩
        · simp only [List.length_set]
          exact inv.libsLen
        · intro q hq
          by_cases hqr : q = ufRoot s.stringUnionFind fn
          · subst hqr
            rw [hlibr, hcount_r]
            push_cast
            ring
          · show (a.libs.set (ufRoot s.stringUnionFind fn)
              (a.libs.getD (ufRoot s.stringUnionFind fn) (-1) - 1)).getD q (-1) = _
            rw [getD_set_of_ne (-1) _ a.libs (ufRoot s.stringUnionFind fn) q
              (fun h => hqr h.symm)]
            rw [inv.libsOpp q hq, hcount_ne q hqr]
        · show (a.captured ++ [ufRoot s.stringUnionFind fn]).Nodup
          simp [List.nodup_append, inv.capNodup, hnotin]
        · intro q
          show q ∈ a.captured ++ [ufRoot s.stringUnionFind fn] ↔ _
          by_cases hqr : q = ufRoot s.stringUnionFind fn
          · subst hqr
            constructor
            · intro _
              exact ⟨hrmem, by omega⟩
            · intro _
              exact List.mem_append_right _ (by simp)
          · rw [List.mem_append]
            constructor
            · intro hq
              rcases hq with hq1 | hq2
              · have hp := (inv.capMem q).1 hq1
                exact ⟨(hmem_ne q hqr).2 hp.1, by rw [hcount_ne q hqr]; exact hp.2⟩
              · exact absurd (List.mem_singleton.1 hq2) hqr
            · intro ⟨hqm, hqc⟩
              left
              refine (inv.capMem q).2 ⟨(hmem_ne q hqr).1 hqm, ?_⟩
              rw [hcount_ne q hqr] at hqc
              exact hqc
      · -- liberties not exhausted at this encounter
        have hcond : ¬((a.libs.set (ufRoot s.stringUnionFind fn)
            (a.libs.getD (ufRoot s.stringUnionFind fn) (-1) - 1)).getD
              (ufRoot s.stringUnionFind fn) (-1) = 0 ∧
            ufRoot s.stringUnionFind fn ∉ a.captured) := by
          intro hcc
          have hz := hcc.1
          rw [hlibr] at hz
          omega
        rw [if_neg hcond]
        refine ⟨hlen2, ?_, hLk2, hT2, hOppR2, inv.cur, hcsneg2, ?_, inv.capNodup, ?_⟩
        · simp only [List.length_set]
          exact inv.libsLen
        · intro q hq
          by_cases hqr : q = ufRoot s.stringUnionFind fn
          · subst hqr
            rw [hlibr, hcount_r]
            push_cast
            ring
          · show (a.libs.set (ufRoot s.stringUnionFind fn)
              (a.libs.getD (ufRoot s.stringUnionFind fn) (-1) - 1)).getD q (-1) = _
            rw [getD_set_of_ne (-1) _ a.libs (ufRoot s.stringUnionFind fn) q
              (fun h => hqr h.symm)]
            rw [inv.libsOpp q hq, hcount_ne q hqr]
        · intro q
          by_cases hqr : q = ufRoot s.stringUnionFind fn
          · subst hqr
            constructor
            · intro hin
              have hp := (inv.capMem (ufRoot s.stringUnionFind fn)).1 hin
              have hqS : ufRoot s.stringUnionFind fn ∈ oppColorRootSeq s f color :=
                hsubopp.subset hrmem
              have hle := hlib (ufRoot s.stringUnionFind fn) hqS
              have hle2 : (oppPreOf s f color (pre ++ [fn])).count
                  (ufRoot s.stringUnionFind fn) ≤
                  (oppColorRootSeq s f color).count (ufRoot s.stringUnionFind fn) :=
                hsubopp.count_le (ufRoot s.stringUnionFind fn)
              exfalso
              omega
            · intro ⟨_, hqc⟩
              exfalso
              omega
          · constructor
            · intro hin
              have hp := (inv.capMem q).1 hin
              exact ⟨(hmem_ne q hqr).2 hp.1, by rw [hcount_ne q hqr]; exact hp.2⟩
            · intro ⟨hqm, hqc⟩
              refine (inv.capMem q).2 ⟨(hmem_ne q hqr).1 hqm, ?_⟩
              rw [hcount_ne q hqr] at hqc
              exact hqc

/-- The walk invariant survives any suffix of the survey. -/
theorem walk_run (s : GoState) (f color : Nat)
    (hcol : color = 1 ∨ color = 2)
    (hblen : s.board.length = 81)
    (hvals : ∀ c : Nat, c < 81 → s.board.getD c 0 ≤ 2)
    (hf : f < 81) (hf0 : s.board.getD f 0 = 0)
    (hLks : LinksOk s.board s.stringUnionFind)
    (hlib : ∀ r ∈ oppColorRootSeq s f color,
      ((oppColorRootSeq s f color).count r : Int) ≤ s.stringLiberties.getD r (-1)) :
    ∀ (rest pre : List Nat) (a : PSLoop),
    (pre ++ rest).Sublist (neighborsOf f) →
    WalkInv s f color pre a →
    WalkInv s f color (pre ++ rest)
      (rest.foldl (putStoneStep (s.board.set f color) color) a) := by
  intro rest
  induction rest with
  | nil =>
    intro pre a _ inv
    rw [List.append_nil]
    exact inv
  | cons fn rest2 ih =>
    intro pre a hsub inv
    rw [List.foldl_cons]
    have hassoc : pre ++ fn :: rest2 = (pre ++ [fn]) ++ rest2 := by simp
    have hsub2 : ((pre ++ [fn]) ++ rest2).Sublist (neighborsOf f) := by
      rw [← hassoc]
      exact hsub
    have hsub3 : (pre ++ [fn]).Sublist (neighborsOf f) :=
      (List.sublist_append_left _ _).trans hsub2
    have hstep := walk_step s f color fn pre a hcol hblen hvals hf hf0 hLks hlib
      hsub3 inv
    have hrest := ih (pre ++ [fn]) _ hsub2 hstep
    rw [hassoc]
    exact hrest

/-- The walk invariant holds before the first surveyed neighbor. -/
theorem walk_base (s : GoState) (f color : Nat)
    (hcol : color = 1 ∨ color = 2)
    (hliblen : s.stringLiberties.length = 81)
    (hf : f < 81) (hf0 : s.board.getD f 0 = 0)
    (hlen81 : s.stringUnionFind.length = 81)
    (hLks : LinksOk s.board s.stringUnionFind)
    (hterms : ∀ c : Nat, c < 81 → Term s.stringUnionFind c)
    (hclean : ∀ c : Nat, c < 81 → s.board.getD c 0 = 0 →
      s.stringUnionFind.getD c (-1) < 0) :
    WalkInv s f color []
      ⟨f, s.stringUnionFind,
       s.stringLiberties.set f (Int.ofNat (((neighborsOf f).filter
         (fun n => (s.board.set f color).getD n 0 == 0)).length)),
       s.stringSizes.set f 1, []⟩ := by
  have hflip0 : flip color ≠ 0 := by
    rcases hcol with h | h <;> subst h <;> decide
  refine ⟨hlen81, ?_, ?_, hterms, fun c _ _ => rfl, Or.inl rfl, hclean f hf hf0,
    ?_, List.nodup_nil, ?_⟩
  · rw [List.length_set]
    exact hliblen
  · show LinksOk (s.board.set f color) s.stringUnionFind
    intro c hc hv
    have hcne : s.board.getD c 0 ≠ 0 := by
      intro h0
      have h2 := hclean c hc h0
      omega
    obtain ⟨ht81, htcl⟩ := hLks c hc hv
    have hcnef : f ≠ c := by
      intro h
      rw [← h, hf0] at hcne
      exact hcne rfl
    have htne : s.board.getD (s.stringUnionFind.getD c (-1)).toNat 0 ≠ 0 := by
      rw [htcl]
      exact hcne
    have htnef : f ≠ (s.stringUnionFind.getD c (-1)).toNat := by
      intro h
      rw [← h, hf0] at htne
      exact htne rfl
    refine ⟨ht81, ?_⟩
    rw [getD_set_of_ne 0 color s.board f _ htnef,
      getD_set_of_ne 0 color s.board f c hcnef]
    exact htcl
  · intro r hr
    have hrf : f ≠ r := by
      intro h
      rw [← h, hf0] at hr
      exact hflip0 hr.symm
    show (s.stringLiberties.set f _).getD r (-1) = _
    rw [getD_set_of_ne (-1) _ s.stringLiberties f r hrf]
    show s.stringLiberties.getD r (-1) =
      s.stringLiberties.getD r (-1) - ((List.count r [] : Nat) : Int)
    simp
  · intro r
    show r ∈ ([] : List Nat) ↔ _
    constructor
    · intro h
      exact absurd h (List.not_mem_nil r)
    · intro ⟨h, _⟩
      exact absurd h (List.not_mem_nil r)

/-- `_put_stone` characterized on well-linked terminating positions: the
hash gains exactly the placed stone's constant, the grid gains the stone,
and the returned capture queue holds exactly the distinct adjacent enemy
chain roots whose liberty count equals their adjacency count with the
placed cell. -/
theorem putStone_char (z : Zob) (s : GoState) (f color : Nat)
    (hcol : color = 1 ∨ color = 2)
    (hblen : s.board.length = 81)
    (hvals : ∀ c : Nat, c < 81 → s.board.getD c 0 ≤ 2)
    (hliblen : s.stringLiberties.length = 81)
    (hf : f < 81) (hf0 : s.board.getD f 0 = 0)
    (hlen81 : s.stringUnionFind.length = 81)
    (hLks : LinksOk s.board s.stringUnionFind)
    (hterms : ∀ c : Nat, c < 81 → Term s.stringUnionFind c)
    (hclean : ∀ c : Nat, c < 81 → s.board.getD c 0 = 0 →
      s.stringUnionFind.getD c (-1) < 0)
    (hlib : ∀ r ∈ oppColorRootSeq s f color,
      ((oppColorRootSeq s f color).count r : Int) ≤ s.stringLiberties.getD r (-1)) :
    (putStone z s f color).2.currentHash = s.currentHash ^^^ z.posHash f color ∧
    (putStone z s f color).2.board = s.board.set f color ∧
    (putStone z s f color).2.nextPlayer = s.nextPlayer ∧
    (putStone z s f color).1.Nodup ∧
    (∀ r : Nat, r ∈ (putStone z s f color).1 ↔
      r ∈ oppColorRootSeq s f color ∧
        ((oppColorRootSeq s f color).count r : Int) =
          s.stringLiberties.getD r (-1)) := by
  have hbase := walk_base s f color hcol hliblen hf hf0 hlen81 hLks hterms hclean
  have hrun := walk_run s f color hcol hblen hvals hf hf0 hLks hlib
    (neighborsOf f) [] _ (by simp) hbase
  rw [List.nil_append] at hrun
  refine ⟨rfl, rfl, rfl, hrun.capNodup, ?_⟩
  intro r
  rw [oppColorRootSeq_eq_oppPreOf]
  exact hrun.capMem r

/-- The capture queue of `_put_stone` is a permutation of the enemy roots
the super-ko simulation predicts to be captured. -/
theorem putStone_captured_perm (z : Zob) (s : GoState) (f color : Nat)
    (hcol : color = 1 ∨ color = 2)
    (hblen : s.board.length = 81)
    (hvals : ∀ c : Nat, c < 81 → s.board.getD c 0 ≤ 2)
    (hliblen : s.stringLiberties.length = 81)
    (hf : f < 81) (hf0 : s.board.getD f 0 = 0)
    (hlen81 : s.stringUnionFind.length = 81)
    (hLks : LinksOk s.board s.stringUnionFind)
    (hterms : ∀ c : Nat, c < 81 → Term s.stringUnionFind c)
    (hclean : ∀ c : Nat, c < 81 → s.board.getD c 0 = 0 →
      s.stringUnionFind.getD c (-1) < 0)
    (hlib : ∀ r ∈ oppColorRootSeq s f color,
      ((oppColorRootSeq s f color).count r : Int) ≤ s.stringLiberties.getD r (-1)) :
    (putStone z s f color).1.Perm (capturedPred s f color) := by
  obtain ⟨-, -, -, hnd, hmem⟩ :=
    putStone_char z s f color hcol hblen hvals hliblen hf hf0 hlen81 hLks hterms
      hclean hlib
  refine (List.perm_ext_iff_of_nodup hnd ?_).2 ?_
  · exact (dedupFirst_nodup _).filter _
  · intro r
    rw [hmem r]
    unfold capturedPred
    rw [List.mem_filter, mem_dedupFirst]
    constructor
    · intro ⟨h1, h2⟩
      refine ⟨h1, ?_⟩
      rw [beq_iff_eq]
      exact h2.symm
    · intro ⟨h1, h2⟩
      refine ⟨h1, ?_⟩
      rw [beq_iff_eq] at h2
      exact h2.symm

/-! ## C2: the committed hash equals the super-ko prediction -/

theorem rootSeq_congr (board : List Nat) (u1 u2 : List Int) (p : Nat → Bool)
    (ns : List Nat) (h : ∀ n ∈ ns, ufRoot u1 n = ufRoot u2 n) :
    rootSeqOf board u1 p ns = rootSeqOf board u2 p ns := by
  unfold rootSeqOf
  refine List.map_congr_left ?_
  intro n hn
  exact h n (List.mem_filter.1 hn).1

/-- Consistency of the position survives the super-ko survey: the
post-survey state that `play_move` commits on keeps the same length,
links, termination, clean empty cells, enemy root sequence and predicted
capture set as the original position. -/
theorem superko_transfer (z : Zob) (s : GoState) (f color : Nat)
    (hlen81 : s.stringUnionFind.length = 81)
    (hLk : LinksOk s.board s.stringUnionFind)
    (hterm : ∀ c : Nat, c < 81 → Term s.stringUnionFind c)
    (hclean : ∀ c : Nat, c < 81 → s.board.getD c 0 = 0 →
      s.stringUnionFind.getD c (-1) < 0)
    (hf : f < 81) (hcol : color = 1 ∨ color = 2) :
    (isSuperKo z s f color).2.2.stringUnionFind.length = 81 ∧
    LinksOk s.board (isSuperKo z s f color).2.2.stringUnionFind ∧
    (∀ c : Nat, c < 81 → Term (isSuperKo z s f color).2.2.stringUnionFind c) ∧
    (∀ c : Nat, c < 81 → s.board.getD c 0 = 0 →
      (isSuperKo z s f color).2.2.stringUnionFind.getD c (-1) < 0) ∧
    oppColorRootSeq (isSuperKo z s f color).2.2 f color =
      oppColorRootSeq s f color ∧
    capturedPred (isSuperKo z s f color).2.2 f color = capturedPred s f color := by
  obtain ⟨-, h2, h3, h4, h5, h6⟩ := isSuperKo_ok z s f color hlen81 hLk hterm hf
  have hflip0 : flip color ≠ 0 := by
    rcases hcol with h | h <;> subst h <;> decide
  have hseq : oppColorRootSeq (isSuperKo z s f color).2.2 f color =
      oppColorRootSeq s f color := by
    show rootSeqOf s.board (isSuperKo z s f color).2.2.stringUnionFind
        (fun n => s.board.getD n 0 == flip color) (neighborsOf f) =
      rootSeqOf s.board s.stringUnionFind
        (fun n => s.board.getD n 0 == flip color) (neighborsOf f)
    refine rootSeq_congr _ _ _ _ _ ?_
    intro n hn
    exact h5 n (neighborsOf_mem_lt hf hn).1
  refine ⟨h2, h3, h4, ?_, hseq, ?_⟩
  · intro c hc h0
    rw [h6 c (by rw [h0]; exact Ne.symm hflip0)]
    exact hclean c hc h0
  · show (dedupFirst (oppColorRootSeq (isSuperKo z s f color).2.2 f color)).filter
        (fun r => s.stringLiberties.getD r (-1) ==
          ((oppColorRootSeq (isSuperKo z s f color).2.2 f color).count r : Int)) =
      capturedPred s f color
    rw [hseq]
    rfl

/-- Core refinement fact: committing a stone with `_put_stone` on the
post-survey state and then capturing every queued string produces exactly
the hash the super-ko simulation predicted. -/
theorem putStone_capture_hash (z : Zob) (s : GoState) (f color : Nat)
    (hcol : color = 1 ∨ color = 2)
    (hblen : s.board.length = 81)
    (hvals : ∀ c : Nat, c < 81 → s.board.getD c 0 ≤ 2)
    (hliblen : s.stringLiberties.length = 81)
    (hf : f < 81) (hf0 : s.board.getD f 0 = 0)
    (hlen81 : s.stringUnionFind.length = 81)
    (hLk : LinksOk s.board s.stringUnionFind)
    (hterm : ∀ c : Nat, c < 81 → Term s.stringUnionFind c)
    (hclean : ∀ c : Nat, c < 81 → s.board.getD c 0 = 0 →
      s.stringUnionFind.getD c (-1) < 0)
    (hlib : ∀ r ∈ oppColorRootSeq s f color,
      ((oppColorRootSeq s f color).count r : Int) ≤ s.stringLiberties.getD r (-1))
    (hbfs : ∀ r ∈ capturedPred s f color, (breadthSearchString s.board r).Nodup ∧
      ∀ x ∈ breadthSearchString s.board r, x < 81 ∧ s.board.getD x 0 = flip color)
    (hdisj : ∀ r ∈ capturedPred s f color, ∀ r2 ∈ capturedPred s f color, r ≠ r2 →
      ∀ x ∈ breadthSearchString s.board r, x ∉ breadthSearchString s.board r2)
    (hstab : ∀ i : Nat,
      i < (putStone z (isSuperKo z s f color).2.2 f color).1.length →
      breadthSearchString (clearCells (s.board.set f color)
        (((putStone z (isSuperKo z s f color).2.2 f color).1.take i).flatMap
          (fun r => breadthSearchString s.board r)))
        ((putStone z (isSuperKo z s f color).2.2 f color).1.getD i 0) =
      breadthSearchString s.board
        ((putStone z (isSuperKo z s f color).2.2 f color).1.getD i 0)) :
    ((putStone z (isSuperKo z s f color).2.2 f color).1.foldl (captureString z)
        (putStone z (isSuperKo z s f color).2.2 f color).2).currentHash =
      (isSuperKo z s f color).2.1 := by
  have hflip0 : flip color ≠ 0 := by
    rcases hcol with h | h <;> subst h <;> decide
  obtain ⟨hl2, hLk2, hT2, hclean2, hseq, hcap⟩ :=
    superko_transfer z s f color hlen81 hLk hterm hclean hf hcol
  have hlib2 : ∀ r ∈ oppColorRootSeq (isSuperKo z s f color).2.2 f color,
      ((oppColorRootSeq (isSuperKo z s f color).2.2 f color).count r : Int) ≤
        (isSuperKo z s f color).2.2.stringLiberties.getD r (-1) := by
    rw [hseq]
    exact hlib
  obtain ⟨hhash, hboard, -, hnd, -⟩ :=
    putStone_char z (isSuperKo z s f color).2.2 f color hcol hblen hvals hliblen
      hf hf0 hl2 hLk2 hT2 hclean2 hlib2
  have hperm0 := putStone_captured_perm z (isSuperKo z s f color).2.2 f color hcol
    hblen hvals hliblen hf hf0 hl2 hLk2 hT2 hclean2 hlib2
  have hperm : (putStone z (isSuperKo z s f color).2.2 f color).1.Perm
      (capturedPred s f color) := by
    rw [← hcap]
    exact hperm0
  have hloop := capture_loop z (flip color)
    (fun r => breadthSearchString s.board r)
    (putStone z (isSuperKo z s f color).2.2 f color).1
    (putStone z (isSuperKo z s f color).2.2 f color).2
    (by rw [hboard]
        show (s.board.set f color).length = 81
        rw [List.length_set]
        exact hblen)
    hnd ?_ ?_ ?_
  · have hsk : (isSuperKo z s f color).2.1 =
        (capturedPred s f color).foldl
          (fun h r => (breadthSearchString s.board r).foldl
            (fun h2 x => h2 ^^^ z.posHash x (flip color)) h)
          (s.currentHash ^^^ z.posHash f color) :=
      (isSuperKo_ok z s f color hlen81 hLk hterm hf).1
    rw [hsk]
    have hloop2 : ((putStone z (isSuperKo z s f color).2.2 f color).1.foldl
        (captureString z)
        (putStone z (isSuperKo z s f color).2.2 f color).2).currentHash =
      (putStone z (isSuperKo z s f color).2.2 f color).1.foldl
        (fun h r => (breadthSearchString s.board r).foldl
          (fun h2 x => h2 ^^^ z.posHash x (flip color)) h)
        (putStone z (isSuperKo z s f color).2.2 f color).2.currentHash := hloop
    rw [hloop2, hhash]
    refine foldl_eq_of_perm _ ?_ hperm _
    intro h a b
    exact xor_fold_rightComm (fun x => z.posHash x (flip color))
      (breadthSearchString s.board a) (breadthSearchString s.board b) h
  · intro r hr
    have hr2 : r ∈ capturedPred s f color := hperm.mem_iff.1 hr
    obtain ⟨hndB, hvalB⟩ := hbfs r hr2
    refine ⟨hndB, ?_⟩
    intro x hx
    refine ⟨(hvalB x hx).1, ?_⟩
    have hxf : f ≠ x := by
      intro h
      have hv := (hvalB x hx).2
      rw [← h, hf0] at hv
      exact hflip0 hv.symm
    rw [hboard]
    show (s.board.set f color).getD x 0 = flip color
    rw [getD_set_of_ne 0 color s.board f x hxf]
    exact (hvalB x hx).2
  · intro r hr r2 hr2 hne x hx
    exact hdisj r (hperm.mem_iff.1 hr) r2 (hperm.mem_iff.1 hr2) hne x hx
  · intro i hi
    have hs := hstab i hi
    rw [hboard]
    exact hs

/-- C2: for a non-pass move on an empty cell of a position whose registry
bookkeeping is consistent — in-range boards and arrays, well-linked and
terminating union-find chains, parentless empty cells, per-root liberties
at least the adjacency counts, duplicate-free and pairwise-disjoint flood
fills of the predicted captures, flood fills stable under the placement
and the earlier removals; conditions every position reachable by play
satisfies — the hash obtained by committing the move with `_put_stone` on
the post-survey state (the state `play_move` actually commits on) and then
capturing every queued string is exactly the hash the super-ko simulation
`_is_super_ko` predicted, and the capture queue is a permutation of the
predicted capture set. -/
theorem superko_hash_refinement (z : Zob) (s : GoState) (f color : Nat)
    (hcol : color = 1 ∨ color = 2)
    (hblen : s.board.length = 81)
    (hvals : ∀ c : Nat, c < 81 → s.board.getD c 0 ≤ 2)
    (hliblen : s.stringLiberties.length = 81)
    (hf : f < 81) (hf0 : s.board.getD f 0 = 0)
    (hlen81 : s.stringUnionFind.length = 81)
    (hLk : LinksOk s.board s.stringUnionFind)
    (hterm : ∀ c : Nat, c < 81 → Term s.stringUnionFind c)
    (hclean : ∀ c : Nat, c < 81 → s.board.getD c 0 = 0 →
      s.stringUnionFind.getD c (-1) < 0)
    (hlib : ∀ r ∈ oppColorRootSeq s f color,
      ((oppColorRootSeq s f color).count r : Int) ≤ s.stringLiberties.getD r (-1))
    (hbfs : ∀ r ∈ capturedPred s f color, (breadthSearchString s.board r).Nodup ∧
      ∀ x ∈ breadthSearchString s.board r, x < 81 ∧ s.board.getD x 0 = flip color)
    (hdisj : ∀ r ∈ capturedPred s f color, ∀ r2 ∈ capturedPred s f color, r ≠ r2 →
      ∀ x ∈ breadthSearchString s.board r, x ∉ breadthSearchString s.board r2)
    (hstab : ∀ i : Nat,
      i < (putStone z (isSuperKo z s f color).2.2 f color).1.length →
      breadthSearchString (clearCells (s.board.set f color)
        (((putStone z (isSuperKo z s f color).2.2 f color).1.take i).flatMap
          (fun r => breadthSearchString s.board r)))
        ((putStone z (isSuperKo z s f color).2.2 f color).1.getD i 0) =
      breadthSearchString s.board
        ((putStone z (isSuperKo z s f color).2.2 f color).1.getD i 0)) :
    (putStone z (isSuperKo z s f color).2.2 f color).1.Perm
      (capturedPred s f color) ∧
    ((putStone z (isSuperKo z s f color).2.2 f color).1.foldl (captureString z)
        (putStone z (isSuperKo z s f color).2.2 f color).2).currentHash =
      (isSuperKo z s f color).2.1 := by
  obtain ⟨hl2, hLk2, hT2, hclean2, hseq, hcap⟩ :=
    superko_transfer z s f color hlen81 hLk hterm hclean hf hcol
  have hlib2 : ∀ r ∈ oppColorRootSeq (isSuperKo z s f color).2.2 f color,
      ((oppColorRootSeq (isSuperKo z s f color).2.2 f color).count r : Int) ≤
        (isSuperKo z s f color).2.2.stringLiberties.getD r (-1) := by
    rw [hseq]
    exact hlib
  refine ⟨?_, putStone_capture_hash z s f color hcol hblen hvals hliblen hf hf0
    hlen81 hLk hterm hclean hlib hbfs hdisj hstab⟩
  rw [← hcap]
  exact putStone_captured_perm z (isSuperKo z s f color).2.2 f color hcol
    hblen hvals hliblen hf hf0 hl2 hLk2 hT2 hclean2 hlib2

theorem superko_hash_refinement_witness :
    (putStone zT (isSuperKo zT koPrefix 2 1).2.2 2 1).1.Perm
      (capturedPred koPrefix 2 1) ∧
    ((putStone zT (isSuperKo zT koPrefix 2 1).2.2 2 1).1.foldl (captureString zT)
        (putStone zT (isSuperKo zT koPrefix 2 1).2.2 2 1).2).currentHash =
      (isSuperKo zT koPrefix 2 1).2.1 :=
  superko_hash_refinement zT koPrefix 2 1 (Or.inl rfl) (by decide) (by decide)
    (by decide) (by omega) (by decide) (by decide) (by decide) (by decide)
    (by decide) (by decide) (by decide) (by decide) (by decide)

/-! ## C1: the super-ko gate of `play_move`/`push` -/

/-- C1: on a game that is not over, a non-pass move on an on-board cell
whose simulated post-capture hash was recorded earlier in the game path is
rejected: `play_move` returns `False` with only the history-name append
and the survey's path compression as effects, `push` returns `False`, the
move is excluded from `legal_moves`, and `weak_legal_moves` still lists it
whenever it is empty and not a suicide.  A move on an empty-set cell whose
simulated hash is not in the seen-hash set is committed and
`play_move`/`push` return `True`, provided the position's registry
bookkeeping is consistent (the inner conditions, which every position
reachable by play satisfies: they discharge the commit-time
`assert tmpHash == self._currentHash`). -/
theorem superko_gate (z : Zob) (s : GoState) (f : Nat)
    (hgo : s.gameOver = false) (hf : f < 81) :
    ((isSuperKo z s f s.nextPlayer).2.1 ∈ s.seenHashes →
      play_move z s (f : Int) = .ok (some false,
        { (isSuperKo z s f s.nextPlayer).2.2 with
          historyMoveNames := s.historyMoveNames ++ [flat_to_name (f : Int)] }) ∧
      (∃ t : GoState, push z s (f : Int) = .ok (some false, t)) ∧
      (f : Int) ∉ legal_moves z s ∧
      ((isSuicide s f s.nextPlayer).1 = false → f ∈ s.empties →
        (f : Int) ∈ weak_legal_moves s)) ∧
    ((isSuperKo z s f s.nextPlayer).2.1 ∉ s.seenHashes → f ∈ s.empties →
      (s.nextPlayer = 1 ∨ s.nextPlayer = 2) →
      s.board.length = 81 →
      (∀ c : Nat, c < 81 → s.board.getD c 0 ≤ 2) →
      s.stringLiberties.length = 81 →
      s.board.getD f 0 = 0 →
      s.stringUnionFind.length = 81 →
      LinksOk s.board s.stringUnionFind →
      (∀ c : Nat, c < 81 → Term s.stringUnionFind c) →
      (∀ c : Nat, c < 81 → s.board.getD c 0 = 0 →
        s.stringUnionFind.getD c (-1) < 0) →
      (∀ r ∈ oppColorRootSeq s f s.nextPlayer,
        ((oppColorRootSeq s f s.nextPlayer).count r : Int) ≤
          s.stringLiberties.getD r (-1)) →
      (∀ r ∈ capturedPred s f s.nextPlayer,
        (breadthSearchString s.board r).Nodup ∧
        ∀ x ∈ breadthSearchString s.board r, x < 81 ∧
          s.board.getD x 0 = flip s.nextPlayer) →
      (∀ r ∈ capturedPred s f s.nextPlayer,
        ∀ r2 ∈ capturedPred s f s.nextPlayer, r ≠ r2 →
        ∀ x ∈ breadthSearchString s.board r, x ∉ breadthSearchString s.board r2) →
      (∀ i : Nat,
        i < (putStone z (isSuperKo z s f s.nextPlayer).2.2 f
          s.nextPlayer).1.length →
        breadthSearchString (clearCells (s.board.set f s.nextPlayer)
          (((putStone z (isSuperKo z s f s.nextPlayer).2.2 f
            s.nextPlayer).1.take i).flatMap
            (fun r => breadthSearchString s.board r)))
          ((putStone z (isSuperKo z s f s.nextPlayer).2.2 f
            s.nextPlayer).1.getD i 0) =
        breadthSearchString s.board
          ((putStone z (isSuperKo z s f s.nextPlayer).2.2 f
            s.nextPlayer).1.getD i 0)) →
      (∃ t : GoState, play_move z s (f : Int) = .ok (some true, t)) ∧
      (∃ t : GoState, push z s (f : Int) = .ok (some true, t))) := by
  constructor
  · intro hseen
    have hsk1 : (isSuperKo z s f s.nextPlayer).1 = true := by
      rw [isSuperKo_seen_decide]
      exact decide_eq_true hseen
    refine ⟨play_move_rejected z s f hgo hf hsk1, ?_, ?_, ?_⟩
    · obtain ⟨t, ht, -⟩ := push_rejected_shape z s f hgo hf hsk1
      exact ⟨t, ht⟩
    · intro hmem
      obtain ⟨-, -, hsk0⟩ := (mem_legal_moves z s f).1 hmem
      rw [hsk1] at hsk0
      exact Bool.noConfusion hsk0
    · intro hsui hemp
      exact (mem_weak_legal_moves s f).2 ⟨hemp, hsui⟩
  · intro hnotseen hemp hnp hblen hvals hliblen hf0 hlen81 hLk hterm hclean hlib
      hbfs hdisj hstab
    have hsk1 : (isSuperKo z s f s.nextPlayer).1 = false := by
      rw [isSuperKo_seen_decide]
      exact decide_eq_false hnotseen
    have hcore := putStone_capture_hash z s f s.nextPlayer hnp hblen hvals hliblen
      hf hf0 hlen81 hLk hterm hclean hlib hbfs hdisj hstab
    constructor
    · exact play_move_commits z s f hgo hf hsk1 hemp hcore.symm
    · have hsk1p : (isSuperKo z (pushBoard s) f (pushBoard s).nextPlayer).1 =
          false := by
        have hcon := (isSuperKo_trail_congr z s (s.trailMoves ++ [frameOf s]) f
          s.nextPlayer).1
        exact hcon.trans hsk1
      have hcore2 := putStone_capture_hash z (pushBoard s) f
        (pushBoard s).nextPlayer hnp hblen hvals hliblen hf hf0 hlen81 hLk hterm
        hclean hlib hbfs hdisj hstab
      obtain ⟨t, ht⟩ := play_move_commits z (pushBoard s) f hgo hf hsk1p hemp
        hcore2.symm
      refine ⟨t, ?_⟩
      have hpp : push z s (f : Int) = play_move z (pushBoard s) (f : Int) := by
        simp [push, hgo]
      exact hpp.trans ht

theorem superko_gate_witness :
    play_move zT (runMoves gameKo) 1 = .ok (some false,
      { (isSuperKo zT (runMoves gameKo) 1 (runMoves gameKo).nextPlayer).2.2 with
        historyMoveNames :=
          (runMoves gameKo).historyMoveNames ++ [flat_to_name 1] }) ∧
    (∃ t : GoState, push zT (runMoves gameKo) 1 = .ok (some false, t)) ∧
    (1 : Int) ∉ legal_moves zT (runMoves gameKo) ∧
    (1 : Int) ∈ weak_legal_moves (runMoves gameKo) := by
  have h := superko_gate zT (runMoves gameKo) 1 (by decide) (by omega)
  have hseen : (isSuperKo zT (runMoves gameKo) 1
      (runMoves gameKo).nextPlayer).2.1 ∈ (runMoves gameKo).seenHashes := by
    decide
  obtain ⟨h1, h2, h3, h4⟩ := h.1 hseen
  exact ⟨h1, h2, h3, h4 (by decide) (by decide)⟩

/-! ## C7: capture effects on the registry -/

/-- The liberty-restoration walk of `_capture_string`'s per-stone removal
gives every chain root one liberty per adjacent occupied cell whose root is
not the freed string, and mutates the registry only by path compression. -/
theorem plusOne_walk (board2 : List Nat) (uf0 : List Int) (s0 : Nat) :
    ∀ (ns : List Nat), (∀ fn ∈ ns, fn < 81) →
    ∀ (u : List Int) (L : List Int), L.length = 81 →
    u.length = 81 → UfBounded u →
    (∀ c : Nat, c < 81 → Term u c) →
    (∀ c : Nat, c < 81 → ufRoot u c = ufRoot uf0 c) →
    (ns.foldl (capStep board2 s0) (u, L)).1.length = 81 ∧
    (ns.foldl (capStep board2 s0) (u, L)).2.length = 81 ∧
    ∀ q : Nat,
    (ns.foldl (capStep board2 s0) (u, L)).2.getD q (-1) =
      L.getD q (-1) + (((ns.filter (fun fn =>
        decide (board2.getD fn 0 ≠ 0) &&
        decide (ufRoot uf0 fn ≠ s0))).map (fun fn => ufRoot uf0 fn)).count q : Int) := by
  intro ns
  induction ns with
  | nil =>
    intro _ u L hL hu _ _ _
    refine ⟨hu, hL, ?_⟩
    intro q
    simp
  | cons fn rest ih =>
    intro hns u L hL hu hB hT hR
    have hfn81 : fn < 81 := hns fn (List.mem_cons_self fn rest)
    have hrest : ∀ g ∈ rest, g < 81 := fun g hg => hns g (List.mem_cons_of_mem fn hg)
    rw [List.foldl_cons, List.filter_cons]
    by_cases h0 : board2.getD fn 0 ≠ 0
    · obtain ⟨hfst, hlen2, -, hB2, hpres2, hr81, -⟩ :=
        getStringOfStone_ok hu hB hfn81 (hT fn hfn81)
      have hroot : (getStringOfStone u fn).1 = ufRoot uf0 fn := by
        rw [hfst]
        exact hR fn hfn81
      have hr81' : ufRoot uf0 fn < 81 := by
        rw [← hR fn hfn81]
        exact hr81
      have hT2 : ∀ c : Nat, c < 81 → Term (getStringOfStone u fn).2 c :=
        fun c hc => (hpres2 c (hT c hc)).1
      have hR2 : ∀ c : Nat, c < 81 →
          ufRoot (getStringOfStone u fn).2 c = ufRoot uf0 c :=
        fun c hc => ((hpres2 c (hT c hc)).2).trans (hR c hc)
      by_cases h1 : ufRoot uf0 fn ≠ s0
      · have hcond : (decide (board2.getD fn 0 ≠ 0) &&
            decide (ufRoot uf0 fn ≠ s0)) = true := by
          rw [decide_eq_true h0, decide_eq_true h1]
          rfl
        rw [hcond, if_pos rfl]
        have hstep : capStep board2 s0 (u, L) fn =
            ((getStringOfStone u fn).2,
             L.set (ufRoot uf0 fn) (L.getD (ufRoot uf0 fn) (-1) + 1)) := by
          unfold capStep
          rw [if_pos h0]
          rw [hroot, if_pos h1]
        rw [hstep]
        obtain ⟨ih1, ih2, ih3⟩ := ih hrest (getStringOfStone u fn).2
          (L.set (ufRoot uf0 fn) (L.getD (ufRoot uf0 fn) (-1) + 1))
          (by rw [List.length_set]; exact hL) hlen2 hB2 hT2 hR2
        refine ⟨ih1, ih2, ?_⟩
        intro q
        rw [ih3 q, List.map_cons, List.count_cons]
        by_cases hq : q = ufRoot uf0 fn
        · rw [hq, getD_set_self (-1) _ L (ufRoot uf0 fn)
            (by rw [hL]; exact hr81')]
          simp only [beq_self_eq_true, if_true]
          push_cast
          omega
        · rw [getD_set_of_ne (-1) _ L (ufRoot uf0 fn) q (fun h => hq h.symm)]
          have hb2 : (ufRoot uf0 fn == q) = false := by
            simp only [beq_eq_false_iff_ne, ne_eq]
            exact fun h => hq h.symm
          simp only [hb2, Bool.false_eq_true, if_false]
          push_cast
          omega
      · have hcond : (decide (board2.getD fn 0 ≠ 0) &&
            decide (ufRoot uf0 fn ≠ s0)) = false := by
          rw [decide_eq_false h1, Bool.and_false]
        rw [hcond, if_neg Bool.false_ne_true]
        have hstep : capStep board2 s0 (u, L) fn = ((getStringOfStone u fn).2, L) := by
          unfold capStep
          rw [if_pos h0]
          rw [hroot, if_neg h1]
        rw [hstep]
        exact ih hrest (getStringOfStone u fn).2 L hL hlen2 hB2 hT2 hR2
    · have hcond : (decide (board2.getD fn 0 ≠ 0) &&
          decide (ufRoot uf0 fn ≠ s0)) = false := by
        rw [decide_eq_false h0, Bool.false_and]
      rw [hcond, if_neg Bool.false_ne_true]
      have hstep : capStep board2 s0 (u, L) fn = (u, L) := by
        unfold capStep
        rw [if_neg h0]
      rw [hstep]
      exact ih hrest u L hL hu hB hT hR

/-- Full characterization of removing one stone on a well-linked
terminating registry.  (The union-find array is invalidated at the freed
cell; other entries may additionally be path-compressed by the restoration
walk's root lookups.) -/
theorem captureOne_char (z : Zob) (st : GoState) (s0 : Nat)
    (hs0 : s0 < 81)
    (hliblen : st.stringLiberties.length = 81)
    (hlen81 : st.stringUnionFind.length = 81)
    (hB : UfBounded st.stringUnionFind)
    (hterm : ∀ c : Nat, c < 81 → Term st.stringUnionFind c) :
    (captureOne z st s0).board = st.board.set s0 0 ∧
    (captureOne z st s0).currentHash =
      st.currentHash ^^^ z.posHash s0 (st.board.getD s0 0) ∧
    (captureOne z st s0).empties = setAdd st.empties s0 ∧
    (st.nextPlayer = 2 →
      (captureOne z st s0).capturedBLACK = st.capturedBLACK + 1 ∧
      (captureOne z st s0).nbBLACK = st.nbBLACK - 1 ∧
      (captureOne z st s0).capturedWHITE = st.capturedWHITE ∧
      (captureOne z st s0).nbWHITE = st.nbWHITE) ∧
    (st.nextPlayer ≠ 2 →
      (captureOne z st s0).capturedWHITE = st.capturedWHITE + 1 ∧
      (captureOne z st s0).nbWHITE = st.nbWHITE - 1 ∧
      (captureOne z st s0).capturedBLACK = st.capturedBLACK ∧
      (captureOne z st s0).nbBLACK = st.nbBLACK) ∧
    (captureOne z st s0).stringUnionFind.getD s0 (-1) = -1 ∧
    (captureOne z st s0).stringSizes = st.stringSizes.set s0 (-1) ∧
    (∀ q : Nat, q ≠ s0 →
      (captureOne z st s0).stringLiberties.getD q (-1) =
        st.stringLiberties.getD q (-1) +
          ((((neighborsOf s0).filter (fun fn =>
              decide ((st.board.set s0 0).getD fn 0 ≠ 0) &&
              decide (ufRoot st.stringUnionFind fn ≠ s0))).map
                (fun fn => ufRoot st.stringUnionFind fn)).count q : Int)) ∧
    (captureOne z st s0).stringLiberties.getD s0 (-1) = -1 := by
  have hns : ∀ fn ∈ neighborsOf s0, fn < 81 :=
    fun fn hfn => (neighborsOf_mem_lt hs0 hfn).1
  have hwalk := plusOne_walk (st.board.set s0 0) st.stringUnionFind s0
    (neighborsOf s0) hns st.stringUnionFind st.stringLiberties hliblen hlen81
    hB hterm (fun c _ => rfl)
  obtain ⟨hw1, hw2, hw3⟩ := hwalk
  by_cases hnp : st.nextPlayer = 2 <;>
    simp only [captureOne, hnp] <;>
    refine ⟨rfl, rfl, rfl, ?_, ?_, ?_, rfl, ?_, ?_⟩
  · intro _
    exact ⟨rfl, rfl, rfl, rfl⟩
  · intro hcontra
    exact absurd rfl hcontra
  · refine getD_set_self (-1) (-1) _ s0 ?_
    show s0 < ((neighborsOf s0).foldl (capStep (st.board.set s0 0) s0)
      (st.stringUnionFind, st.stringLiberties)).1.length
    rw [hw1]
    exact hs0
  · intro q hq
    rw [getD_set_of_ne (-1) (-1) _ s0 q (fun h => hq h.symm)]
    exact hw3 q
  · refine getD_set_self (-1) (-1) _ s0 ?_
    show s0 < ((neighborsOf s0).foldl (capStep (st.board.set s0 0) s0)
      (st.stringUnionFind, st.stringLiberties)).2.length
    rw [hw2]
    exact hs0
  · intro hcontra
    exact hcontra.elim
  · intro _
    exact ⟨rfl, rfl, rfl, rfl⟩
  · refine getD_set_self (-1) (-1) _ s0 ?_
    show s0 < ((neighborsOf s0).foldl (capStep (st.board.set s0 0) s0)
      (st.stringUnionFind, st.stringLiberties)).1.length
    rw [hw1]
    exact hs0
  · intro q hq
    rw [getD_set_of_ne (-1) (-1) _ s0 q (fun h => hq h.symm)]
    exact hw3 q
  · refine getD_set_self (-1) (-1) _ s0 ?_
    show s0 < ((neighborsOf s0).foldl (capStep (st.board.set s0 0) s0)
      (st.stringUnionFind, st.stringLiberties)).2.length
    rw [hw2]
    exact hs0

/-- C7 (amended): capturing a single-stone enemy string clears its cell,
returns it to the empty set, XORs the stone out of the hash, bumps the
mover's capture counter and decrements the captured color's stone count,
invalidates the freed cell's registry entries, and adds to every other
chain root's liberty count one liberty per adjacent occupied cell of the
freed cell whose chain root is not the freed string — so a string adjacent
through two cells gains two liberties, and exactly one only when it
touches the freed cell once. -/
theorem single_stone_capture_effects (z : Zob) (st : GoState) (s0 : Nat)
    (hs0 : s0 < 81)
    (hliblen : st.stringLiberties.length = 81)
    (hlen81 : st.stringUnionFind.length = 81)
    (hB : UfBounded st.stringUnionFind)
    (hterm : ∀ c : Nat, c < 81 → Term st.stringUnionFind c)
    (hone : breadthSearchString st.board s0 = [s0]) :
    (captureString z st s0).board = st.board.set s0 0 ∧
    (captureString z st s0).currentHash =
      st.currentHash ^^^ z.posHash s0 (st.board.getD s0 0) ∧
    (captureString z st s0).empties = setAdd st.empties s0 ∧
    (st.nextPlayer = 2 →
      (captureString z st s0).capturedBLACK = st.capturedBLACK + 1 ∧
      (captureString z st s0).nbBLACK = st.nbBLACK - 1 ∧
      (captureString z st s0).capturedWHITE = st.capturedWHITE ∧
      (captureString z st s0).nbWHITE = st.nbWHITE) ∧
    (st.nextPlayer ≠ 2 →
      (captureString z st s0).capturedWHITE = st.capturedWHITE + 1 ∧
      (captureString z st s0).nbWHITE = st.nbWHITE - 1 ∧
      (captureString z st s0).capturedBLACK = st.capturedBLACK ∧
      (captureString z st s0).nbBLACK = st.nbBLACK) ∧
    (captureString z st s0).stringUnionFind.getD s0 (-1) = -1 ∧
    (captureString z st s0).stringSizes = st.stringSizes.set s0 (-1) ∧
    (∀ q : Nat, q ≠ s0 →
      (captureString z st s0).stringLiberties.getD q (-1) =
        st.stringLiberties.getD q (-1) +
          ((((neighborsOf s0).filter (fun fn =>
              decide ((st.board.set s0 0).getD fn 0 ≠ 0) &&
              decide (ufRoot st.stringUnionFind fn ≠ s0))).map
                (fun fn => ufRoot st.stringUnionFind fn)).count q : Int)) ∧
    (captureString z st s0).stringLiberties.getD s0 (-1) = -1 := by
  have hcs : captureString z st s0 = captureOne z st s0 := by
    unfold captureString
    rw [hone]
    rfl
  rw [hcs]
  exact captureOne_char z st s0 hs0 hliblen hlen81 hB hterm

theorem single_stone_capture_effects_witness :
    (captureString zT koCapture 1).board = koCapture.board.set 1 0 ∧
    (captureString zT koCapture 1).currentHash =
      koCapture.currentHash ^^^ zT.posHash 1 (koCapture.board.getD 1 0) ∧
    (captureString zT koCapture 1).empties = setAdd koCapture.empties 1 ∧
    (koCapture.nextPlayer = 2 →
      (captureString zT koCapture 1).capturedBLACK = koCapture.capturedBLACK + 1 ∧
      (captureString zT koCapture 1).nbBLACK = koCapture.nbBLACK - 1 ∧
      (captureString zT koCapture 1).capturedWHITE = koCapture.capturedWHITE ∧
      (captureString zT koCapture 1).nbWHITE = koCapture.nbWHITE) ∧
    (koCapture.nextPlayer ≠ 2 →
      (captureString zT koCapture 1).capturedWHITE = koCapture.capturedWHITE + 1 ∧
      (captureString zT koCapture 1).nbWHITE = koCapture.nbWHITE - 1 ∧
      (captureString zT koCapture 1).capturedBLACK = koCapture.capturedBLACK ∧
      (captureString zT koCapture 1).nbBLACK = koCapture.nbBLACK) ∧
    (captureString zT koCapture 1).stringUnionFind.getD 1 (-1) = -1 ∧
    (captureString zT koCapture 1).stringSizes =
      koCapture.stringSizes.set 1 (-1) ∧
    (∀ q : Nat, q ≠ 1 →
      (captureString zT koCapture 1).stringLiberties.getD q (-1) =
        koCapture.stringLiberties.getD q (-1) +
          ((((neighborsOf 1).filter (fun fn =>
              decide ((koCapture.board.set 1 0).getD fn 0 ≠ 0) &&
              decide (ufRoot koCapture.stringUnionFind fn ≠ 1))).map
                (fun fn => ufRoot koCapture.stringUnionFind fn)).count q : Int)) ∧
    (captureString zT koCapture 1).stringLiberties.getD 1 (-1) = -1 :=
  single_stone_capture_effects zT koCapture 1 (by omega) (by decide) (by decide)
    (by decide) (by decide) (by decide)

end Goban
